import Mathlib

/-!
A verification development for `gwik/bheap`.

The paged binary heap of `bheap.go`: the index mapping (`parent`, `child`), the sift
loops (`up`, `down`) and the four public operations (`Push`, `Pop`, `Remove`, `Fix`),
embedded over a slice container in the manner of `myHeap` from `heap_test.go`.

Conventions of the embedding:

* `uint64` values are natural numbers below `2 ^ 64`; every arithmetic operation of the
  source that can wrap is written with an explicit reduction modulo `2 ^ 64`;
* `int` values are integers, wrapped into `[-2 ^ 63, 2 ^ 63)` by `wrapInt`; a slice has
  fewer than `2 ^ 63` elements, and the theorems about containers assume so;
* a run either returns (`Res.ok`), stops with a run-time panic such as an index out of
  range (`Res.panic`), or uses up the fuel of a loop (`Res.timeout`);
* the container is the slice of `myHeap`, with an arbitrary element type and an
  arbitrary comparison `lt` on elements (`myHeap` itself is `Int` with `<`).
-/

namespace BHeapModel

/-! ## Machine integers -/

/-- The constant `maxUint64` of the source. -/
def maxUint64 : Nat := 2 ^ 64 - 1

/-- The constant `DefaultPageSize` of the source. -/
def DefaultPageSize : Int := 512

/-- The constant `rootIndex` of the source. -/
def rootIndex : Nat := 1

/-- Wrap an integer into the range of Go's 64-bit `int`. -/
def wrapInt (z : Int) : Int := (2 ^ 63 + z) % 2 ^ 64 - 2 ^ 63

/-- Addition on `uint64`. -/
def add64 (a b : Nat) : Nat := (a + b) % 2 ^ 64

/-- Subtraction on `uint64` (for operands below `2 ^ 64`). -/
def sub64 (a b : Nat) : Nat := (2 ^ 64 + a - b) % 2 ^ 64

/-- Bitwise complement `^x` on `uint64`. -/
def not64 (x : Nat) : Nat := maxUint64 ^^^ x

/-- Left shift `x << s` on `uint64`: a shift count of 64 or more gives zero. -/
def shl64 (x s : Nat) : Nat := if 64 ≤ s then 0 else (x <<< s) % 2 ^ 64

/-- Left shift `1 << s` evaluated in the type `int`, as in the loop condition of `New`. -/
def shlInt (s : Nat) : Int := if 64 ≤ s then 0 else wrapInt (2 ^ s)

/-- The conversion `int(u)` of a `uint64`. -/
def toInt (u : Nat) : Int := wrapInt (u : Int)

/-- The storage slot `int(u) - rootIndex` of a logical position `u`. -/
def slot (u : Nat) : Int := wrapInt (toInt u - (rootIndex : Int))

/-! ## Configuration -/

/-- The struct `BHeap` of the source. -/
structure BHeap where
  pageSize : Nat
  pageMask : Nat
  pageShift : Nat
deriving DecidableEq, Repr

/-- The loop `for s = 1; (1 << s) < pageSize; s++ {}` of `New`, started at `s`;
`none` when the fuel runs out before the loop exits. -/
def newLoop (pageSize : Int) : Nat → Nat → Option Nat
  | 0, _ => none
  | fuel + 1, s =>
    if shlInt s < pageSize then newLoop pageSize fuel (add64 s 1) else some s

/-- The function `New` with an explicit bound on the number of loop tests. -/
def NewFuel (fuel : Nat) (pageSize : Int) : Option BHeap :=
  let pageSize := if pageSize ≤ 0 then DefaultPageSize else pageSize
  match newLoop pageSize fuel 1 with
  | none => none
  | some s =>
    let ps := shl64 1 s
    some { pageSize := ps, pageMask := sub64 ps 1, pageShift := s }

/-- The function `New`; `none` when the loop does not exit. The loop starts at `s = 1` and,
when it exits at all, exits at some `s ≤ 62`, so 64 loop tests are enough
(`New_fuel_enough`). -/
def New (pageSize : Int) : Option BHeap := NewFuel 64 pageSize

/-! ### Well-formed configurations -/

/-- The configuration with page size `2 ^ s`. -/
def BHeap.ofShift (s : Nat) : BHeap :=
  { pageSize := 2 ^ s, pageMask := 2 ^ s - 1, pageShift := s }

/-- The configurations `New` can return: page size `2 ^ s` with `1 ≤ s ≤ 62`. -/
def BHeap.WF (bh : BHeap) : Prop :=
  ∃ s, 1 ≤ s ∧ s ≤ 62 ∧ bh = BHeap.ofShift s

/-! ## The index mapping -/

/-- The method `parent` of the source. -/
def BHeap.parent (bh : BHeap) (u : Nat) : Nat :=
  let po := u &&& bh.pageMask
  if u < bh.pageSize ∨ po > 3 then
    (u &&& not64 bh.pageMask) ||| (po >>> 1)
  else if po < 2 then
    let v := (sub64 u bh.pageSize) >>> bh.pageShift
    let v := add64 v (v &&& not64 (bh.pageMask >>> 1))
    v ||| (bh.pageSize / 2)
  else
    sub64 u 2

/-- The method `child` of the source. The test `left == uu` is kept as written: both
sides are the same `uint64`. -/
def BHeap.child (bh : BHeap) (p : Nat) : Nat × Nat :=
  if p > bh.pageMask ∧ (p &&& (sub64 bh.pageMask 1)) = 0 then
    (add64 p 2, add64 p 2)
  else if p &&& (bh.pageSize >>> 1) ≠ 0 then
    let left := (p &&& not64 bh.pageMask) >>> 1
    let left := left ||| (p &&& (bh.pageMask >>> 1))
    let left := add64 left 1
    let uu := shl64 left bh.pageShift
    let left := uu
    if left = uu then
      (left, add64 left 1)
    else
      (maxUint64, maxUint64)
  else
    let left := add64 p (p &&& bh.pageMask)
    (left, add64 left 1)

/-- The positions `child` computes when its additions and its shift are carried out on
unbounded integers. -/
def BHeap.childWide (bh : BHeap) (p : Nat) : Nat × Nat :=
  if p > bh.pageMask ∧ (p &&& (sub64 bh.pageMask 1)) = 0 then
    (p + 2, p + 2)
  else if p &&& (bh.pageSize >>> 1) ≠ 0 then
    let left := ((p &&& not64 bh.pageMask) >>> 1 ||| (p &&& (bh.pageMask >>> 1))) + 1
    (left <<< bh.pageShift, (left <<< bh.pageShift) + 1)
  else
    (p + (p &&& bh.pageMask), p + (p &&& bh.pageMask) + 1)

/-- The child computation at position `p` does not overflow 64 bits. -/
def BHeap.NoOverflow (bh : BHeap) (p : Nat) : Prop := (bh.childWide p).2 < 2 ^ 64

instance (bh : BHeap) (p : Nat) : Decidable (bh.NoOverflow p) :=
  inferInstanceAs (Decidable ((bh.childWide p).2 < 2 ^ 64))

/-- The child computation overflows at no position of a container of length `n`. -/
def BHeap.Fits (bh : BHeap) (n : Nat) : Prop := ∀ p, p ≤ n → 1 ≤ p → bh.NoOverflow p

instance (bh : BHeap) (n : Nat) : Decidable (bh.Fits n) :=
  inferInstanceAs (Decidable (∀ p, p ≤ n → 1 ≤ p → bh.NoOverflow p))

/-! ## The container -/

/-- The outcome of a run. -/
inductive Res (β : Type) where
  | ok : β → Res β
  | panic : Res β
  | timeout : Res β
deriving DecidableEq, Repr

namespace myHeap

variable {α : Type}

/-- The element of the slice at an `int` index, if the index is in range. -/
def at? (h : List α) (i : Int) : Option α :=
  if 0 ≤ i then h[i.toNat]? else none

/-- The method `Len`. -/
def Len (h : List α) : Int := wrapInt (h.length : Int)

/-- The method `Less`: it panics on an index out of range. -/
def Less (lt : α → α → Bool) (h : List α) (i j : Int) : Res Bool :=
  match at? h i, at? h j with
  | some a, some b => Res.ok (lt a b)
  | _, _ => Res.panic

/-- The method `Swap`: it panics on an index out of range. -/
def Swap (h : List α) (i j : Int) : Res (List α) :=
  match at? h i, at? h j with
  | some a, some b => Res.ok ((h.set i.toNat b).set j.toNat a)
  | _, _ => Res.panic

/-- The method `Pop`: it panics on the empty slice. -/
def Pop (h : List α) : Res (List α × α) :=
  match h.getLast? with
  | some v => Res.ok (h.dropLast, v)
  | none => Res.panic

/-- The method `Push`. -/
def Push (h : List α) (v : α) : List α := h ++ [v]

end myHeap

/-! ## The sift loops -/

section Algorithms

variable {α : Type} (lt : α → α → Bool)

/-- The loop of `up`, with a bound on the number of loop tests. -/
def BHeap.upLoop (bh : BHeap) : Nat → List α → Nat → Res (List α × Nat)
  | 0, _, _ => Res.timeout
  | fuel + 1, h, u =>
    if u > rootIndex then
      let p := bh.parent u
      match myHeap.Less lt h (slot u) (slot p) with
      | Res.ok false => Res.ok (h, u)
      | Res.ok true =>
        match myHeap.Swap h (slot u) (slot p) with
        | Res.ok h1 => bh.upLoop fuel h1 p
        | Res.panic => Res.panic
        | Res.timeout => Res.timeout
      | Res.panic => Res.panic
      | Res.timeout => Res.timeout
    else
      Res.ok (h, u)

/-- The method `up`: the position strictly decreases at every round, so `u + 1` loop
tests are enough. It returns the container and the final position. -/
def BHeap.up (bh : BHeap) (h : List α) (u : Nat) : Res (List α × Nat) :=
  bh.upLoop lt (u + 1) h u

/-- The block `if v1 != v2 && v2 < uint64(h.Len())+rootIndex { if h.Less(v2, v1) { v1 = v2 } }`
of `down`: the value of `v1` after it. -/
def BHeap.candidate (h : List α) (v1 v2 : Nat) : Res Nat :=
  if v1 ≠ v2 ∧ v2 < add64 (h.length % 2 ^ 64) rootIndex then
    match myHeap.Less lt h (slot v2) (slot v1) with
    | Res.ok true => Res.ok v2
    | Res.ok false => Res.ok v1
    | Res.panic => Res.panic
    | Res.timeout => Res.timeout
  else
    Res.ok v1

/-- The loop of `down`, with a bound on the number of rounds. -/
def BHeap.downLoop (bh : BHeap) : Nat → List α → Nat → Res (List α × Nat)
  | 0, _, _ => Res.timeout
  | fuel + 1, h, u =>
    let v := bh.child u
    if v.1 ≥ add64 (h.length % 2 ^ 64) rootIndex then
      Res.ok (h, u)
    else
      match BHeap.candidate lt h v.1 v.2 with
      | Res.ok c =>
        match myHeap.Less lt h (slot u) (slot c) with
        | Res.ok true => Res.ok (h, u)
        | Res.ok false =>
          match myHeap.Swap h (slot u) (slot c) with
          | Res.ok h1 => bh.downLoop fuel h1 c
          | Res.panic => Res.panic
          | Res.timeout => Res.timeout
        | Res.panic => Res.panic
        | Res.timeout => Res.timeout
      | Res.panic => Res.panic
      | Res.timeout => Res.timeout

/-- The method `down`: as long as the child positions grow, `Len + 2` rounds are enough.
It returns the container and the final position. -/
def BHeap.down (bh : BHeap) (h : List α) (u : Nat) : Res (List α × Nat) :=
  bh.downLoop lt (h.length + 2) h u

/-! ## The public operations -/

/-- The method `Push`: it returns the container and the final position. -/
def BHeap.Push (bh : BHeap) (h : List α) (v : α) : Res (List α × Nat) :=
  let h1 := myHeap.Push h v
  bh.up lt h1 (add64 (sub64 (h1.length % 2 ^ 64) 1) rootIndex)

/-- The method `Pop`: it returns the container and the popped element. -/
def BHeap.Pop (bh : BHeap) (h : List α) : Res (List α × α) :=
  match myHeap.Swap h 0 (wrapInt (myHeap.Len h - 1)) with
  | Res.ok h1 =>
    match myHeap.Pop h1 with
    | Res.ok (h2, v) =>
      match bh.down lt h2 rootIndex with
      | Res.ok (h3, _) => Res.ok (h3, v)
      | Res.panic => Res.panic
      | Res.timeout => Res.timeout
    | Res.panic => Res.panic
    | Res.timeout => Res.timeout
  | Res.panic => Res.panic
  | Res.timeout => Res.timeout

/-- The method `Remove`: it returns the container and the removed element. -/
def BHeap.Remove (bh : BHeap) (h : List α) (i : Nat) : Res (List α × α) :=
  let n := sub64 (h.length % 2 ^ 64) 1
  if n ≠ i then
    match myHeap.Swap h (toInt i) (toInt n) with
    | Res.ok h1 =>
      match myHeap.Pop h1 with
      | Res.ok (h2, v) =>
        match bh.down lt h2 (add64 i rootIndex) with
        | Res.ok (h3, _) =>
          match bh.up lt h3 (add64 i rootIndex) with
          | Res.ok (h4, _) => Res.ok (h4, v)
          | Res.panic => Res.panic
          | Res.timeout => Res.timeout
        | Res.panic => Res.panic
        | Res.timeout => Res.timeout
      | Res.panic => Res.panic
      | Res.timeout => Res.timeout
    | Res.panic => Res.panic
    | Res.timeout => Res.timeout
  else
    myHeap.Pop h

/-- The method `Fix`: it returns the container. -/
def BHeap.Fix (bh : BHeap) (h : List α) (i : Nat) : Res (List α) :=
  match bh.up lt h (add64 i rootIndex) with
  | Res.ok (h1, u) =>
    match bh.down lt h1 u with
    | Res.ok (h2, _) => Res.ok h2
    | Res.panic => Res.panic
    | Res.timeout => Res.timeout
  | Res.panic => Res.panic
  | Res.timeout => Res.timeout

end Algorithms

/-! ## Repeated operations, as in the tests -/

/-- The comparison of `myHeap`: `<` on integers. -/
def ltInt (a b : Int) : Bool := decide (a < b)

section Drivers

variable {α : Type} (lt : α → α → Bool)

/-- Push the elements of `xs` one by one, as the loops of the tests do. -/
def BHeap.pushAll (bh : BHeap) : List α → List α → Res (List α)
  | h, [] => Res.ok h
  | h, x :: xs =>
    match bh.Push lt h x with
    | Res.ok (h1, _) => bh.pushAll h1 xs
    | Res.panic => Res.panic
    | Res.timeout => Res.timeout

/-- Call `Pop` `n` times: the popped elements in the order of the calls, and the container
that is left. The tests call it `Len` times (`for h.Len() > 0`). -/
def BHeap.popN (bh : BHeap) : Nat → List α → Res (List α × List α)
  | 0, h => Res.ok ([], h)
  | n + 1, h =>
    match bh.Pop lt h with
    | Res.ok (h1, v) =>
      match bh.popN n h1 with
      | Res.ok (vs, h2) => Res.ok (v :: vs, h2)
      | Res.panic => Res.panic
      | Res.timeout => Res.timeout
    | Res.panic => Res.panic
    | Res.timeout => Res.timeout

end Drivers

/-! ## The cycle of `down` at page size `2 ^ 33` -/

/-- The positions `down` visits from the root on a container of equal elements, at page size
`2 ^ 33`: the powers of two up to `2 ^ 32`, then `2 ^ 33`, then `2 ^ 33 + 2 ^ k` for `k` from
1 to 32. -/
def cyclePath (j : Nat) : Nat :=
  if j ≤ 32 then 2 ^ j else if j = 33 then 2 ^ 33 else 2 ^ 33 + 2 ^ (j - 33)

/-- The index of the next position on `cyclePath`: after the last one, back to `2 ^ 33`. -/
def cycleNext (j : Nat) : Nat := if j = 65 then 33 else j + 1

/-! ## Specification vocabulary -/

section Vocabulary

variable {α : Type}

/-- The element at logical position `u` (positions start at 1). -/
def pget (h : List α) (u : Nat) : Option α :=
  if u = 0 then none else h[u - 1]?

/-- The comparison `lt` is the strict part of a total preorder: the relation "not less"
is total and transitive. -/
structure StrictTotalPreorder (lt : α → α → Bool) : Prop where
  asymm : ∀ a b, lt a b = true → lt b a = false
  ntrans : ∀ a b c, lt a b = false → lt b c = false → lt a c = false

/-- The heap invariant: at no position `u` with `2 ≤ u ≤ Len` is the element at `u` less
than the element at `parent u`. The comparison is the container's `Less`, on the storage
slots of the two positions. -/
def HeapInv (lt : α → α → Bool) (bh : BHeap) (h : List α) : Prop :=
  ∀ u, u ≤ h.length → 2 ≤ u →
    myHeap.Less lt h (slot u) (slot (bh.parent u)) = Res.ok false

instance (lt : α → α → Bool) (bh : BHeap) (h : List α) : Decidable (HeapInv lt bh h) :=
  inferInstanceAs (Decidable (∀ u, u ≤ h.length → 2 ≤ u →
    myHeap.Less lt h (slot u) (slot (bh.parent u)) = Res.ok false))

/-- The element at position `u` is not less than the element at position `v`. -/
def NotLess (lt : α → α → Bool) (h : List α) (u v : Nat) : Prop :=
  ∀ x y, pget h u = some x → pget h v = some y → lt x y = false

/-- The heap invariant around a position `u` whose element has just been replaced: every
pair of a position and its parent that does not involve `u` is in order, and the positions
below `u` respect the parent of `u`. -/
def Hole (lt : α → α → Bool) (bh : BHeap) (h : List α) (u : Nat) : Prop :=
  (∀ v, 2 ≤ v → v ≤ h.length → v ≠ u → bh.parent v ≠ u → NotLess lt h v (bh.parent v)) ∧
  (∀ v, 2 ≤ v → v ≤ h.length → bh.parent v = u → 2 ≤ u → NotLess lt h v (bh.parent u))

/-- The heap invariant with one exception, as `up` sees it at position `u`: every position
other than `u` respects its parent, and the positions below `u` respect the parent of `u`. -/
def UpInv (lt : α → α → Bool) (bh : BHeap) (h : List α) (u : Nat) : Prop :=
  (∀ v, 2 ≤ v → v ≤ h.length → v ≠ u → NotLess lt h v (bh.parent v)) ∧
  (∀ v, 2 ≤ v → v ≤ h.length → bh.parent v = u → 2 ≤ u → NotLess lt h v (bh.parent u))

/-- The heap invariant with one exception, as `down` sees it at position `u`: every
position whose parent is not `u` respects its parent, and the positions below `u` respect
the parent of `u`. -/
def DownInv (lt : α → α → Bool) (bh : BHeap) (h : List α) (u : Nat) : Prop :=
  (∀ v, 2 ≤ v → v ≤ h.length → bh.parent v ≠ u → NotLess lt h v (bh.parent v)) ∧
  (∀ v, 2 ≤ v → v ≤ h.length → bh.parent v = u → 2 ≤ u → NotLess lt h v (bh.parent u))

end Vocabulary

end BHeapModel

namespace BHeapModel

/-! ## Configurations returned by `New` -/

theorem shlInt_small (s : Nat) (hs : s ≤ 62) : shlInt s = 2 ^ s := by
  have h1 : (2 : Int) ^ s ≤ 2 ^ 62 := pow_le_pow_right₀ (by norm_num) hs
  have h2 : (0 : Int) < 2 ^ s := by positivity
  unfold shlInt wrapInt
  rw [if_neg (by omega)]
  generalize (2 : Int) ^ s = x at h1 h2 ⊢
  omega

theorem shlInt_63 : shlInt 63 = -2 ^ 63 := by decide

theorem shlInt_64 : shlInt 64 = 0 := by decide

theorem newLoop_bound (n : Int) (hn : 0 < n) :
    ∀ fuel s r, 1 ≤ s → s + fuel ≤ 65 → newLoop n fuel s = some r → s ≤ r ∧ r ≤ 62 := by
  intro fuel
  induction fuel with
  | zero => intro s r _ _ h; simp [newLoop] at h
  | succ fuel ih =>
    intro s r hs hf h
    unfold newLoop at h
    split at h
    · have hs1 : add64 s 1 = s + 1 := by unfold add64; omega
      rw [hs1] at h
      have := ih (s + 1) r (by omega) (by omega) h
      omega
    · rename_i hlt
      have hr : s = r := by simpa using h
      subst hr
      refine ⟨le_refl _, ?_⟩
      by_contra hc
      have h63 : s = 63 ∨ s = 64 := by omega
      rcases h63 with h63 | h63
      · apply hlt; rw [h63, shlInt_63]; omega
      · apply hlt; rw [h63, shlInt_64]; exact hn

theorem shl64_one (s : Nat) (hs : s ≤ 62) : shl64 1 s = 2 ^ s := by
  have h1 : (2 : Nat) ^ s ≤ 2 ^ 62 := Nat.pow_le_pow_right (by norm_num) hs
  unfold shl64
  rw [if_neg (by omega), Nat.shiftLeft_eq, one_mul]
  generalize (2 : Nat) ^ s = x at h1 ⊢
  omega

theorem NewFuel_wf (fuel : Nat) (hf : fuel ≤ 64) (n : Int) (bh : BHeap)
    (h : NewFuel fuel n = some bh) : bh.WF := by
  unfold NewFuel at h
  simp only at h
  split at h
  · exact absurd h (by simp)
  · rename_i s hs
    have hpos : (0 : Int) < (if n ≤ 0 then DefaultPageSize else n) := by
      split
      · decide
      · omega
    have hb := newLoop_bound _ hpos fuel 1 s (le_refl _) (by omega) hs
    refine ⟨s, hb.1, hb.2, ?_⟩
    have hp : (1 : Nat) ≤ 2 ^ s := Nat.one_le_two_pow
    have h1 : (2 : Nat) ^ s ≤ 2 ^ 62 := Nat.pow_le_pow_right (by norm_num) hb.2
    have hsub : sub64 (2 ^ s) 1 = 2 ^ s - 1 := by
      unfold sub64
      generalize (2 : Nat) ^ s = x at h1 hp ⊢
      omega
    rw [shl64_one s hb.2, hsub] at h
    simpa [BHeap.ofShift] using h.symm

/-- Every configuration returned by `New` has page size `2 ^ s` with `1 ≤ s ≤ 62`. -/
theorem New_wf (n : Int) (bh : BHeap) (h : New n = some bh) : bh.WF :=
  NewFuel_wf 64 (le_refl _) n bh h

/-! ### The fuel of `New` -/

theorem newLoop_mono (n : Int) :
    ∀ fuel s r, newLoop n fuel s = some r → ∀ k, newLoop n (fuel + k) s = some r := by
  intro fuel
  induction fuel with
  | zero => intro s r h; simp [newLoop] at h
  | succ fuel ih =>
    intro s r h k
    have e : fuel + 1 + k = (fuel + k) + 1 := by omega
    rw [e]
    unfold newLoop at h ⊢
    split
    · rename_i hlt
      rw [if_pos hlt] at h
      exact ih _ r h k
    · rename_i hlt
      rw [if_neg hlt] at h
      exact h

theorem newLoop_never (n : Int) (hall : ∀ s, shlInt s < n) :
    ∀ fuel s, newLoop n fuel s = none := by
  intro fuel
  induction fuel with
  | zero => intro s; rfl
  | succ fuel ih =>
    intro s
    unfold newLoop
    rw [if_pos (hall s)]
    exact ih _

theorem newLoop_tests (n : Int) :
    ∀ fuel s, newLoop n fuel s = none → s + fuel ≤ 2 ^ 64 →
      ∀ k, k < fuel → shlInt (s + k) < n := by
  intro fuel
  induction fuel with
  | zero => intro s _ _ k hk; omega
  | succ fuel ih =>
    intro s h hs k hk
    unfold newLoop at h
    by_cases hlt : shlInt s < n
    · rw [if_pos hlt] at h
      rcases Nat.eq_zero_or_pos k with hk0 | hk0
      · subst hk0
        exact hlt
      · have hs1 : add64 s 1 = s + 1 := by unfold add64; omega
        rw [hs1] at h
        have := ih (s + 1) h (by omega) (k - 1) (by omega)
        have e : s + 1 + (k - 1) = s + k := by omega
        rw [e] at this
        exact this
    · rw [if_neg hlt] at h
      exact absurd h (by simp)

/-- The loop of `New` that has not exited after 64 tests never exits. -/
theorem newLoop_diverges (n : Int) (h : newLoop n 64 1 = none) :
    ∀ fuel s, newLoop n fuel s = none := by
  have ht := newLoop_tests n 64 1 h (by norm_num)
  apply newLoop_never
  intro s
  have h64 : shlInt 64 < n := ht 63 (by norm_num)
  have h1 : shlInt 1 < n := ht 0 (by norm_num)
  by_cases hs : 64 ≤ s
  · have e : shlInt s = 0 := by unfold shlInt; rw [if_pos hs]
    rw [e]
    rw [shlInt_64] at h64
    exact h64
  · rcases Nat.eq_zero_or_pos s with h0 | h0
    · subst h0
      have e0 : shlInt 0 = 1 := by decide
      have e1 : shlInt 1 = 2 := by decide
      rw [e1] at h1
      rw [e0]
      omega
    · have := ht (s - 1) (by omega)
      have e : 1 + (s - 1) = s := by omega
      rw [e] at this
      exact this

/-- The 64 loop tests of `New` are enough: with more fuel the result is the same. -/
theorem New_fuel_enough (n : Int) (k : Nat) : NewFuel (64 + k) n = New n := by
  unfold New NewFuel
  simp only
  cases h : newLoop (if n ≤ 0 then DefaultPageSize else n) 64 1 with
  | none => rw [newLoop_diverges _ h]
  | some r => rw [newLoop_mono _ 64 1 r h k]

end BHeapModel

namespace BHeapModel

/-! ## Bit operations as arithmetic -/

theorem not64_mask (s : Nat) (hs : s ≤ 64) : not64 (2 ^ s - 1) = 2 ^ 64 - 2 ^ s := by
  interval_cases s <;> rfl

theorem testBit_not64_mask (s i : Nat) (hs : s ≤ 64) :
    (not64 (2 ^ s - 1)).testBit i = (decide (s ≤ i) && decide (i < 64)) := by
  unfold not64 maxUint64
  rw [Nat.testBit_xor, Nat.testBit_two_pow_sub_one, Nat.testBit_two_pow_sub_one]
  by_cases h1 : i < 64 <;> by_cases h2 : i < s <;> simp [h1, h2] <;> omega

theorem and_not64_mask (u s : Nat) (hu : u < 2 ^ 64) (hs : s ≤ 64) :
    u &&& not64 (2 ^ s - 1) = 2 ^ s * (u / 2 ^ s) := by
  apply Nat.eq_of_testBit_eq
  intro i
  rw [Nat.testBit_and, testBit_not64_mask s i hs, Nat.testBit_mul_pow_two,
    Nat.testBit_to_div_mod, Nat.testBit_to_div_mod]
  by_cases h1 : s ≤ i
  · by_cases h2 : i < 64
    · have : u / 2 ^ s / 2 ^ (i - s) = u / 2 ^ i := by
        rw [Nat.div_div_eq_div_mul, ← pow_add]
        congr 2
        omega
      simp [h1, h2, this]
    · have h3 : u < 2 ^ i :=
        lt_of_lt_of_le hu (Nat.pow_le_pow_right (by norm_num) (by omega))
      have h4 : u / 2 ^ i = 0 := Nat.div_eq_of_lt h3
      have h5 : u / 2 ^ s / 2 ^ (i - s) = 0 := by
        rw [Nat.div_div_eq_div_mul, ← pow_add]
        have : s + (i - s) = i := by omega
        rw [this]
        exact h4
      simp [h1, h2, h4, h5]
  · simp [h1]

theorem mask_shiftRight_one (s : Nat) (hs : 1 ≤ s) : (2 ^ s - 1) >>> 1 = 2 ^ (s - 1) - 1 := by
  obtain ⟨k, rfl⟩ : ∃ k, s = k + 1 := ⟨s - 1, by omega⟩
  rw [Nat.shiftRight_eq_div_pow, pow_succ]
  have : 0 < 2 ^ k := Nat.two_pow_pos _
  simp only [Nat.add_sub_cancel, pow_one]
  generalize (2 : Nat) ^ k = x at this ⊢
  omega

theorem and_mask_sub_one (p s : Nat) (hs : 1 ≤ s) :
    p &&& (2 ^ s - 1 - 1) = 2 * (p / 2 % 2 ^ (s - 1)) := by
  obtain ⟨k, rfl⟩ : ∃ k, s = k + 1 := ⟨s - 1, by omega⟩
  have h0 : (2 : Nat) ^ (k + 1) - 1 - 1 = 2 ^ 1 * (2 ^ k - 1) := by
    rw [pow_succ]
    have : 0 < 2 ^ k := Nat.two_pow_pos _
    generalize (2 : Nat) ^ k = x at this ⊢
    omega
  have h1 : 2 * (p / 2 % 2 ^ (k + 1 - 1)) = 2 ^ 1 * (p / 2 % 2 ^ k) := by simp
  rw [h0, h1]
  apply Nat.eq_of_testBit_eq
  intro i
  rw [Nat.testBit_and, Nat.testBit_mul_pow_two, Nat.testBit_mul_pow_two,
    Nat.testBit_two_pow_sub_one, Nat.testBit_mod_two_pow]
  by_cases h2 : 1 ≤ i
  · have h3 : p.testBit i = (p / 2).testBit (i - 1) := by
      rw [Nat.testBit_to_div_mod, Nat.testBit_to_div_mod, Nat.div_div_eq_div_mul]
      have : 2 * 2 ^ (i - 1) = 2 ^ i := by
        rw [← pow_succ']
        congr 1
        omega
      rw [this]
    simp only [h3, ge_iff_le, h2, decide_True, Bool.true_and]
    exact Bool.and_comm _ _
  · simp [h2]

theorem and_two_pow_ne_zero (p k : Nat) :
    p &&& 2 ^ k ≠ 0 ↔ 2 ^ k ≤ p % 2 ^ (k + 1) := by
  have hpos : 0 < 2 ^ k := Nat.two_pow_pos _
  rw [Nat.and_two_pow, Nat.testBit_to_div_mod, pow_succ, Nat.mod_mul]
  have hlt : p % 2 ^ k < 2 ^ k := Nat.mod_lt _ hpos
  have h2 : p / 2 ^ k % 2 < 2 := Nat.mod_lt _ (by norm_num)
  by_cases h : p / 2 ^ k % 2 = 1
  · simp [h]
  · have h0 : p / 2 ^ k % 2 = 0 := by omega
    simp [h0]
    exact hlt

end BHeapModel

namespace BHeapModel

/-! ## The index mapping in arithmetic form -/

/-- The function `parent` at page size `2 ^ s`, written with division and remainder. -/
theorem parent_eq (s u : Nat) (hs1 : 1 ≤ s) (hs : s ≤ 62) (hu : u < 2 ^ 64) :
    (BHeap.ofShift s).parent u =
      if u < 2 ^ s ∨ u % 2 ^ s > 3 then 2 ^ s * (u / 2 ^ s) + u % 2 ^ s / 2
      else if u % 2 ^ s < 2 then
        2 ^ s * ((u - 2 ^ s) / 2 ^ s / 2 ^ (s - 1))
          + (2 ^ (s - 1) + (u - 2 ^ s) / 2 ^ s % 2 ^ (s - 1))
      else u - 2 := by
  have hP : 0 < 2 ^ s := Nat.two_pow_pos _
  have hH : 0 < 2 ^ (s - 1) := Nat.two_pow_pos _
  have hPH : 2 ^ s = 2 * 2 ^ (s - 1) := by
    rw [← pow_succ']
    congr 1
    omega
  have hP64 : 2 ^ s < 2 ^ 64 := Nat.pow_lt_pow_right (by norm_num) (by omega)
  have hpo : u % 2 ^ s < 2 ^ s := Nat.mod_lt _ hP
  unfold BHeap.parent
  simp only [BHeap.ofShift, Nat.and_pow_two_sub_one_eq_mod]
  by_cases h1 : u < 2 ^ s ∨ u % 2 ^ s > 3
  · rw [if_pos h1, if_pos h1, and_not64_mask u s hu (by omega), Nat.shiftRight_eq_div_pow,
      pow_one]
    exact (Nat.mul_add_lt_is_or (by omega) _).symm
  · rw [if_neg h1, if_neg h1]
    by_cases h2 : u % 2 ^ s < 2
    · rw [if_pos h2, if_pos h2]
      have hsub : sub64 u (2 ^ s) = u - 2 ^ s := by
        unfold sub64
        generalize (2 : Nat) ^ s = P at *
        omega
      rw [hsub, Nat.shiftRight_eq_div_pow, mask_shiftRight_one s hs1]
      generalize hv : (u - 2 ^ s) / 2 ^ s = v
      have hvle : 2 * v ≤ u := by
        have h3 : 2 ^ s * v ≤ u - 2 ^ s := by
          rw [← hv]
          exact Nat.mul_div_le _ _
        have h4 : 2 * v ≤ 2 ^ s * v := by
          rw [hPH]
          nlinarith
        omega
      have hv64 : v < 2 ^ 64 := by omega
      rw [and_not64_mask v (s - 1) hv64 (by omega)]
      have hdm := Nat.div_add_mod v (2 ^ (s - 1))
      have hmlt : v % 2 ^ (s - 1) < 2 ^ (s - 1) := Nat.mod_lt _ hH
      have h2q : 2 ^ s * (v / 2 ^ (s - 1)) = 2 * (2 ^ (s - 1) * (v / 2 ^ (s - 1))) := by
        rw [hPH, mul_assoc]
      have hadd : add64 v (2 ^ (s - 1) * (v / 2 ^ (s - 1)))
          = 2 ^ s * (v / 2 ^ (s - 1)) + v % 2 ^ (s - 1) := by
        unfold add64
        rw [h2q]
        omega
      have hhalf : 2 ^ s / 2 = 2 ^ (s - 1) := by
        rw [hPH]
        exact Nat.mul_div_cancel_left _ (by norm_num)
      have hor1 : 2 ^ (s - 1) ||| v % 2 ^ (s - 1) = 2 ^ (s - 1) + v % 2 ^ (s - 1) := by
        have := Nat.mul_add_lt_is_or hmlt 1
        rw [mul_one] at this
        exact this.symm
      have hrP : v % 2 ^ (s - 1) < 2 ^ s := by
        rw [hPH]
        omega
      have hrP2 : 2 ^ (s - 1) + v % 2 ^ (s - 1) < 2 ^ s := by
        rw [hPH]
        omega
      rw [hadd, hhalf, Nat.mul_add_lt_is_or hrP (v / 2 ^ (s - 1)), Nat.or_assoc,
        Nat.or_comm (v % 2 ^ (s - 1)), hor1]
      exact (Nat.mul_add_lt_is_or hrP2 _).symm
    · rw [if_neg h2, if_neg h2]
      unfold sub64
      omega

/-- The function `child` at page size `2 ^ s`, written with division and remainder. The
products are reduced modulo `2 ^ 64`, as the shift of the source is. -/
theorem child_eq (s p : Nat) (hs1 : 1 ≤ s) (hs : s ≤ 62) (hp : p < 2 ^ 64) :
    (BHeap.ofShift s).child p =
      if 2 ^ s ≤ p ∧ p % 2 ^ s < 2 then ((p + 2) % 2 ^ 64, (p + 2) % 2 ^ 64)
      else if 2 ^ (s - 1) ≤ p % 2 ^ s then
        ((2 ^ (s - 1) * (p / 2 ^ s) + p % 2 ^ (s - 1) + 1) * 2 ^ s % 2 ^ 64,
          ((2 ^ (s - 1) * (p / 2 ^ s) + p % 2 ^ (s - 1) + 1) * 2 ^ s % 2 ^ 64 + 1) % 2 ^ 64)
      else ((p + p % 2 ^ s) % 2 ^ 64, ((p + p % 2 ^ s) % 2 ^ 64 + 1) % 2 ^ 64) := by
  have hP : 0 < 2 ^ s := Nat.two_pow_pos _
  have hH : 0 < 2 ^ (s - 1) := Nat.two_pow_pos _
  have hPH : 2 ^ s = 2 * 2 ^ (s - 1) := by
    rw [← pow_succ']
    congr 1
    omega
  have hs' : s - 1 + 1 = s := by omega
  have hP64 : 2 ^ s < 2 ^ 64 := Nat.pow_lt_pow_right (by norm_num) (by omega)
  have hH61 : 2 ^ (s - 1) ≤ 2 ^ 61 := Nat.pow_le_pow_right (by norm_num) (by omega)
  have hmask1 : sub64 (2 ^ s - 1) 1 = 2 ^ s - 1 - 1 := by
    unfold sub64
    generalize (2 : Nat) ^ s = P at *
    omega
  have hcond1 : (p > 2 ^ s - 1 ∧ p &&& (2 ^ s - 1 - 1) = 0) ↔ (2 ^ s ≤ p ∧ p % 2 ^ s < 2) := by
    rw [and_mask_sub_one p s hs1]
    have hmm : p % 2 ^ s = p % 2 + 2 * (p / 2 % 2 ^ (s - 1)) := by
      rw [hPH]
      exact Nat.mod_mul
    generalize (2 : Nat) ^ s = P at *
    omega
  have hcond2 : p &&& (2 ^ s >>> 1) ≠ 0 ↔ 2 ^ (s - 1) ≤ p % 2 ^ s := by
    have h1 : 2 ^ s >>> 1 = 2 ^ (s - 1) := by
      rw [Nat.shiftRight_eq_div_pow, pow_one, hPH]
      exact Nat.mul_div_cancel_left _ (by norm_num)
    rw [h1, and_two_pow_ne_zero, hs']
  unfold BHeap.child
  simp only [BHeap.ofShift, Nat.and_pow_two_sub_one_eq_mod, hmask1]
  by_cases h1 : 2 ^ s ≤ p ∧ p % 2 ^ s < 2
  · rw [if_pos (hcond1.mpr h1), if_pos h1]
    rfl
  · rw [if_neg (fun h => h1 (hcond1.mp h)), if_neg h1]
    by_cases h2 : 2 ^ (s - 1) ≤ p % 2 ^ s
    · rw [if_pos (hcond2.mpr h2), if_pos h2, if_pos trivial, and_not64_mask p s hp (by omega),
        mask_shiftRight_one s hs1, Nat.and_pow_two_sub_one_eq_mod, Nat.shiftRight_eq_div_pow,
        pow_one]
      have hdiv : 2 ^ s * (p / 2 ^ s) / 2 = 2 ^ (s - 1) * (p / 2 ^ s) := by
        rw [hPH, mul_assoc]
        exact Nat.mul_div_cancel_left _ (by norm_num)
      have hmlt : p % 2 ^ (s - 1) < 2 ^ (s - 1) := Nat.mod_lt _ hH
      have hle : 2 * (2 ^ (s - 1) * (p / 2 ^ s)) ≤ p := by
        rw [← mul_assoc, ← hPH]
        exact Nat.mul_div_le _ _
      rw [hdiv, ← Nat.mul_add_lt_is_or hmlt]
      have hadd : add64 (2 ^ (s - 1) * (p / 2 ^ s) + p % 2 ^ (s - 1)) 1
          = 2 ^ (s - 1) * (p / 2 ^ s) + p % 2 ^ (s - 1) + 1 := by
        unfold add64
        omega
      rw [hadd]
      unfold shl64 add64
      rw [if_neg (by omega), Nat.shiftLeft_eq]
    · rw [if_neg (fun h => h2 (hcond2.mp h)), if_neg h2]
      rfl

/-- The unbounded child computation at page size `2 ^ s`, written with division and
remainder. -/
theorem childWide_eq (s p : Nat) (hs1 : 1 ≤ s) (hs : s ≤ 62) (hp : p < 2 ^ 64) :
    (BHeap.ofShift s).childWide p =
      if 2 ^ s ≤ p ∧ p % 2 ^ s < 2 then (p + 2, p + 2)
      else if 2 ^ (s - 1) ≤ p % 2 ^ s then
        ((2 ^ (s - 1) * (p / 2 ^ s) + p % 2 ^ (s - 1) + 1) * 2 ^ s,
          (2 ^ (s - 1) * (p / 2 ^ s) + p % 2 ^ (s - 1) + 1) * 2 ^ s + 1)
      else (p + p % 2 ^ s, p + p % 2 ^ s + 1) := by
  have hP : 0 < 2 ^ s := Nat.two_pow_pos _
  have hH : 0 < 2 ^ (s - 1) := Nat.two_pow_pos _
  have hPH : 2 ^ s = 2 * 2 ^ (s - 1) := by
    rw [← pow_succ']
    congr 1
    omega
  have hs' : s - 1 + 1 = s := by omega
  have hP64 : 2 ^ s < 2 ^ 64 := Nat.pow_lt_pow_right (by norm_num) (by omega)
  have hH61 : 2 ^ (s - 1) ≤ 2 ^ 61 := Nat.pow_le_pow_right (by norm_num) (by omega)
  have hmask1 : sub64 (2 ^ s - 1) 1 = 2 ^ s - 1 - 1 := by
    unfold sub64
    generalize (2 : Nat) ^ s = P at *
    omega
  have hcond1 : (p > 2 ^ s - 1 ∧ p &&& (2 ^ s - 1 - 1) = 0) ↔ (2 ^ s ≤ p ∧ p % 2 ^ s < 2) := by
    rw [and_mask_sub_one p s hs1]
    have hmm : p % 2 ^ s = p % 2 + 2 * (p / 2 % 2 ^ (s - 1)) := by
      rw [hPH]
      exact Nat.mod_mul
    generalize (2 : Nat) ^ s = P at *
    omega
  have hcond2 : p &&& (2 ^ s >>> 1) ≠ 0 ↔ 2 ^ (s - 1) ≤ p % 2 ^ s := by
    have h1 : 2 ^ s >>> 1 = 2 ^ (s - 1) := by
      rw [Nat.shiftRight_eq_div_pow, pow_one, hPH]
      exact Nat.mul_div_cancel_left _ (by norm_num)
    rw [h1, and_two_pow_ne_zero, hs']
  unfold BHeap.childWide
  simp only [BHeap.ofShift, Nat.and_pow_two_sub_one_eq_mod, hmask1]
  by_cases h1 : 2 ^ s ≤ p ∧ p % 2 ^ s < 2
  · rw [if_pos (hcond1.mpr h1), if_pos h1]
  · rw [if_neg (fun h => h1 (hcond1.mp h)), if_neg h1]
    by_cases h2 : 2 ^ (s - 1) ≤ p % 2 ^ s
    · rw [if_pos (hcond2.mpr h2), if_pos h2, and_not64_mask p s hp (by omega),
        mask_shiftRight_one s hs1, Nat.and_pow_two_sub_one_eq_mod, Nat.shiftRight_eq_div_pow,
        pow_one]
      have hdiv : 2 ^ s * (p / 2 ^ s) / 2 = 2 ^ (s - 1) * (p / 2 ^ s) := by
        rw [hPH, mul_assoc]
        exact Nat.mul_div_cancel_left _ (by norm_num)
      have hmlt : p % 2 ^ (s - 1) < 2 ^ (s - 1) := Nat.mod_lt _ hH
      rw [hdiv, ← Nat.mul_add_lt_is_or hmlt]
      simp only [Nat.shiftLeft_eq]
    · rw [if_neg (fun h => h2 (hcond2.mp h)), if_neg h2]

end BHeapModel

namespace BHeapModel

/-! ## The index mapping on a position split into page number and page offset -/

theorem decomp_div (P a o : Nat) (ho : o < P) : (P * a + o) / P = a := by
  have hP : 0 < P := by omega
  rw [Nat.mul_add_div hP, Nat.div_eq_of_lt ho, add_zero]

theorem decomp_mod (P a o : Nat) (ho : o < P) : (P * a + o) % P = o := by
  rw [Nat.mul_add_mod, Nat.mod_eq_of_lt ho]

theorem two_pow_half (s : Nat) (hs1 : 1 ≤ s) : 2 ^ s = 2 * 2 ^ (s - 1) := by
  rw [← pow_succ']
  congr 1
  omega

/-- The parent of the position at offset `o` of page `a`. -/
theorem parent_decomp (s a o : Nat) (hs1 : 1 ≤ s) (hs : s ≤ 62) (ho : o < 2 ^ s)
    (hu : 2 ^ s * a + o < 2 ^ 64) :
    (BHeap.ofShift s).parent (2 ^ s * a + o) =
      if a = 0 ∨ o > 3 then 2 ^ s * a + o / 2
      else if o < 2 then 2 ^ s * ((a - 1) / 2 ^ (s - 1)) + (2 ^ (s - 1) + (a - 1) % 2 ^ (s - 1))
      else 2 ^ s * a + o - 2 := by
  have hP : 0 < 2 ^ s := Nat.two_pow_pos _
  rw [parent_eq s _ hs1 hs hu, decomp_div _ a o ho, decomp_mod _ a o ho]
  have hlt : 2 ^ s * a + o < 2 ^ s ↔ a = 0 := by
    constructor
    · intro h
      by_contra ha
      have : 2 ^ s * 1 ≤ 2 ^ s * a := Nat.mul_le_mul_left _ (by omega)
      omega
    · intro h
      subst h
      simpa using ho
  have hk : (2 ^ s * a + o - 2 ^ s) / 2 ^ s = a - 1 := by
    rcases Nat.eq_zero_or_pos a with h | h
    · subst h
      have : 2 ^ s * 0 + o - 2 ^ s = 0 := by omega
      rw [this]
      simp
    · obtain ⟨b, rfl⟩ : ∃ b, a = b + 1 := ⟨a - 1, by omega⟩
      have : 2 ^ s * (b + 1) + o - 2 ^ s = 2 ^ s * b + o := by
        rw [Nat.mul_succ]
        omega
      rw [this, decomp_div _ b o ho]
      simp
  rw [hk]
  simp only [hlt]

/-- The children of the position at offset `o` of page `a`. -/
theorem child_decomp (s a o : Nat) (hs1 : 1 ≤ s) (hs : s ≤ 62) (ho : o < 2 ^ s)
    (hp : 2 ^ s * a + o < 2 ^ 64) :
    (BHeap.ofShift s).child (2 ^ s * a + o) =
      if 1 ≤ a ∧ o < 2 then ((2 ^ s * a + o + 2) % 2 ^ 64, (2 ^ s * a + o + 2) % 2 ^ 64)
      else if 2 ^ (s - 1) ≤ o then
        (2 ^ s * (2 ^ (s - 1) * a + (o - 2 ^ (s - 1)) + 1) % 2 ^ 64,
          (2 ^ s * (2 ^ (s - 1) * a + (o - 2 ^ (s - 1)) + 1) % 2 ^ 64 + 1) % 2 ^ 64)
      else ((2 ^ s * a + 2 * o) % 2 ^ 64, ((2 ^ s * a + 2 * o) % 2 ^ 64 + 1) % 2 ^ 64) := by
  have hP : 0 < 2 ^ s := Nat.two_pow_pos _
  have hH : 0 < 2 ^ (s - 1) := Nat.two_pow_pos _
  have hPH := two_pow_half s hs1
  rw [child_eq s _ hs1 hs hp, decomp_div _ a o ho, decomp_mod _ a o ho]
  have hle : 2 ^ s ≤ 2 ^ s * a + o ↔ 1 ≤ a := by
    constructor
    · intro h
      by_contra ha
      have : a = 0 := by omega
      subst this
      omega
    · intro h
      have : 2 ^ s * 1 ≤ 2 ^ s * a := Nat.mul_le_mul_left _ h
      omega
  have hmodH : 2 ^ (s - 1) ≤ o → (2 ^ s * a + o) % 2 ^ (s - 1) = o - 2 ^ (s - 1) := by
    intro h
    have e : 2 ^ s * a + o = 2 ^ (s - 1) * (2 * a + 1) + (o - 2 ^ (s - 1)) := by
      rw [hPH, Nat.mul_add, mul_one, mul_assoc, Nat.mul_comm 2 (2 ^ (s - 1) * a), mul_assoc,
        Nat.mul_comm a 2]
      omega
    rw [e, decomp_mod _ _ _ (by omega)]
  simp only [hle]
  by_cases h1 : 1 ≤ a ∧ o < 2
  · simp only [h1, and_self, if_true]
  · rw [if_neg h1, if_neg h1]
    by_cases h2 : 2 ^ (s - 1) ≤ o
    · rw [if_pos h2, if_pos h2, hmodH h2, Nat.mul_comm _ (2 ^ s)]
    · rw [if_neg h2, if_neg h2]
      have : 2 ^ s * a + o + o = 2 ^ s * a + 2 * o := by omega
      rw [this]

/-- The unbounded child computation at offset `o` of page `a`. -/
theorem childWide_decomp (s a o : Nat) (hs1 : 1 ≤ s) (hs : s ≤ 62) (ho : o < 2 ^ s)
    (hp : 2 ^ s * a + o < 2 ^ 64) :
    (BHeap.ofShift s).childWide (2 ^ s * a + o) =
      if 1 ≤ a ∧ o < 2 then (2 ^ s * a + o + 2, 2 ^ s * a + o + 2)
      else if 2 ^ (s - 1) ≤ o then
        (2 ^ s * (2 ^ (s - 1) * a + (o - 2 ^ (s - 1)) + 1),
          2 ^ s * (2 ^ (s - 1) * a + (o - 2 ^ (s - 1)) + 1) + 1)
      else (2 ^ s * a + 2 * o, 2 ^ s * a + 2 * o + 1) := by
  have hP : 0 < 2 ^ s := Nat.two_pow_pos _
  have hH : 0 < 2 ^ (s - 1) := Nat.two_pow_pos _
  have hPH := two_pow_half s hs1
  rw [childWide_eq s _ hs1 hs hp, decomp_div _ a o ho, decomp_mod _ a o ho]
  have hle : 2 ^ s ≤ 2 ^ s * a + o ↔ 1 ≤ a := by
    constructor
    · intro h
      by_contra ha
      have : a = 0 := by omega
      subst this
      omega
    · intro h
      have : 2 ^ s * 1 ≤ 2 ^ s * a := Nat.mul_le_mul_left _ h
      omega
  have hmodH : 2 ^ (s - 1) ≤ o → (2 ^ s * a + o) % 2 ^ (s - 1) = o - 2 ^ (s - 1) := by
    intro h
    have e : 2 ^ s * a + o = 2 ^ (s - 1) * (2 * a + 1) + (o - 2 ^ (s - 1)) := by
      rw [hPH, Nat.mul_add, mul_one, mul_assoc, Nat.mul_comm 2 (2 ^ (s - 1) * a), mul_assoc,
        Nat.mul_comm a 2]
      omega
    rw [e, decomp_mod _ _ _ (by omega)]
  simp only [hle]
  by_cases h1 : 1 ≤ a ∧ o < 2
  · simp only [h1, and_self, if_true]
  · rw [if_neg h1, if_neg h1]
    by_cases h2 : 2 ^ (s - 1) ≤ o
    · rw [if_pos h2, if_pos h2, hmodH h2, Nat.mul_comm _ (2 ^ s)]
    · rw [if_neg h2, if_neg h2]
      have : 2 ^ s * a + o + o = 2 ^ s * a + 2 * o := by omega
      rw [this]

/-- Where the child computation does not overflow, `child` returns the unbounded values. -/
theorem child_eq_childWide (s p : Nat) (hs1 : 1 ≤ s) (hs : s ≤ 62) (hp : p < 2 ^ 64)
    (hfit : (BHeap.ofShift s).NoOverflow p) :
    (BHeap.ofShift s).child p = (BHeap.ofShift s).childWide p := by
  have hP : 0 < 2 ^ s := Nat.two_pow_pos _
  have hdm := Nat.div_add_mod p (2 ^ s)
  have ho : p % 2 ^ s < 2 ^ s := Nat.mod_lt _ hP
  unfold BHeap.NoOverflow at hfit
  rw [← hdm] at hfit hp ⊢
  rw [childWide_decomp s _ _ hs1 hs ho hp] at hfit ⊢
  rw [child_decomp s _ _ hs1 hs ho hp]
  generalize p / 2 ^ s = a at *
  generalize p % 2 ^ s = o at *
  by_cases h1 : 1 ≤ a ∧ o < 2
  · rw [if_pos h1] at hfit ⊢
    rw [if_pos h1]
    simp only at hfit
    rw [Nat.mod_eq_of_lt hfit]
  · rw [if_neg h1] at hfit ⊢
    rw [if_neg h1]
    by_cases h2 : 2 ^ (s - 1) ≤ o
    · rw [if_pos h2] at hfit ⊢
      rw [if_pos h2]
      simp only at hfit
      rw [Nat.mod_eq_of_lt (by omega), Nat.mod_eq_of_lt hfit]
    · rw [if_neg h2] at hfit ⊢
      rw [if_neg h2]
      simp only at hfit
      rw [Nat.mod_eq_of_lt (by omega), Nat.mod_eq_of_lt hfit]

/-! ## The tree of positions -/

/-- The parent of a position `u ≥ 2` is a position below `u`. -/
theorem parent_bounds_ofShift (s u : Nat) (hs1 : 1 ≤ s) (hs : s ≤ 62) (hu2 : 2 ≤ u)
    (hu : u < 2 ^ 64) :
    1 ≤ (BHeap.ofShift s).parent u ∧ (BHeap.ofShift s).parent u < u := by
  have hP : 0 < 2 ^ s := Nat.two_pow_pos _
  have hH : 0 < 2 ^ (s - 1) := Nat.two_pow_pos _
  have hPH := two_pow_half s hs1
  have hdm := Nat.div_add_mod u (2 ^ s)
  have ho : u % 2 ^ s < 2 ^ s := Nat.mod_lt _ hP
  rw [← hdm] at hu hu2 ⊢
  rw [parent_decomp s _ _ hs1 hs ho hu]
  generalize u / 2 ^ s = a at *
  generalize u % 2 ^ s = o at *
  by_cases h1 : a = 0 ∨ o > 3
  · rw [if_pos h1]
    rcases h1 with h1 | h1
    · subst h1
      simp only [mul_zero, zero_add] at hu2 ⊢
      omega
    · omega
  · rw [if_neg h1]
    have ha : 1 ≤ a := by omega
    have hPa : 2 ^ s * 1 ≤ 2 ^ s * a := Nat.mul_le_mul_left _ ha
    by_cases h2 : o < 2
    · rw [if_pos h2]
      obtain ⟨k, rfl⟩ : ∃ k, a = k + 1 := ⟨a - 1, by omega⟩
      simp only [Nat.add_sub_cancel]
      have hkdm := Nat.div_add_mod k (2 ^ (s - 1))
      have hr : k % 2 ^ (s - 1) < 2 ^ (s - 1) := Nat.mod_lt _ hH
      have e1 : 2 ^ s * (k / 2 ^ (s - 1)) = 2 * (2 ^ (s - 1) * (k / 2 ^ (s - 1))) := by
        rw [hPH, mul_assoc]
      have e2 : 2 ^ s * (k + 1) = 2 * (2 ^ (s - 1) * k) + 2 * 2 ^ (s - 1) := by
        rw [hPH]
        ring
      have e3 : k ≤ 2 ^ (s - 1) * k := Nat.le_mul_of_pos_left _ hH
      rw [e1, e2]
      omega
    · rw [if_neg h2]
      omega

/-- Page size at least 4: both positions returned by `child p` have parent `p`. -/
theorem child_parent_ofShift (s p : Nat) (hs2 : 2 ≤ s) (hs : s ≤ 62) (hp : p < 2 ^ 64)
    (hfit : (BHeap.ofShift s).NoOverflow p) :
    (BHeap.ofShift s).parent ((BHeap.ofShift s).child p).1 = p ∧
      (BHeap.ofShift s).parent ((BHeap.ofShift s).child p).2 = p := by
  have hs1 : 1 ≤ s := by omega
  have hP : 0 < 2 ^ s := Nat.two_pow_pos _
  have hH : 0 < 2 ^ (s - 1) := Nat.two_pow_pos _
  have hH2 : 2 ^ 1 ≤ 2 ^ (s - 1) := Nat.pow_le_pow_right (by norm_num) (by omega)
  have hPH := two_pow_half s hs1
  have hdm := Nat.div_add_mod p (2 ^ s)
  have ho : p % 2 ^ s < 2 ^ s := Nat.mod_lt _ hP
  rw [child_eq_childWide s p hs1 hs hp hfit]
  unfold BHeap.NoOverflow at hfit
  rw [← hdm] at hfit hp ⊢
  rw [childWide_decomp s _ _ hs1 hs ho hp] at hfit ⊢
  generalize p / 2 ^ s = a at *
  generalize p % 2 ^ s = o at *
  by_cases h1 : 1 ≤ a ∧ o < 2
  · rw [if_pos h1] at hfit ⊢
    simp only at hfit ⊢
    have e : 2 ^ s * a + o + 2 = 2 ^ s * a + (o + 2) := by omega
    rw [e] at hfit ⊢
    rw [parent_decomp s a (o + 2) hs1 hs (by omega) hfit, if_neg (by omega), if_neg (by omega)]
    omega
  · rw [if_neg h1] at hfit ⊢
    by_cases h2 : 2 ^ (s - 1) ≤ o
    · rw [if_pos h2] at hfit ⊢
      simp only at hfit ⊢
      generalize hd : 2 ^ (s - 1) * a + (o - 2 ^ (s - 1)) + 1 = d at *
      have hd1 : d - 1 = 2 ^ (s - 1) * a + (o - 2 ^ (s - 1)) := by omega
      have hdiv : (d - 1) / 2 ^ (s - 1) = a := by
        rw [hd1]
        exact decomp_div _ _ _ (by omega)
      have hmod : (d - 1) % 2 ^ (s - 1) = o - 2 ^ (s - 1) := by
        rw [hd1]
        exact decomp_mod _ _ _ (by omega)
      have hl := parent_decomp s d 0 hs1 hs (by omega) (by omega)
      have hr := parent_decomp s d 1 hs1 hs (by omega) hfit
      rw [if_neg (by omega), if_pos (by omega), hdiv, hmod] at hl hr
      rw [add_zero] at hl
      rw [hl, hr]
      omega
    · rw [if_neg h2] at hfit ⊢
      simp only at hfit ⊢
      have hl := parent_decomp s a (2 * o) hs1 hs (by omega) (by omega)
      have hr := parent_decomp s a (2 * o + 1) hs1 hs (by omega) (by omega)
      rw [if_pos (by omega)] at hl hr
      rw [hl, ← Nat.add_assoc] at *
      rw [hr]
      omega

/-- Page size at least 4: a position `u ≥ 2` is one of the positions `child (parent u)`. -/
theorem parent_child_ofShift (s u : Nat) (hs2 : 2 ≤ s) (hs : s ≤ 62) (hu2 : 2 ≤ u)
    (hu : u < 2 ^ 64) :
    u = ((BHeap.ofShift s).child ((BHeap.ofShift s).parent u)).1 ∨
      u = ((BHeap.ofShift s).child ((BHeap.ofShift s).parent u)).2 := by
  have hs1 : 1 ≤ s := by omega
  have hP : 0 < 2 ^ s := Nat.two_pow_pos _
  have hH : 0 < 2 ^ (s - 1) := Nat.two_pow_pos _
  have hH2 : 2 ^ 1 ≤ 2 ^ (s - 1) := Nat.pow_le_pow_right (by norm_num) (by omega)
  have hPH := two_pow_half s hs1
  have hdm := Nat.div_add_mod u (2 ^ s)
  have ho : u % 2 ^ s < 2 ^ s := Nat.mod_lt _ hP
  have hb := parent_bounds_ofShift s u hs1 hs hu2 hu
  rw [← hdm] at hu hu2 hb ⊢
  rw [parent_decomp s _ _ hs1 hs ho hu] at hb ⊢
  generalize u / 2 ^ s = a at *
  generalize u % 2 ^ s = o at *
  by_cases h1 : a = 0 ∨ o > 3
  · rw [if_pos h1] at hb ⊢
    rw [child_decomp s a (o / 2) hs1 hs (by omega) (by omega), if_neg (by omega),
      if_neg (by omega)]
    simp only
    rw [Nat.mod_eq_of_lt (by omega)]
    by_cases h3 : o % 2 = 0
    · left
      omega
    · right
      rw [Nat.mod_eq_of_lt (by omega)]
      omega
  · rw [if_neg h1] at hb ⊢
    have ha : 1 ≤ a := by omega
    by_cases h2 : o < 2
    · rw [if_pos h2] at hb ⊢
      have hkdm := Nat.div_add_mod (a - 1) (2 ^ (s - 1))
      have hr : (a - 1) % 2 ^ (s - 1) < 2 ^ (s - 1) := Nat.mod_lt _ hH
      generalize (a - 1) / 2 ^ (s - 1) = q at *
      generalize (a - 1) % 2 ^ (s - 1) = r at *
      rw [child_decomp s q (2 ^ (s - 1) + r) hs1 hs (by omega) (by omega), if_neg (by omega),
        if_pos (by omega)]
      simp only
      have e : 2 ^ (s - 1) * q + (2 ^ (s - 1) + r - 2 ^ (s - 1)) + 1 = a := by omega
      rw [e, Nat.mod_eq_of_lt (by omega)]
      by_cases h3 : o = 0
      · left
        omega
      · right
        rw [Nat.mod_eq_of_lt (by omega)]
        omega
    · rw [if_neg h2] at hb ⊢
      left
      have e : 2 ^ s * a + o - 2 = 2 ^ s * a + (o - 2) := by omega
      rw [e] at hb ⊢
      rw [child_decomp s a (o - 2) hs1 hs (by omega) (by omega), if_pos (by omega)]
      simp only
      rw [Nat.mod_eq_of_lt (by omega)]
      omega

/-- Any page size: the positions returned by `child p` lie above `p`, and the second is the
first or the one after it. -/
theorem child_gt_ofShift (s p : Nat) (hs1 : 1 ≤ s) (hs : s ≤ 62) (hp1 : 1 ≤ p)
    (hp : p < 2 ^ 64) (hfit : (BHeap.ofShift s).NoOverflow p) :
    p < ((BHeap.ofShift s).child p).1 ∧
      (((BHeap.ofShift s).child p).2 = ((BHeap.ofShift s).child p).1 ∨
        ((BHeap.ofShift s).child p).2 = ((BHeap.ofShift s).child p).1 + 1) ∧
      ((BHeap.ofShift s).child p).2 < 2 ^ 64 := by
  have hP : 0 < 2 ^ s := Nat.two_pow_pos _
  have hH : 0 < 2 ^ (s - 1) := Nat.two_pow_pos _
  have hPH := two_pow_half s hs1
  have hdm := Nat.div_add_mod p (2 ^ s)
  have ho : p % 2 ^ s < 2 ^ s := Nat.mod_lt _ hP
  rw [child_eq_childWide s p hs1 hs hp hfit]
  unfold BHeap.NoOverflow at hfit
  rw [← hdm] at hfit hp hp1 ⊢
  rw [childWide_decomp s _ _ hs1 hs ho hp] at hfit ⊢
  generalize p / 2 ^ s = a at *
  generalize p % 2 ^ s = o at *
  by_cases h1 : 1 ≤ a ∧ o < 2
  · rw [if_pos h1] at hfit ⊢
    simp only at hfit ⊢
    exact ⟨by omega, by simp, by omega⟩
  · rw [if_neg h1] at hfit ⊢
    by_cases h2 : 2 ^ (s - 1) ≤ o
    · rw [if_pos h2] at hfit ⊢
      simp only at hfit ⊢
      have e1 : a ≤ 2 ^ (s - 1) * a := Nat.le_mul_of_pos_left _ hH
      have e2 : 2 ^ s * (a + 1) ≤ 2 ^ s * (2 ^ (s - 1) * a + (o - 2 ^ (s - 1)) + 1) :=
        Nat.mul_le_mul_left _ (by omega)
      rw [Nat.mul_add, mul_one] at e2
      exact ⟨by omega, by simp, by omega⟩
    · rw [if_neg h2] at hfit ⊢
      simp only at hfit ⊢
      have : o ≠ 0 := by
        intro h0
        subst h0
        have : a = 0 := by omega
        subst this
        simp at hp1
      exact ⟨by omega, by simp, by omega⟩

end BHeapModel

namespace BHeapModel

/-! ## The container -/

section Container

variable {α : Type}

theorem slot_eq (u : Nat) (h1 : 1 ≤ u) (h2 : u < 2 ^ 63) : slot u = (u : Int) - 1 := by
  unfold slot toInt wrapInt rootIndex
  omega

theorem slot_out (u : Nat) (hu : u < 2 ^ 64) (n : Nat) (hn : n < 2 ^ 63)
    (h : u = 0 ∨ n < u) : slot u < 0 ∨ (n : Int) ≤ slot u := by
  unfold slot toInt wrapInt rootIndex
  omega

/-- On a slice of fewer than `2 ^ 63` elements, the element read at the storage slot of
position `u` is the element at position `u`; there is none at position 0 or beyond the
length. -/
theorem at?_slot (h : List α) (u : Nat) (hlen : h.length < 2 ^ 63) (hu : u < 2 ^ 64) :
    myHeap.at? h (slot u) = pget h u := by
  unfold myHeap.at? pget
  by_cases h0 : u = 0 ∨ h.length < u
  · have hs := slot_out u hu h.length hlen h0
    have hR : (if u = 0 then none else h[u - 1]?) = none := by
      split
      · rfl
      · exact List.getElem?_eq_none (by omega)
    rw [hR]
    split
    · exact List.getElem?_eq_none (by omega)
    · rfl
  · have h1 : 1 ≤ u := by omega
    have h2 : u < 2 ^ 63 := by omega
    rw [slot_eq u h1 h2, if_pos (by omega), if_neg (by omega)]
    congr 1
    omega

theorem pget_some_iff (h : List α) (u : Nat) :
    (∃ x, pget h u = some x) ↔ 1 ≤ u ∧ u ≤ h.length := by
  unfold pget
  constructor
  · rintro ⟨x, hx⟩
    split at hx
    · exact absurd hx (by simp)
    · have := (List.getElem?_eq_some_iff.mp hx).1
      omega
  · rintro ⟨h1, h2⟩
    rw [if_neg (by omega)]
    exact ⟨h[u - 1], List.getElem?_eq_getElem (by omega)⟩

/-- The method `Less` on two positions that hold elements. -/
theorem Less_some (lt : α → α → Bool) (h : List α) (u v : Nat) (a b : α)
    (hlen : h.length < 2 ^ 63) (ha : pget h u = some a) (hb : pget h v = some b) :
    myHeap.Less lt h (slot u) (slot v) = Res.ok (lt a b) := by
  have hu := ((pget_some_iff h u).mp ⟨a, ha⟩)
  have hv := ((pget_some_iff h v).mp ⟨b, hb⟩)
  unfold myHeap.Less
  rw [at?_slot h u hlen (by omega), at?_slot h v hlen (by omega), ha, hb]

/-- The method `Less` panics when one of the two positions holds no element. -/
theorem Less_none (lt : α → α → Bool) (h : List α) (u v : Nat)
    (hlen : h.length < 2 ^ 63) (hu : u < 2 ^ 64) (hv : v < 2 ^ 64)
    (hn : pget h u = none ∨ pget h v = none) :
    myHeap.Less lt h (slot u) (slot v) = Res.panic := by
  unfold myHeap.Less
  rw [at?_slot h u hlen hu, at?_slot h v hlen hv]
  rcases hn with hn | hn
  · rw [hn]
  · rw [hn]
    cases pget h u <;> rfl

/-- The list obtained by exchanging the elements at two positions. -/
theorem Swap_some (h : List α) (u v : Nat) (a b : α)
    (hlen : h.length < 2 ^ 63) (ha : pget h u = some a) (hb : pget h v = some b) :
    myHeap.Swap h (slot u) (slot v) = Res.ok ((h.set (u - 1) b).set (v - 1) a) := by
  have hu := ((pget_some_iff h u).mp ⟨a, ha⟩)
  have hv := ((pget_some_iff h v).mp ⟨b, hb⟩)
  unfold myHeap.Swap
  rw [at?_slot h u hlen (by omega), at?_slot h v hlen (by omega), ha, hb,
    slot_eq u hu.1 (by omega), slot_eq v hv.1 (by omega)]
  have e1 : ((u : Int) - 1).toNat = u - 1 := by omega
  have e2 : ((v : Int) - 1).toNat = v - 1 := by omega
  simp only [e1, e2]

theorem pget_swap (h : List α) (u v w : Nat) (a b : α)
    (ha : pget h u = some a) (hb : pget h v = some b) :
    pget ((h.set (u - 1) b).set (v - 1) a) w =
      if w = v then some a else if w = u then some b else pget h w := by
  have hu := ((pget_some_iff h u).mp ⟨a, ha⟩)
  have hv := ((pget_some_iff h v).mp ⟨b, hb⟩)
  unfold pget
  by_cases hw : w = 0
  · subst hw
    rw [if_pos rfl, if_neg (by omega), if_neg (by omega), if_pos rfl]
  · rw [if_neg hw, if_neg hw, List.getElem?_set, List.getElem?_set]
    by_cases h1 : w = v
    · subst h1
      simp
      omega
    · rw [if_neg (by omega), if_neg h1]
      by_cases h2 : w = u
      · subst h2
        simp
        omega
      · rw [if_neg (by omega), if_neg h2]

theorem perm_set_cons (x b : α) : ∀ (t : List α) (j : Nat), t[j]? = some b →
    (b :: t.set j x).Perm (x :: t) := by
  intro t
  induction t with
  | nil => intro j h; simp at h
  | cons y t ih =>
    intro j h
    cases j with
    | zero =>
      simp at h
      subst h
      exact List.Perm.swap _ _ _
    | succ j =>
      simp at h
      have := ih j h
      exact ((List.Perm.swap y b _).trans (List.Perm.cons y this)).trans (List.Perm.swap _ _ _)

theorem perm_set_set : ∀ (h : List α) (i j : Nat) (a b : α), h[i]? = some a → h[j]? = some b →
    ((h.set i b).set j a).Perm h := by
  intro h
  induction h with
  | nil => intro i j a b ha; simp at ha
  | cons x t ih =>
    intro i j a b ha hb
    cases i with
    | zero =>
      simp at ha
      subst ha
      cases j with
      | zero =>
        simp at hb
        subst hb
        simp
      | succ j =>
        simp at hb
        simpa using perm_set_cons x b t j hb
    | succ i =>
      simp at ha
      cases j with
      | zero =>
        simp at hb
        subst hb
        simpa using perm_set_cons x a t i ha
      | succ j =>
        simp at hb
        simpa using ih i j a b ha hb

theorem pget_eq_getElem? (h : List α) (u : Nat) (hu : 1 ≤ u) : pget h u = h[u - 1]? := by
  unfold pget
  rw [if_neg (by omega)]

/-- Exchanging two elements of the container permutes it and keeps its length. -/
theorem swap_perm (h : List α) (u v : Nat) (a b : α)
    (ha : pget h u = some a) (hb : pget h v = some b) :
    ((h.set (u - 1) b).set (v - 1) a).Perm h := by
  have hu := ((pget_some_iff h u).mp ⟨a, ha⟩)
  have hv := ((pget_some_iff h v).mp ⟨b, hb⟩)
  rw [pget_eq_getElem? h u hu.1] at ha
  rw [pget_eq_getElem? h v hv.1] at hb
  exact perm_set_set h _ _ a b ha hb

end Container

end BHeapModel

namespace BHeapModel

/-! ## The tree of a configuration returned by `New` -/

theorem parent_bounds (bh : BHeap) (hwf : bh.WF) (u : Nat) (hu2 : 2 ≤ u) (hu : u < 2 ^ 64) :
    1 ≤ bh.parent u ∧ bh.parent u < u := by
  obtain ⟨s, hs1, hs, rfl⟩ := hwf
  exact parent_bounds_ofShift s u hs1 hs hu2 hu

theorem child_gt (bh : BHeap) (hwf : bh.WF) (p : Nat) (hp1 : 1 ≤ p) (hp : p < 2 ^ 64)
    (hfit : bh.NoOverflow p) :
    p < (bh.child p).1 ∧
      ((bh.child p).2 = (bh.child p).1 ∨ (bh.child p).2 = (bh.child p).1 + 1) ∧
      (bh.child p).2 < 2 ^ 64 := by
  obtain ⟨s, hs1, hs, rfl⟩ := hwf
  exact child_gt_ofShift s p hs1 hs hp1 hp hfit

theorem wf_shift_ge_two (bh : BHeap) (hwf : bh.WF) (h4 : 4 ≤ bh.pageSize) :
    ∃ s, 2 ≤ s ∧ s ≤ 62 ∧ bh = BHeap.ofShift s := by
  obtain ⟨s, hs1, hs, rfl⟩ := hwf
  refine ⟨s, ?_, hs, rfl⟩
  by_contra hc
  have : s = 1 := by omega
  subst this
  simp [BHeap.ofShift] at h4

theorem child_parent (bh : BHeap) (hwf : bh.WF) (h4 : 4 ≤ bh.pageSize) (p : Nat)
    (hp : p < 2 ^ 64) (hfit : bh.NoOverflow p) :
    bh.parent (bh.child p).1 = p ∧ bh.parent (bh.child p).2 = p := by
  obtain ⟨s, hs2, hs, rfl⟩ := wf_shift_ge_two bh hwf h4
  exact child_parent_ofShift s p hs2 hs hp hfit

theorem parent_child (bh : BHeap) (hwf : bh.WF) (h4 : 4 ≤ bh.pageSize) (u : Nat)
    (hu2 : 2 ≤ u) (hu : u < 2 ^ 64) :
    u = (bh.child (bh.parent u)).1 ∨ u = (bh.child (bh.parent u)).2 := by
  obtain ⟨s, hs2, hs, rfl⟩ := wf_shift_ge_two bh hwf h4
  exact parent_child_ofShift s u hs2 hs hu2 hu

/-! ## The heap invariant on positions -/

section Sift

variable {α : Type}

theorem heapInv_iff (lt : α → α → Bool) (bh : BHeap) (hwf : bh.WF) (h : List α)
    (hlen : h.length < 2 ^ 63) :
    HeapInv lt bh h ↔ ∀ v, 2 ≤ v → v ≤ h.length → NotLess lt h v (bh.parent v) := by
  constructor
  · intro hi v hv2 hvl x y hx hy
    have := hi v hvl hv2
    rw [Less_some lt h v _ x y hlen hx hy] at this
    exact Res.ok.inj this
  · intro hi v hvl hv2
    have hb := parent_bounds bh hwf v hv2 (by omega)
    obtain ⟨a, ha⟩ := (pget_some_iff h v).mpr ⟨by omega, hvl⟩
    obtain ⟨b, hb'⟩ := (pget_some_iff h (bh.parent v)).mpr ⟨hb.1, by omega⟩
    rw [Less_some lt h v _ a b hlen ha hb', hi v hv2 hvl a b ha hb']

theorem hole_of_upInv (lt : α → α → Bool) (bh : BHeap) (h : List α) (u : Nat)
    (hinv : UpInv lt bh h u) : Hole lt bh h u :=
  ⟨fun v hv2 hvl hvu _ => hinv.1 v hv2 hvl hvu, hinv.2⟩

theorem hole_of_downInv (lt : α → α → Bool) (bh : BHeap) (h : List α) (u : Nat)
    (hinv : DownInv lt bh h u) : Hole lt bh h u :=
  ⟨fun v hv2 hvl _ hpv => hinv.1 v hv2 hvl hpv, hinv.2⟩

/-- One round of `up`: after the element at `u` has been exchanged with a greater parent,
the invariant of `up` holds at the parent. -/
theorem up_swap_inv (lt : α → α → Bool) (hst : StrictTotalPreorder lt) (bh : BHeap)
    (hwf : bh.WF) (h h2 : List α) (u : Nat) (a b : α) (hlen : h.length < 2 ^ 63)
    (hu2 : 2 ≤ u) (hu : u ≤ h.length) (ha : pget h u = some a)
    (hb : pget h (bh.parent u) = some b) (hlt : lt a b = true)
    (hl2 : h2.length = h.length)
    (hg : ∀ w, pget h2 w =
      if w = bh.parent u then some a else if w = u then some b else pget h w)
    (hinv : Hole lt bh h u) : UpInv lt bh h2 (bh.parent u) := by
  obtain ⟨hp1, hpu⟩ := parent_bounds bh hwf u hu2 (by omega)
  have hba : lt b a = false := hst.asymm a b hlt
  constructor
  · intro v hv2 hvl hvp x y hx hy
    rw [hl2] at hvl
    obtain ⟨hq1, hqv⟩ := parent_bounds bh hwf v hv2 (by omega)
    rw [hg, if_neg hvp] at hx
    rw [hg] at hy
    by_cases hvu : v = u
    · subst hvu
      rw [if_pos rfl] at hx hy
      cases hx
      cases hy
      exact hba
    · rw [if_neg hvu] at hx
      by_cases hq : bh.parent v = bh.parent u
      · rw [if_pos hq] at hy
        cases hy
        have := hinv.1 v hv2 hvl hvu (by omega) x b hx (hq ▸ hb)
        exact hst.ntrans _ _ _ this hba
      · rw [if_neg hq] at hy
        by_cases hq2 : bh.parent v = u
        · rw [if_pos hq2] at hy
          cases hy
          exact hinv.2 v hv2 hvl hq2 hu2 x b hx hb
        · rw [if_neg hq2] at hy
          exact hinv.1 v hv2 hvl hvu hq2 x y hx hy
  · intro v hv2 hvl hvp hp2 x y hx hy
    rw [hl2] at hvl
    obtain ⟨hq1, hqp⟩ := parent_bounds bh hwf (bh.parent u) hp2 (by omega)
    obtain ⟨hr1, hrv⟩ := parent_bounds bh hwf v hv2 (by omega)
    rw [hg, if_neg (by omega), if_neg (by omega)] at hy
    have hpy : lt b y = false :=
      hinv.1 (bh.parent u) hp2 (by omega) (by omega) (by omega) b y hb hy
    rw [hg, if_neg (by omega)] at hx
    by_cases hvu : v = u
    · rw [if_pos hvu] at hx
      cases hx
      exact hpy
    · rw [if_neg hvu] at hx
      have := hinv.1 v hv2 hvl hvu (by omega) x b hx (hvp ▸ hb)
      exact hst.ntrans _ _ _ this hpy

/-- The loop of `up` restores the heap invariant from `UpInv`, permuting the container; the
element that started at `u` ends at the returned position. -/
theorem upLoop_correct (lt : α → α → Bool) (hst : StrictTotalPreorder lt) (bh : BHeap)
    (hwf : bh.WF) :
    ∀ (fuel : Nat) (h : List α) (u : Nat), h.length < 2 ^ 63 → u ≤ h.length → u < fuel →
      UpInv lt bh h u →
      ∃ h1 u1, bh.upLoop lt fuel h u = Res.ok (h1, u1) ∧ h1.Perm h ∧
        (∀ v, 2 ≤ v → v ≤ h1.length → NotLess lt h1 v (bh.parent v)) ∧
        u1 ≤ u ∧ (1 ≤ u → 1 ≤ u1) ∧ pget h1 u1 = pget h u := by
  intro fuel
  induction fuel with
  | zero => intro h u _ _ hf; omega
  | succ fuel ih =>
    intro h u hlen hu hf hinv
    unfold BHeap.upLoop
    by_cases h1 : u > rootIndex
    · rw [if_pos h1]
      have hu2 : 2 ≤ u := h1
      obtain ⟨hp1, hpu⟩ := parent_bounds bh hwf u hu2 (by omega)
      obtain ⟨a, ha⟩ := (pget_some_iff h u).mpr ⟨by omega, hu⟩
      obtain ⟨b, hb⟩ := (pget_some_iff h (bh.parent u)).mpr ⟨hp1, by omega⟩
      simp only [Less_some lt h u _ a b hlen ha hb]
      cases hlt : lt a b
      · refine ⟨h, u, rfl, List.Perm.refl _, ?_, le_refl _, fun h => h, rfl⟩
        intro v hv2 hvl
        by_cases hvu : v = u
        · subst hvu
          intro x y hx hy
          rw [ha] at hx
          rw [hb] at hy
          cases hx
          cases hy
          exact hlt
        · exact hinv.1 v hv2 hvl hvu
      · simp only [Swap_some h u _ a b hlen ha hb]
        have hg := fun w => pget_swap h u (bh.parent u) w a b ha hb
        have hperm := swap_perm h u (bh.parent u) a b ha hb
        generalize (h.set (u - 1) b).set (bh.parent u - 1) a = h2 at hg hperm ⊢
        have hl2 : h2.length = h.length := hperm.length_eq
        have hinv2 : UpInv lt bh h2 (bh.parent u) :=
          up_swap_inv lt hst bh hwf h h2 u a b hlen hu2 hu ha hb hlt hl2 hg
            (hole_of_upInv lt bh h u hinv)
        obtain ⟨h3, u3, hrun, hperm3, hinv3, hle, hpos, hval⟩ :=
          ih h2 (bh.parent u) (by omega) (by omega) (by omega) hinv2
        refine ⟨h3, u3, hrun, hperm3.trans hperm, hinv3, by omega, fun _ => hpos hp1, ?_⟩
        rw [hval, hg, if_pos rfl, ha]
    · rw [if_neg h1]
      refine ⟨h, u, rfl, List.Perm.refl _, ?_, le_refl _, fun h => h, rfl⟩
      intro v hv2 hvl
      exact hinv.1 v hv2 hvl (by unfold rootIndex at h1; omega)

end Sift

end BHeapModel

namespace BHeapModel

section SiftDown

variable {α : Type}

theorem lt_irrefl_of (lt : α → α → Bool) (hst : StrictTotalPreorder lt) (a : α) :
    lt a a = false := by
  cases h : lt a a
  · rfl
  · rw [hst.asymm a a h] at h
    exact absurd h (by simp)

theorem len_succ64 (h : List α) (hlen : h.length < 2 ^ 63) :
    add64 (h.length % 2 ^ 64) rootIndex = h.length + 1 := by
  unfold add64 rootIndex
  omega

/-- The candidate child chosen by `down` is an in-range child that is not above either
in-range child. -/
theorem candidate_spec (lt : α → α → Bool) (hst : StrictTotalPreorder lt) (h : List α)
    (l r : Nat) (hlen : h.length < 2 ^ 63) (hl1 : 1 ≤ l) (hl : l ≤ h.length)
    (hr : r = l ∨ r = l + 1) :
    ∃ c, BHeap.candidate lt h l r = Res.ok c ∧ (c = l ∨ c = r) ∧ c ≤ h.length ∧
      NotLess lt h l c ∧ (r ≤ h.length → NotLess lt h r c) := by
  obtain ⟨xl, hxl⟩ := (pget_some_iff h l).mpr ⟨hl1, hl⟩
  have hll : NotLess lt h l l := by
    intro x y hx hy
    rw [hxl] at hx hy
    cases hx
    cases hy
    exact lt_irrefl_of lt hst _
  unfold BHeap.candidate
  rw [len_succ64 h hlen]
  by_cases hc : l ≠ r ∧ r < h.length + 1
  · rw [if_pos hc]
    have hr1 : r = l + 1 := by omega
    obtain ⟨xr, hxr⟩ := (pget_some_iff h r).mpr ⟨by omega, by omega⟩
    simp only [Less_some lt h r l xr xl hlen hxr hxl]
    cases hlt : lt xr xl
    · refine ⟨l, rfl, Or.inl rfl, hl, hll, fun _ => ?_⟩
      intro x y hx hy
      rw [hxr] at hx
      rw [hxl] at hy
      cases hx
      cases hy
      exact hlt
    · refine ⟨r, rfl, Or.inr rfl, by omega, ?_, fun _ => ?_⟩
      · intro x y hx hy
        rw [hxl] at hx
        rw [hxr] at hy
        cases hx
        cases hy
        exact hst.asymm _ _ hlt
      · intro x y hx hy
        rw [hxr] at hx hy
        cases hx
        cases hy
        exact lt_irrefl_of lt hst _
  · rw [if_neg hc]
    refine ⟨l, rfl, Or.inl rfl, hl, hll, fun hrl => ?_⟩
    have : r = l := by omega
    rw [this]
    exact hll

/-- One round of `down`: after the element at `u` has been exchanged with its least child
`c`, the invariant of `down` holds at `c`. -/
theorem down_swap_inv (lt : α → α → Bool) (bh : BHeap)
    (hwf : bh.WF) (h h2 : List α) (u c : Nat) (a b : α) (hlen : h.length < 2 ^ 63)
    (hu1 : 1 ≤ u) (huc : u < c) (hcle : c ≤ h.length) (hpc : bh.parent c = u)
    (hb : pget h c = some b) (hlt : lt a b = false)
    (hmin : ∀ v, 2 ≤ v → v ≤ h.length → bh.parent v = u → NotLess lt h v c)
    (hl2 : h2.length = h.length)
    (hg : ∀ w, pget h2 w = if w = c then some a else if w = u then some b else pget h w)
    (hinv : Hole lt bh h u) : DownInv lt bh h2 c := by
  constructor
  · intro v hv2 hvl hvp x y hx hy
    rw [hl2] at hvl
    obtain ⟨hq1, hqv⟩ := parent_bounds bh hwf v hv2 (by omega)
    rw [hg] at hx hy
    rw [if_neg hvp] at hy
    by_cases hpv : bh.parent v = u
    · rw [if_pos hpv] at hy
      cases hy
      by_cases hvc : v = c
      · rw [if_pos hvc] at hx
        cases hx
        exact hlt
      · rw [if_neg hvc, if_neg (by omega)] at hx
        exact hmin v hv2 hvl hpv x b hx hb
    · rw [if_neg hpv] at hy
      by_cases hvc : v = c
      · exact absurd (hvc ▸ hpc) hpv
      · rw [if_neg hvc] at hx
        by_cases hvu : v = u
        · rw [if_pos hvu] at hx
          cases hx
          rw [hvu] at hy
          exact hinv.2 c (by omega) hcle hpc (by omega) b y hb hy
        · rw [if_neg hvu] at hx
          exact hinv.1 v hv2 hvl hvu hpv x y hx hy
  · intro v hv2 hvl hvp _ x y hx hy
    rw [hl2] at hvl
    obtain ⟨hq1, hqv⟩ := parent_bounds bh hwf v hv2 (by omega)
    rw [hpc, hg, if_neg (by omega), if_pos rfl] at hy
    cases hy
    rw [hg, if_neg (by omega), if_neg (by omega)] at hx
    exact hinv.1 v hv2 hvl (by omega) (by omega) x b hx (hvp ▸ hb)

/-- The loop of `down` restores the heap invariant from `DownInv`, permuting the
container. Page size at least 4, no overflow of child positions. -/
theorem downLoop_correct (lt : α → α → Bool) (hst : StrictTotalPreorder lt) (bh : BHeap)
    (hwf : bh.WF) (h4 : 4 ≤ bh.pageSize) :
    ∀ (fuel : Nat) (h : List α) (u : Nat), h.length < 2 ^ 63 → bh.Fits h.length →
      1 ≤ u → u ≤ h.length → h.length - u < fuel → DownInv lt bh h u →
      ∃ h1 u1, bh.downLoop lt fuel h u = Res.ok (h1, u1) ∧ h1.Perm h ∧
        (∀ v, 2 ≤ v → v ≤ h1.length → NotLess lt h1 v (bh.parent v)) := by
  intro fuel
  induction fuel with
  | zero => intro h u _ _ _ _ hf; omega
  | succ fuel ih =>
    intro h u hlen hfits hu1 hu hf hinv
    have hfit : bh.NoOverflow u := hfits u hu hu1
    obtain ⟨hgt, hlr, hr64⟩ := child_gt bh hwf u hu1 (by omega) hfit
    obtain ⟨hpl, hpr⟩ := child_parent bh hwf h4 u (by omega) hfit
    have hkids : ∀ v, 2 ≤ v → v ≤ h.length → bh.parent v = u →
        v = (bh.child u).1 ∨ v = (bh.child u).2 := by
      intro v hv2 hvl hpv
      have := parent_child bh hwf h4 v hv2 (by omega)
      rw [hpv] at this
      exact this
    unfold BHeap.downLoop
    simp only [len_succ64 h hlen]
    generalize bh.child u = ch at hgt hlr hr64 hpl hpr hkids ⊢
    obtain ⟨l, r⟩ := ch
    simp only at hgt hlr hr64 hpl hpr hkids ⊢
    by_cases hleaf : l ≥ h.length + 1
    · rw [if_pos hleaf]
      refine ⟨h, u, rfl, List.Perm.refl _, ?_⟩
      intro v hv2 hvl
      by_cases hpv : bh.parent v = u
      · have := hkids v hv2 hvl hpv
        omega
      · exact hinv.1 v hv2 hvl hpv
    · rw [if_neg hleaf]
      obtain ⟨c, hcand, hcl, hcle, hminl, hminr⟩ :=
        candidate_spec lt hst h l r hlen (by omega) (by omega) hlr
      have hpc : bh.parent c = u := by
        rcases hcl with hcl | hcl
        · rw [hcl]; exact hpl
        · rw [hcl]; exact hpr
      have huc : u < c := by omega
      have hmin : ∀ v, 2 ≤ v → v ≤ h.length → bh.parent v = u → NotLess lt h v c := by
        intro v hv2 hvl hpv
        rcases hkids v hv2 hvl hpv with hv | hv
        · rw [hv]; exact hminl
        · rw [hv]; exact hminr (by omega)
      obtain ⟨a, ha⟩ := (pget_some_iff h u).mpr ⟨hu1, hu⟩
      obtain ⟨b, hb⟩ := (pget_some_iff h c).mpr ⟨by omega, hcle⟩
      simp only [hcand, Less_some lt h u c a b hlen ha hb]
      cases hlt : lt a b
      · simp only [Swap_some h u c a b hlen ha hb]
        have hg := fun w => pget_swap h u c w a b ha hb
        have hperm := swap_perm h u c a b ha hb
        generalize (h.set (u - 1) b).set (c - 1) a = h2 at hg hperm ⊢
        have hl2 : h2.length = h.length := hperm.length_eq
        have hinv2 : DownInv lt bh h2 c :=
          down_swap_inv lt bh hwf h h2 u c a b hlen hu1 huc hcle hpc hb hlt hmin hl2 hg
            (hole_of_downInv lt bh h u hinv)
        obtain ⟨h3, u3, hrun, hperm3, hinv3⟩ :=
          ih h2 c (by omega) (hl2 ▸ hfits) (by omega) (by omega) (by omega) hinv2
        exact ⟨h3, u3, hrun, hperm3.trans hperm, hinv3⟩
      · refine ⟨h, u, rfl, List.Perm.refl _, ?_⟩
        intro v hv2 hvl
        by_cases hpv : bh.parent v = u
        · intro x y hx hy
          rw [hpv, ha] at hy
          cases hy
          have h1 := hmin v hv2 hvl hpv x b hx hb
          exact hst.ntrans _ _ _ h1 (hst.asymm _ _ hlt)
        · exact hinv.1 v hv2 hvl hpv

end SiftDown

end BHeapModel

namespace BHeapModel

section Weak

variable {α : Type}

theorem notLess_trans (lt : α → α → Bool) (hst : StrictTotalPreorder lt) (h : List α)
    (u v w : Nat) (hv1 : 1 ≤ v) (hv : v ≤ h.length)
    (h1 : NotLess lt h u v) (h2 : NotLess lt h v w) : NotLess lt h u w := by
  obtain ⟨z, hz⟩ := (pget_some_iff h v).mpr ⟨hv1, hv⟩
  intro x y hx hy
  exact hst.ntrans _ _ _ (h1 x z hx hz) (h2 z y hz hy)

theorem upInv_of_heap (lt : α → α → Bool) (hst : StrictTotalPreorder lt) (bh : BHeap)
    (hwf : bh.WF) (h : List α) (u : Nat) (hlen : h.length < 2 ^ 63)
    (hi : ∀ v, 2 ≤ v → v ≤ h.length → NotLess lt h v (bh.parent v)) : UpInv lt bh h u := by
  refine ⟨fun v hv2 hvl _ => hi v hv2 hvl, fun v hv2 hvl hpv hu2 => ?_⟩
  obtain ⟨hq1, hqv⟩ := parent_bounds bh hwf v hv2 (by omega)
  have h1 := hi v hv2 hvl
  rw [hpv] at h1
  exact notLess_trans lt hst h v u _ (by omega) (by omega) h1 (hi u hu2 (by omega))

theorem downInv_of_heap (lt : α → α → Bool) (hst : StrictTotalPreorder lt) (bh : BHeap)
    (hwf : bh.WF) (h : List α) (u : Nat) (hlen : h.length < 2 ^ 63)
    (hi : ∀ v, 2 ≤ v → v ≤ h.length → NotLess lt h v (bh.parent v)) : DownInv lt bh h u :=
  ⟨fun v hv2 hvl _ => hi v hv2 hvl, (upInv_of_heap lt hst bh hwf h u hlen hi).2⟩

/-- The method `up` from a position whose element was replaced: afterwards only the pairs
below the returned position can be out of order. -/
theorem up_weak (lt : α → α → Bool) (hst : StrictTotalPreorder lt) (bh : BHeap)
    (hwf : bh.WF) (h : List α) (u : Nat) (hlen : h.length < 2 ^ 63) (hu1 : 1 ≤ u)
    (hu : u ≤ h.length) (hinv : Hole lt bh h u) :
    ∃ h1 u1, bh.up lt h u = Res.ok (h1, u1) ∧ h1.Perm h ∧ DownInv lt bh h1 u1 ∧
      1 ≤ u1 ∧ u1 ≤ u := by
  unfold BHeap.up BHeap.upLoop
  by_cases h1 : u > rootIndex
  · rw [if_pos h1]
    have hu2 : 2 ≤ u := h1
    obtain ⟨hp1, hpu⟩ := parent_bounds bh hwf u hu2 (by omega)
    obtain ⟨a, ha⟩ := (pget_some_iff h u).mpr ⟨by omega, hu⟩
    obtain ⟨b, hb⟩ := (pget_some_iff h (bh.parent u)).mpr ⟨hp1, by omega⟩
    simp only [Less_some lt h u _ a b hlen ha hb]
    cases hlt : lt a b
    · refine ⟨h, u, rfl, List.Perm.refl _, ⟨?_, hinv.2⟩, hu1, le_refl _⟩
      intro v hv2 hvl hpv
      by_cases hvu : v = u
      · subst hvu
        intro x y hx hy
        rw [ha] at hx
        rw [hb] at hy
        cases hx
        cases hy
        exact hlt
      · exact hinv.1 v hv2 hvl hvu hpv
    · simp only [Swap_some h u _ a b hlen ha hb]
      have hg := fun w => pget_swap h u (bh.parent u) w a b ha hb
      have hperm := swap_perm h u (bh.parent u) a b ha hb
      generalize (h.set (u - 1) b).set (bh.parent u - 1) a = h2 at hg hperm ⊢
      have hl2 : h2.length = h.length := hperm.length_eq
      have hinv2 : UpInv lt bh h2 (bh.parent u) :=
        up_swap_inv lt hst bh hwf h h2 u a b hlen hu2 hu ha hb hlt hl2 hg hinv
      obtain ⟨h3, u3, hrun, hperm3, hinv3, hle, hpos, _⟩ :=
        upLoop_correct lt hst bh hwf u h2 (bh.parent u) (by omega) (by omega) (by omega) hinv2
      have hl3 : h3.length = h2.length := hperm3.length_eq
      exact ⟨h3, u3, hrun, hperm3.trans hperm,
        downInv_of_heap lt hst bh hwf h3 u3 (by omega) hinv3, hpos hp1, by omega⟩
  · rw [if_neg h1]
    refine ⟨h, u, rfl, List.Perm.refl _, ⟨?_, hinv.2⟩, hu1, le_refl _⟩
    intro v hv2 hvl hpv
    exact hinv.1 v hv2 hvl (by unfold rootIndex at h1; omega) hpv

/-- The method `down` from a position whose element was replaced: afterwards only the pair
of that position and its parent can be out of order. -/
theorem down_weak (lt : α → α → Bool) (hst : StrictTotalPreorder lt) (bh : BHeap)
    (hwf : bh.WF) (h4 : 4 ≤ bh.pageSize) (h : List α) (u : Nat) (hlen : h.length < 2 ^ 63)
    (hfits : bh.Fits h.length) (hu1 : 1 ≤ u) (hu : u ≤ h.length) (hinv : Hole lt bh h u) :
    ∃ h1 u1, bh.down lt h u = Res.ok (h1, u1) ∧ h1.Perm h ∧ UpInv lt bh h1 u := by
  have hfit : bh.NoOverflow u := hfits u hu hu1
  obtain ⟨hgt, hlr, hr64⟩ := child_gt bh hwf u hu1 (by omega) hfit
  obtain ⟨hpl, hpr⟩ := child_parent bh hwf h4 u (by omega) hfit
  have hkids : ∀ v, 2 ≤ v → v ≤ h.length → bh.parent v = u →
      v = (bh.child u).1 ∨ v = (bh.child u).2 := by
    intro v hv2 hvl hpv
    have := parent_child bh hwf h4 v hv2 (by omega)
    rw [hpv] at this
    exact this
  unfold BHeap.down BHeap.downLoop
  simp only [len_succ64 h hlen]
  generalize bh.child u = ch at hgt hlr hr64 hpl hpr hkids ⊢
  obtain ⟨l, r⟩ := ch
  simp only at hgt hlr hr64 hpl hpr hkids ⊢
  by_cases hleaf : l ≥ h.length + 1
  · rw [if_pos hleaf]
    refine ⟨h, u, rfl, List.Perm.refl _, ⟨?_, hinv.2⟩⟩
    intro v hv2 hvl hvu
    by_cases hpv : bh.parent v = u
    · have := hkids v hv2 hvl hpv
      omega
    · exact hinv.1 v hv2 hvl hvu hpv
  · rw [if_neg hleaf]
    obtain ⟨c, hcand, hcl, hcle, hminl, hminr⟩ :=
      candidate_spec lt hst h l r hlen (by omega) (by omega) hlr
    have hpc : bh.parent c = u := by
      rcases hcl with hcl | hcl
      · rw [hcl]; exact hpl
      · rw [hcl]; exact hpr
    have huc : u < c := by omega
    have hmin : ∀ v, 2 ≤ v → v ≤ h.length → bh.parent v = u → NotLess lt h v c := by
      intro v hv2 hvl hpv
      rcases hkids v hv2 hvl hpv with hv | hv
      · rw [hv]; exact hminl
      · rw [hv]; exact hminr (by omega)
    obtain ⟨a, ha⟩ := (pget_some_iff h u).mpr ⟨hu1, hu⟩
    obtain ⟨b, hb⟩ := (pget_some_iff h c).mpr ⟨by omega, hcle⟩
    simp only [hcand, Less_some lt h u c a b hlen ha hb]
    cases hlt : lt a b
    · simp only [Swap_some h u c a b hlen ha hb]
      have hg := fun w => pget_swap h u c w a b ha hb
      have hperm := swap_perm h u c a b ha hb
      generalize (h.set (u - 1) b).set (c - 1) a = h2 at hg hperm ⊢
      have hl2 : h2.length = h.length := hperm.length_eq
      have hinv2 : DownInv lt bh h2 c :=
        down_swap_inv lt bh hwf h h2 u c a b hlen hu1 huc hcle hpc hb hlt hmin hl2 hg hinv
      obtain ⟨h3, u3, hrun, hperm3, hinv3⟩ :=
        downLoop_correct lt hst bh hwf h4 (h.length + 1) h2 c (by omega) (hl2 ▸ hfits)
          (by omega) (by omega) (by omega) hinv2
      have hl3 : h3.length = h2.length := hperm3.length_eq
      exact ⟨h3, u3, hrun, hperm3.trans hperm,
        upInv_of_heap lt hst bh hwf h3 u (by omega) hinv3⟩
    · refine ⟨h, u, rfl, List.Perm.refl _, ⟨?_, hinv.2⟩⟩
      intro v hv2 hvl hvu
      by_cases hpv : bh.parent v = u
      · intro x y hx hy
        rw [hpv, ha] at hy
        cases hy
        have h1 := hmin v hv2 hvl hpv x b hx hb
        exact hst.ntrans _ _ _ h1 (hst.asymm _ _ hlt)
      · exact hinv.1 v hv2 hvl hvu hpv

end Weak

end BHeapModel

namespace BHeapModel

section Total

variable {α : Type}

/-- The loop of `up` returns on every container, for every comparison, and permutes the
container. -/
theorem upLoop_total (lt : α → α → Bool) (bh : BHeap) (hwf : bh.WF) :
    ∀ (fuel : Nat) (h : List α) (u : Nat), h.length < 2 ^ 63 → u ≤ h.length → u < fuel →
      ∃ h1 u1, bh.upLoop lt fuel h u = Res.ok (h1, u1) ∧ h1.Perm h ∧ u1 ≤ u ∧
        (1 ≤ u → 1 ≤ u1) ∧ pget h1 u1 = pget h u := by
  intro fuel
  induction fuel with
  | zero => intro h u _ _ hf; omega
  | succ fuel ih =>
    intro h u hlen hu hf
    unfold BHeap.upLoop
    by_cases h1 : u > rootIndex
    · rw [if_pos h1]
      have hu2 : 2 ≤ u := h1
      obtain ⟨hp1, hpu⟩ := parent_bounds bh hwf u hu2 (by omega)
      obtain ⟨a, ha⟩ := (pget_some_iff h u).mpr ⟨by omega, hu⟩
      obtain ⟨b, hb⟩ := (pget_some_iff h (bh.parent u)).mpr ⟨hp1, by omega⟩
      simp only [Less_some lt h u _ a b hlen ha hb]
      cases hlt : lt a b
      · exact ⟨h, u, rfl, List.Perm.refl _, le_refl _, fun h => h, rfl⟩
      · simp only [Swap_some h u _ a b hlen ha hb]
        have hg := fun w => pget_swap h u (bh.parent u) w a b ha hb
        have hperm := swap_perm h u (bh.parent u) a b ha hb
        generalize (h.set (u - 1) b).set (bh.parent u - 1) a = h2 at hg hperm ⊢
        have hl2 : h2.length = h.length := hperm.length_eq
        obtain ⟨h3, u3, hrun, hperm3, hle, hpos, hval⟩ :=
          ih h2 (bh.parent u) (by omega) (by omega) (by omega)
        refine ⟨h3, u3, hrun, hperm3.trans hperm, by omega, fun _ => hpos hp1, ?_⟩
        rw [hval, hg, if_pos rfl, ha]
    · rw [if_neg h1]
      exact ⟨h, u, rfl, List.Perm.refl _, le_refl _, fun h => h, rfl⟩

theorem candidate_ok (lt : α → α → Bool) (h : List α) (l r : Nat)
    (hlen : h.length < 2 ^ 63) (hl1 : 1 ≤ l) (hl : l ≤ h.length) (hr : r = l ∨ r = l + 1) :
    ∃ c, BHeap.candidate lt h l r = Res.ok c ∧ (c = l ∨ c = r) ∧ c ≤ h.length := by
  obtain ⟨xl, hxl⟩ := (pget_some_iff h l).mpr ⟨hl1, hl⟩
  unfold BHeap.candidate
  rw [len_succ64 h hlen]
  by_cases hc : l ≠ r ∧ r < h.length + 1
  · rw [if_pos hc]
    obtain ⟨xr, hxr⟩ := (pget_some_iff h r).mpr ⟨by omega, by omega⟩
    simp only [Less_some lt h r l xr xl hlen hxr hxl]
    cases hlt : lt xr xl
    · exact ⟨l, rfl, Or.inl rfl, hl⟩
    · exact ⟨r, rfl, Or.inr rfl, by omega⟩
  · rw [if_neg hc]
    exact ⟨l, rfl, Or.inl rfl, hl⟩

/-- The loop of `down` returns on every container whose child positions do not overflow,
for every page size and every comparison, and permutes the container. -/
theorem downLoop_total (lt : α → α → Bool) (bh : BHeap) (hwf : bh.WF) :
    ∀ (fuel : Nat) (h : List α) (u : Nat), h.length < 2 ^ 63 → bh.Fits h.length →
      1 ≤ u → u ≤ h.length → h.length - u < fuel →
      ∃ h1 u1, bh.downLoop lt fuel h u = Res.ok (h1, u1) ∧ h1.Perm h := by
  intro fuel
  induction fuel with
  | zero => intro h u _ _ _ _ hf; omega
  | succ fuel ih =>
    intro h u hlen hfits hu1 hu hf
    have hfit : bh.NoOverflow u := hfits u hu hu1
    obtain ⟨hgt, hlr, hr64⟩ := child_gt bh hwf u hu1 (by omega) hfit
    unfold BHeap.downLoop
    simp only [len_succ64 h hlen]
    generalize bh.child u = ch at hgt hlr hr64 ⊢
    obtain ⟨l, r⟩ := ch
    simp only at hgt hlr hr64 ⊢
    by_cases hleaf : l ≥ h.length + 1
    · rw [if_pos hleaf]
      exact ⟨h, u, rfl, List.Perm.refl _⟩
    · rw [if_neg hleaf]
      obtain ⟨c, hcand, hcl, hcle⟩ := candidate_ok lt h l r hlen (by omega) (by omega) hlr
      have huc : u < c := by omega
      obtain ⟨a, ha⟩ := (pget_some_iff h u).mpr ⟨hu1, hu⟩
      obtain ⟨b, hb⟩ := (pget_some_iff h c).mpr ⟨by omega, hcle⟩
      simp only [hcand, Less_some lt h u c a b hlen ha hb]
      cases hlt : lt a b
      · simp only [Swap_some h u c a b hlen ha hb]
        have hperm := swap_perm h u c a b ha hb
        generalize (h.set (u - 1) b).set (c - 1) a = h2 at hperm ⊢
        have hl2 : h2.length = h.length := hperm.length_eq
        obtain ⟨h3, u3, hrun, hperm3⟩ :=
          ih h2 c (by omega) (hl2 ▸ hfits) (by omega) (by omega) (by omega)
        exact ⟨h3, u3, hrun, hperm3.trans hperm⟩
      · exact ⟨h, u, rfl, List.Perm.refl _⟩

/-- The first child of the root is position 2, at every page size. -/
theorem child_one (bh : BHeap) (hwf : bh.WF) : (bh.child 1).1 = 2 := by
  obtain ⟨s, hs1, hs, rfl⟩ := hwf
  have hP : 2 ^ 1 ≤ 2 ^ s := Nat.pow_le_pow_right (by norm_num) hs1
  have hH : 0 < 2 ^ (s - 1) := Nat.two_pow_pos _
  have hPH := two_pow_half s hs1
  have h := child_decomp s 0 1 hs1 hs (by omega) (by norm_num)
  simp only [mul_zero, zero_add] at h
  rw [h, if_neg (by omega)]
  by_cases h2 : 2 ^ (s - 1) ≤ 1
  · rw [if_pos h2]
    have : 2 ^ (s - 1) = 1 := by omega
    rw [this, hPH, this]
    rfl
  · rw [if_neg h2]
    rfl

/-- The method `down` on the empty container returns at once. -/
theorem down_nil (lt : α → α → Bool) (bh : BHeap) (hwf : bh.WF) :
    bh.down lt ([] : List α) rootIndex = Res.ok ([], rootIndex) := by
  unfold BHeap.down BHeap.downLoop
  have h2 := child_one bh hwf
  have h1 : add64 (([] : List α).length % 2 ^ 64) rootIndex = 1 := rfl
  simp only [h1]
  rw [if_pos (by unfold rootIndex; omega)]

end Total

end BHeapModel

namespace BHeapModel

section Operations

variable {α : Type}

theorem pget_append (h : List α) (v : α) (w : Nat) :
    pget (h ++ [v]) w = if w = h.length + 1 then some v else pget h w := by
  unfold pget
  by_cases h0 : w = 0
  · subst h0
    simp
  · rw [if_neg h0, if_neg h0]
    by_cases h1 : w = h.length + 1
    · subst h1
      simp
    · rw [if_neg h1]
      by_cases h2 : w ≤ h.length
      · rw [List.getElem?_append_left (by omega)]
      · rw [List.getElem?_eq_none (by simp; omega), List.getElem?_eq_none (by omega)]

theorem pget_dropLast (h : List α) (w : Nat) :
    pget h.dropLast w = if w < h.length then pget h w else none := by
  unfold pget
  by_cases h0 : w = 0
  · subst h0
    simp
  · rw [if_neg h0, if_neg h0, List.getElem?_dropLast]
    by_cases h1 : w < h.length
    · rw [if_pos (by omega), if_pos h1]
    · rw [if_neg (by omega), if_neg h1]

theorem pget_mem (h : List α) (w : Nat) (x : α) (hx : pget h w = some x) : x ∈ h := by
  unfold pget at hx
  split at hx
  · exact absurd hx (by simp)
  · exact List.getElem?_mem hx

theorem mem_pget (h : List α) (x : α) (hx : x ∈ h) :
    ∃ w, 1 ≤ w ∧ w ≤ h.length ∧ pget h w = some x := by
  obtain ⟨i, hi, hxi⟩ := List.getElem_of_mem hx
  refine ⟨i + 1, by omega, by omega, ?_⟩
  unfold pget
  rw [if_neg (by omega)]
  simp only [Nat.add_sub_cancel]
  rw [List.getElem?_eq_getElem hi, hxi]

/-- The container's `Pop` on a non-empty slice returns its last element. -/
theorem myHeap_Pop_some (h : List α) (hne : 1 ≤ h.length) :
    ∃ x, pget h h.length = some x ∧ myHeap.Pop h = Res.ok (h.dropLast, x) ∧
      h = h.dropLast ++ [x] := by
  obtain ⟨x, hx⟩ := (pget_some_iff h h.length).mpr ⟨hne, le_refl _⟩
  have hl : h.getLast? = some x := by
    rw [List.getLast?_eq_getElem?, ← pget_eq_getElem? h _ hne]
    exact hx
  refine ⟨x, hx, ?_, ?_⟩
  · unfold myHeap.Pop
    rw [hl]
  · exact (List.dropLast_append_getLast? x hl).symm

/-- The heap invariant on positions puts a least element at the root. -/
theorem heap_root_min (lt : α → α → Bool) (hst : StrictTotalPreorder lt) (bh : BHeap)
    (hwf : bh.WF) (h : List α) (hlen : h.length < 2 ^ 63)
    (hi : ∀ v, 2 ≤ v → v ≤ h.length → NotLess lt h v (bh.parent v)) :
    ∀ w, 1 ≤ w → w ≤ h.length → NotLess lt h w 1 := by
  intro w
  induction w using Nat.strong_induction_on with
  | _ w ih =>
    intro hw1 hw
    by_cases h1 : w = 1
    · subst h1
      intro x y hx hy
      rw [hx] at hy
      cases hy
      exact lt_irrefl_of lt hst x
    · obtain ⟨hp1, hpw⟩ := parent_bounds bh hwf w (by omega) (by omega)
      exact notLess_trans lt hst h w (bh.parent w) 1 hp1 (by omega) (hi w (by omega) hw)
        (ih (bh.parent w) hpw hp1 (by omega))

/-- The method `Push`: the result of the call. -/
theorem Push_spec (lt : α → α → Bool) (hst : StrictTotalPreorder lt) (bh : BHeap)
    (hwf : bh.WF) (h : List α) (v : α) (hlen : h.length + 1 < 2 ^ 63)
    (hi : HeapInv lt bh h) :
    ∃ h1 u, bh.Push lt h v = Res.ok (h1, u) ∧ HeapInv lt bh h1 ∧ h1.Perm (h ++ [v]) ∧
      1 ≤ u ∧ u ≤ h.length + 1 ∧ pget h1 u = some v := by
  have hi0 := (heapInv_iff lt bh hwf h (by omega)).mp hi
  have hl1 : (h ++ [v]).length = h.length + 1 := by simp
  have hpos : add64 (sub64 ((h ++ [v]).length % 2 ^ 64) 1) rootIndex = h.length + 1 := by
    rw [hl1]
    unfold add64 sub64 rootIndex
    omega
  have hinv : UpInv lt bh (h ++ [v]) (h.length + 1) := by
    constructor
    · intro w hw2 hwl hwn x y hx hy
      rw [hl1] at hwl
      obtain ⟨hp1, hpw⟩ := parent_bounds bh hwf w hw2 (by omega)
      rw [pget_append, if_neg hwn] at hx
      rw [pget_append, if_neg (by omega)] at hy
      exact hi0 w hw2 (by omega) x y hx hy
    · intro w hw2 hwl hwp
      rw [hl1] at hwl
      obtain ⟨hp1, hpw⟩ := parent_bounds bh hwf w hw2 (by omega)
      omega
  unfold BHeap.Push myHeap.Push BHeap.up
  simp only [hpos]
  obtain ⟨h1, u1, hrun, hperm, hinv1, hle, hpos1, hval⟩ :=
    upLoop_correct lt hst bh hwf (h.length + 1 + 1) (h ++ [v]) (h.length + 1)
      (by omega) (by omega) (by omega) hinv
  have hl2 : h1.length = h.length + 1 := by rw [hperm.length_eq, hl1]
  refine ⟨h1, u1, hrun, (heapInv_iff lt bh hwf h1 (by omega)).mpr hinv1, hperm,
    hpos1 (by omega), hle, ?_⟩
  rw [hval, pget_append, if_pos rfl]

theorem slot_one : slot 1 = 0 := by decide

theorem toInt_eq_slot (i : Nat) : toInt i = slot (i + 1) := by
  unfold slot toInt wrapInt rootIndex
  omega

theorem Len_pred_eq_slot (h : List α) : wrapInt (myHeap.Len h - 1) = slot h.length := by
  unfold myHeap.Len slot toInt wrapInt rootIndex
  omega

/-- Exchanging position `u` with the last position and popping the container: the popped
element is the one that was at `u`, and the last element now sits at `u`. -/
theorem swap_pop (h : List α) (u : Nat) (hlen : h.length < 2 ^ 63) (hu1 : 1 ≤ u)
    (hu : u ≤ h.length) :
    ∃ a b h1 h2, pget h u = some a ∧ pget h h.length = some b ∧
      myHeap.Swap h (slot u) (slot h.length) = Res.ok h1 ∧
      myHeap.Pop h1 = Res.ok (h2, a) ∧ h.Perm (a :: h2) ∧ h2.length = h.length - 1 ∧
      ∀ w, pget h2 w = if w < h.length then (if w = u then some b else pget h w) else none := by
  obtain ⟨a, ha⟩ := (pget_some_iff h u).mpr ⟨hu1, hu⟩
  obtain ⟨b, hb⟩ := (pget_some_iff h h.length).mpr ⟨by omega, le_refl _⟩
  have hsw := Swap_some h u h.length a b hlen ha hb
  have hg := fun w => pget_swap h u h.length w a b ha hb
  have hperm := swap_perm h u h.length a b ha hb
  generalize (h.set (u - 1) b).set (h.length - 1) a = h1 at hsw hg hperm
  have hl1 : h1.length = h.length := hperm.length_eq
  obtain ⟨x, hx, hpop, hsplit⟩ := myHeap_Pop_some h1 (by omega)
  have hxa : x = a := by
    rw [hl1, hg, if_pos rfl] at hx
    exact (Option.some.inj hx).symm
  subst hxa
  refine ⟨x, b, h1, h1.dropLast, ha, hb, hsw, hpop, ?_, by simp [hl1], ?_⟩
  · have h2 : h1.Perm (x :: h1.dropLast) := by
      conv_lhs => rw [hsplit]
      exact List.perm_append_singleton _ _
    exact hperm.symm.trans h2
  · intro w
    rw [pget_dropLast, hl1]
    by_cases hw : w < h.length
    · rw [if_pos hw, if_pos hw, hg, if_neg (by omega)]
    · rw [if_neg hw, if_neg hw]

theorem fits_mono (bh : BHeap) (n m : Nat) (hmn : m ≤ n) (hf : bh.Fits n) : bh.Fits m :=
  fun p hp hp1 => hf p (by omega) hp1

/-- The method `Pop` on a non-empty container: it exchanges the root with the last element,
pops the container and runs `down` from the root. -/
theorem Pop_shape (lt : α → α → Bool) (bh : BHeap) (h : List α) (hne : 1 ≤ h.length)
    (hlen : h.length < 2 ^ 63) :
    ∃ a b h2, pget h 1 = some a ∧ pget h h.length = some b ∧ h.Perm (a :: h2) ∧
      h2.length = h.length - 1 ∧
      (∀ w, pget h2 w = if w < h.length then (if w = 1 then some b else pget h w) else none) ∧
      ∀ h3 u3, bh.down lt h2 rootIndex = Res.ok (h3, u3) → bh.Pop lt h = Res.ok (h3, a) := by
  obtain ⟨a, b, h1, h2, ha, hb, hsw, hpop, hperm, hl2, hg⟩ := swap_pop h 1 hlen (le_refl _) hne
  refine ⟨a, b, h2, ha, hb, hperm, hl2, hg, ?_⟩
  intro h3 u3 hd
  unfold BHeap.Pop
  rw [← slot_one, Len_pred_eq_slot h, hsw]
  simp only [hpop, hd]

/-- The method `Remove` at an index other than the last: it exchanges the slot with the last
element, pops the container and runs `down` and then `up` from the slot. -/
theorem Remove_shape (lt : α → α → Bool) (bh : BHeap) (h : List α) (i : Nat)
    (hlen : h.length < 2 ^ 63) (hi : i + 1 < h.length) :
    ∃ a b h2, pget h (i + 1) = some a ∧ pget h h.length = some b ∧ h.Perm (a :: h2) ∧
      h2.length = h.length - 1 ∧
      (∀ w, pget h2 w =
        if w < h.length then (if w = i + 1 then some b else pget h w) else none) ∧
      ∀ h3 u3 h4 u4, bh.down lt h2 (i + 1) = Res.ok (h3, u3) →
        bh.up lt h3 (i + 1) = Res.ok (h4, u4) → bh.Remove lt h i = Res.ok (h4, a) := by
  obtain ⟨a, b, h1, h2, ha, hb, hsw, hpop, hperm, hl2, hg⟩ :=
    swap_pop h (i + 1) hlen (by omega) (by omega)
  refine ⟨a, b, h2, ha, hb, hperm, hl2, hg, ?_⟩
  intro h3 u3 h4 u4 hd hup
  have hn : sub64 (h.length % 2 ^ 64) 1 = h.length - 1 := by
    unfold sub64
    omega
  have hi1 : add64 i rootIndex = i + 1 := by
    unfold add64 rootIndex
    omega
  have hs2 : toInt (h.length - 1) = slot h.length := by
    rw [toInt_eq_slot _]
    congr 1
    omega
  unfold BHeap.Remove
  simp only [hn, hi1]
  rw [if_pos (by omega), toInt_eq_slot i, hs2, hsw]
  simp only [hpop, hd, hup]

/-- The method `Remove` at the last index pops the container. -/
theorem Remove_last (lt : α → α → Bool) (bh : BHeap) (h : List α) (i : Nat)
    (hlen : h.length < 2 ^ 63) (hi : i + 1 = h.length) :
    bh.Remove lt h i = myHeap.Pop h := by
  have hn : sub64 (h.length % 2 ^ 64) 1 = h.length - 1 := by
    unfold sub64
    omega
  unfold BHeap.Remove
  simp only [hn]
  rw [if_neg (by omega)]

end Operations

end BHeapModel

namespace BHeapModel

section Specs

variable {α : Type}

/-- Replacing the element at position `u` of a heap (and possibly dropping positions at the
end) leaves a container that satisfies the invariant around `u`. -/
theorem hole_of_replace (lt : α → α → Bool) (hst : StrictTotalPreorder lt) (bh : BHeap)
    (hwf : bh.WF) (h h2 : List α) (u : Nat) (hlen : h.length < 2 ^ 63)
    (hl2 : h2.length ≤ h.length) (hu1 : 1 ≤ u) (hu : u ≤ h.length)
    (hg : ∀ w, w ≤ h2.length → w ≠ u → pget h2 w = pget h w)
    (hi : ∀ v, 2 ≤ v → v ≤ h.length → NotLess lt h v (bh.parent v)) : Hole lt bh h2 u := by
  constructor
  · intro v hv2 hvl hvu hpv x y hx hy
    obtain ⟨hp1, hpw⟩ := parent_bounds bh hwf v hv2 (by omega)
    rw [hg v hvl hvu] at hx
    rw [hg _ (by omega) hpv] at hy
    exact hi v hv2 (by omega) x y hx hy
  · intro v hv2 hvl hpv hu2 x y hx hy
    obtain ⟨hp1, hpw⟩ := parent_bounds bh hwf v hv2 (by omega)
    obtain ⟨hq1, hqu⟩ := parent_bounds bh hwf u hu2 (by omega)
    rw [hg v hvl (by omega)] at hx
    rw [hg _ (by omega) (by omega)] at hy
    have h1 := hi v hv2 (by omega)
    rw [hpv] at h1
    exact notLess_trans lt hst h v u _ hu1 hu h1 (hi u hu2 hu) x y hx hy

theorem heapInv_nil (lt : α → α → Bool) (bh : BHeap) : HeapInv lt bh ([] : List α) := by
  intro u hu hu2
  simp at hu
  omega

/-- The method `Pop` returns on every non-empty container whose child positions do not
overflow, at every page size: it returns the element of slot 0 and leaves the others. -/
theorem Pop_total (lt : α → α → Bool) (bh : BHeap) (hwf : bh.WF) (h : List α)
    (hne : 1 ≤ h.length) (hlen : h.length < 2 ^ 63) (hfits : bh.Fits h.length) :
    ∃ h3 a, bh.Pop lt h = Res.ok (h3, a) ∧ pget h 1 = some a ∧ h.Perm (a :: h3) := by
  obtain ⟨a, b, h2, ha, _, hperm, hl2, _, hpop⟩ := Pop_shape lt bh h hne hlen
  by_cases h1 : h.length = 1
  · have hnil : h2 = [] := List.length_eq_zero.mp (by omega)
    subst hnil
    exact ⟨[], a, hpop [] rootIndex (down_nil lt bh hwf), ha, hperm⟩
  · obtain ⟨h3, u3, hrun, hperm3⟩ :=
      downLoop_total lt bh hwf (h2.length + 2) h2 1 (by omega)
        (fits_mono bh _ _ (by omega) hfits) (le_refl _) (by omega) (by omega)
    refine ⟨h3, a, hpop h3 u3 ?_, ha, hperm.trans (List.Perm.cons a hperm3.symm)⟩
    unfold BHeap.down
    exact hrun

/-- The method `Pop` on a container that satisfies the heap invariant and whose child
positions do not overflow, at every page size: it returns the element of slot 0, and no
element of the container is less than it. -/
theorem Pop_returns_min (lt : α → α → Bool) (hst : StrictTotalPreorder lt) (bh : BHeap)
    (hwf : bh.WF) (h : List α) (hne : 1 ≤ h.length) (hlen : h.length < 2 ^ 63)
    (hfits : bh.Fits h.length) (hi : HeapInv lt bh h) :
    ∃ h3 a, bh.Pop lt h = Res.ok (h3, a) ∧ h[0]? = some a ∧ (∀ x ∈ h, lt x a = false) ∧
      h.Perm (a :: h3) := by
  obtain ⟨h3, a, hrun, ha, hperm⟩ := Pop_total lt bh hwf h hne hlen hfits
  refine ⟨h3, a, hrun, ?_, ?_, hperm⟩
  · rw [← pget_eq_getElem? h 1 (le_refl _)]
    exact ha
  · intro x hx
    obtain ⟨w, hw1, hw, hwx⟩ := mem_pget h x hx
    exact heap_root_min lt hst bh hwf h hlen ((heapInv_iff lt bh hwf h hlen).mp hi)
      w hw1 hw x a hwx ha

/-- The method `Pop` on a heap: page size at least 4, no overflow of child positions. -/
theorem Pop_spec (lt : α → α → Bool) (hst : StrictTotalPreorder lt) (bh : BHeap)
    (hwf : bh.WF) (h4 : 4 ≤ bh.pageSize) (h : List α) (hne : 1 ≤ h.length)
    (hlen : h.length < 2 ^ 63) (hfits : bh.Fits h.length) (hi : HeapInv lt bh h) :
    ∃ h3 a, bh.Pop lt h = Res.ok (h3, a) ∧ pget h 1 = some a ∧ h.Perm (a :: h3) ∧
      HeapInv lt bh h3 := by
  have hi0 := (heapInv_iff lt bh hwf h hlen).mp hi
  obtain ⟨a, b, h2, ha, _, hperm, hl2, hg, hpop⟩ := Pop_shape lt bh h hne hlen
  by_cases h1 : h.length = 1
  · have hnil : h2 = [] := List.length_eq_zero.mp (by omega)
    subst hnil
    exact ⟨[], a, hpop [] rootIndex (down_nil lt bh hwf), ha, hperm, heapInv_nil lt bh⟩
  · have hhole : Hole lt bh h2 1 :=
      hole_of_replace lt hst bh hwf h h2 1 hlen (by omega) (le_refl _) hne
        (fun w hw hw1 => by rw [hg, if_pos (by omega), if_neg hw1]) hi0
    have hdown : DownInv lt bh h2 1 :=
      ⟨fun v hv2 hvl hpv => hhole.1 v hv2 hvl (by omega) hpv, hhole.2⟩
    obtain ⟨h3, u3, hrun, hperm3, hinv3⟩ :=
      downLoop_correct lt hst bh hwf h4 (h2.length + 2) h2 1 (by omega)
        (fits_mono bh _ _ (by omega) hfits) (le_refl _) (by omega) (by omega) hdown
    have hl3 : h3.length = h2.length := hperm3.length_eq
    refine ⟨h3, a, hpop h3 u3 ?_, ha, hperm.trans (List.Perm.cons a hperm3.symm),
      (heapInv_iff lt bh hwf h3 (by omega)).mpr hinv3⟩
    unfold BHeap.down
    exact hrun

theorem pget_succ (h : List α) (i : Nat) : pget h (i + 1) = h[i]? := by
  unfold pget
  rw [if_neg (by omega)]
  rfl

/-- The method `Remove` returns on every container whose child positions do not overflow,
at every page size and whatever the order of the elements: it returns the element of slot
`i` and leaves the others. -/
theorem Remove_total (lt : α → α → Bool) (bh : BHeap) (hwf : bh.WF) (h : List α) (i : Nat)
    (hi : i < h.length) (hlen : h.length < 2 ^ 63) (hfits : bh.Fits h.length) :
    ∃ h4 a, bh.Remove lt h i = Res.ok (h4, a) ∧ h[i]? = some a ∧ h.Perm (a :: h4) := by
  by_cases hlast : i + 1 = h.length
  · obtain ⟨x, hx, hpop, hsplit⟩ := myHeap_Pop_some h (by omega)
    refine ⟨h.dropLast, x, ?_, ?_, ?_⟩
    · rw [Remove_last lt bh h i hlen hlast, hpop]
    · rw [← pget_succ, hlast]
      exact hx
    · conv_lhs => rw [hsplit]
      exact List.perm_append_singleton _ _
  · obtain ⟨a, b, h2, ha, _, hperm, hl2, _, hrem⟩ :=
      Remove_shape lt bh h i hlen (by omega)
    obtain ⟨h3, u3, hrun, hperm3⟩ :=
      downLoop_total lt bh hwf (h2.length + 2) h2 (i + 1) (by omega)
        (fits_mono bh _ _ (by omega) hfits) (by omega) (by omega) (by omega)
    have hl3 : h3.length = h2.length := hperm3.length_eq
    obtain ⟨h4, u4, hrun4, hperm4, _⟩ :=
      upLoop_total lt bh hwf (i + 1 + 1) h3 (i + 1) (by omega) (by omega) (by omega)
    refine ⟨h4, a, hrem h3 u3 h4 u4 ?_ ?_, ?_, ?_⟩
    · unfold BHeap.down
      exact hrun
    · unfold BHeap.up
      exact hrun4
    · rw [← pget_succ]
      exact ha
    · exact hperm.trans (List.Perm.cons a (hperm4.trans hperm3).symm)

/-- The method `Remove` on a heap: page size at least 4, no overflow of child positions. -/
theorem Remove_spec (lt : α → α → Bool) (hst : StrictTotalPreorder lt) (bh : BHeap)
    (hwf : bh.WF) (h4 : 4 ≤ bh.pageSize) (h : List α) (i : Nat) (hi : i < h.length)
    (hlen : h.length < 2 ^ 63) (hfits : bh.Fits h.length) (hinv : HeapInv lt bh h) :
    ∃ h4 a, bh.Remove lt h i = Res.ok (h4, a) ∧ h[i]? = some a ∧ h.Perm (a :: h4) ∧
      HeapInv lt bh h4 := by
  have hi0 := (heapInv_iff lt bh hwf h hlen).mp hinv
  by_cases hlast : i + 1 = h.length
  · obtain ⟨x, hx, hpop, hsplit⟩ := myHeap_Pop_some h (by omega)
    refine ⟨h.dropLast, x, ?_, ?_, ?_, ?_⟩
    · rw [Remove_last lt bh h i hlen hlast, hpop]
    · rw [← pget_succ, hlast]
      exact hx
    · conv_lhs => rw [hsplit]
      exact List.perm_append_singleton _ _
    · have hld : h.dropLast.length = h.length - 1 := by simp
      rw [heapInv_iff lt bh hwf _ (by omega)]
      intro v hv2 hvl x y hx' hy'
      obtain ⟨hp1, hpw⟩ := parent_bounds bh hwf v hv2 (by omega)
      rw [pget_dropLast, if_pos (by omega)] at hx' hy'
      exact hi0 v hv2 (by omega) x y hx' hy'
  · obtain ⟨a, b, h2, ha, _, hperm, hl2, hg, hrem⟩ :=
      Remove_shape lt bh h i hlen (by omega)
    have hhole : Hole lt bh h2 (i + 1) :=
      hole_of_replace lt hst bh hwf h h2 (i + 1) hlen (by omega) (by omega) (by omega)
        (fun w hw hw1 => by rw [hg, if_pos (by omega), if_neg hw1]) hi0
    obtain ⟨h3, u3, hrun, hperm3, hup⟩ :=
      down_weak lt hst bh hwf h4 h2 (i + 1) (by omega)
        (fits_mono bh _ _ (by omega) hfits) (by omega) (by omega) hhole
    have hl3 : h3.length = h2.length := hperm3.length_eq
    obtain ⟨h5, u5, hrun5, hperm5, hinv5, _⟩ :=
      upLoop_correct lt hst bh hwf (i + 1 + 1) h3 (i + 1) (by omega) (by omega) (by omega) hup
    have hl5 : h5.length = h3.length := hperm5.length_eq
    refine ⟨h5, a, hrem h3 u3 h5 u5 hrun ?_, ?_, ?_, ?_⟩
    · unfold BHeap.up
      exact hrun5
    · rw [← pget_succ]
      exact ha
    · exact hperm.trans (List.Perm.cons a (hperm5.trans hperm3).symm)
    · exact (heapInv_iff lt bh hwf h5 (by omega)).mpr hinv5

theorem pget_set (h : List α) (i : Nat) (x : α) (hi : i < h.length) (w : Nat) :
    pget (h.set i x) w = if w = i + 1 then some x else pget h w := by
  unfold pget
  by_cases h0 : w = 0
  · subst h0
    simp
  · rw [if_neg h0, if_neg h0, List.getElem?_set]
    by_cases h1 : w = i + 1
    · subst h1
      simp [hi]
    · rw [if_neg (by omega), if_neg h1]

/-- The method `Fix` called after slot `i` of a heap was overwritten: page size at least 4,
no overflow of child positions. -/
theorem Fix_spec (lt : α → α → Bool) (hst : StrictTotalPreorder lt) (bh : BHeap)
    (hwf : bh.WF) (h4 : 4 ≤ bh.pageSize) (h : List α) (i : Nat) (x : α) (hi : i < h.length)
    (hlen : h.length < 2 ^ 63) (hfits : bh.Fits h.length) (hinv : HeapInv lt bh h) :
    ∃ h2, bh.Fix lt (h.set i x) i = Res.ok h2 ∧ HeapInv lt bh h2 ∧ h2.Perm (h.set i x) := by
  have hi0 := (heapInv_iff lt bh hwf h hlen).mp hinv
  have hg := pget_set h i x hi
  have hlg : (h.set i x).length = h.length := List.length_set _ _ _
  generalize h.set i x = g at hg hlg ⊢
  have hhole : Hole lt bh g (i + 1) :=
    hole_of_replace lt hst bh hwf h g (i + 1) hlen (by omega) (by omega) (by omega)
      (fun w _ hw1 => by rw [hg, if_neg hw1]) hi0
  obtain ⟨h1, u1, hrun1, hperm1, hdown, hu1, hu1le⟩ :=
    up_weak lt hst bh hwf g (i + 1) (by omega) (by omega) (by omega) hhole
  have hl1 : h1.length = g.length := hperm1.length_eq
  obtain ⟨h2, u2, hrun2, hperm2, hinv2⟩ :=
    downLoop_correct lt hst bh hwf h4 (h1.length + 2) h1 u1 (by omega)
      (by rw [hl1, hlg]; exact hfits) hu1 (by omega) (by omega) hdown
  have hl2 : h2.length = h1.length := hperm2.length_eq
  have hi1 : add64 i rootIndex = i + 1 := by
    unfold add64 rootIndex
    omega
  have hd : bh.down lt h1 u1 = Res.ok (h2, u2) := by
    unfold BHeap.down
    exact hrun2
  refine ⟨h2, ?_, (heapInv_iff lt bh hwf h2 (by omega)).mpr hinv2, hperm2.trans hperm1⟩
  unfold BHeap.Fix
  simp only [hi1, hrun1, hd]

end Specs

end BHeapModel

namespace BHeapModel

/-! ## Integers ordered by `<` -/

theorem ltInt_stp : StrictTotalPreorder ltInt := by
  constructor
  · intro a b h
    unfold ltInt at *
    simp only [decide_eq_true_eq, decide_eq_false_iff_not] at *
    omega
  · intro a b c h1 h2
    unfold ltInt at *
    simp only [decide_eq_false_iff_not] at *
    omega

/-! ## The public operations on a heap -/

section Claims

variable {α : Type}

/-- C5. For every configuration returned by `New` (any page size), every container whose
`Less` is a strict total preorder and which satisfies the heap invariant, and every value
`v`: `Push` returns, the container then has length `Len + 1` and satisfies the heap
invariant at every position in `2..Len + 1`. The bound on the length is the range of Go's
`int`. -/
theorem push_preserves_heapInv (lt : α → α → Bool) (hst : StrictTotalPreorder lt)
    (n : Int) (bh : BHeap) (hnew : New n = some bh) (h : List α) (v : α)
    (hlen : h.length + 1 < 2 ^ 63) (hinv : HeapInv lt bh h) :
    ∃ h1 u, bh.Push lt h v = Res.ok (h1, u) ∧ h1.length = h.length + 1 ∧
      HeapInv lt bh h1 := by
  obtain ⟨h1, u, hrun, hinv1, hperm, _⟩ :=
    Push_spec lt hst bh (New_wf n bh hnew) h v hlen hinv
  exact ⟨h1, u, hrun, by rw [hperm.length_eq]; simp, hinv1⟩

/-- C4. For every configuration whose page size is a power of two ≥ 4 and every non-empty
container (`Less` a strict total preorder, child positions not overflowing 64 bits) that
satisfies the heap invariant: `Pop` returns and the remaining `Len - 1` elements satisfy
the heap invariant. -/
theorem pop_preserves_heapInv (lt : α → α → Bool) (hst : StrictTotalPreorder lt)
    (n : Int) (bh : BHeap) (hnew : New n = some bh) (h4 : 4 ≤ bh.pageSize) (h : List α)
    (hne : 1 ≤ h.length) (hlen : h.length < 2 ^ 63) (hfits : bh.Fits h.length)
    (hinv : HeapInv lt bh h) :
    ∃ h1 v, bh.Pop lt h = Res.ok (h1, v) ∧ h1.length = h.length - 1 ∧ HeapInv lt bh h1 := by
  obtain ⟨h1, v, hrun, _, hperm, hinv1⟩ :=
    Pop_spec lt hst bh (New_wf n bh hnew) h4 h hne hlen hfits hinv
  refine ⟨h1, v, hrun, ?_, hinv1⟩
  have := hperm.length_eq
  simp only [List.length_cons] at this
  omega

/-- C6. For every configuration whose page size is a power of two ≥ 4, every container
(`Less` a strict total preorder, child positions not overflowing 64 bits) that satisfies
the heap invariant and every index `i < Len`: `Remove` returns and the remaining `Len - 1`
elements satisfy the heap invariant. -/
theorem remove_preserves_heapInv (lt : α → α → Bool) (hst : StrictTotalPreorder lt)
    (n : Int) (bh : BHeap) (hnew : New n = some bh) (h4 : 4 ≤ bh.pageSize) (h : List α)
    (i : Nat) (hi : i < h.length) (hlen : h.length < 2 ^ 63) (hfits : bh.Fits h.length)
    (hinv : HeapInv lt bh h) :
    ∃ h1 v, bh.Remove lt h i = Res.ok (h1, v) ∧ h1.length = h.length - 1 ∧
      HeapInv lt bh h1 := by
  obtain ⟨h1, v, hrun, _, hperm, hinv1⟩ :=
    Remove_spec lt hst bh (New_wf n bh hnew) h4 h i hi hlen hfits hinv
  refine ⟨h1, v, hrun, ?_, hinv1⟩
  have := hperm.length_eq
  simp only [List.length_cons] at this
  omega

/-- The method `Fix` where no child position overflows. For every configuration whose page
size is a power of two ≥ 4, every container whose `Less` is a strict total preorder and
whose child positions do not overflow 64 bits, that satisfies the heap invariant, every
index `i < Len` and every replacement value `x`: after slot `i` is overwritten with `x`,
`Fix` at `i` returns, the heap invariant holds and the container is a permutation of what
it was just before the call, of the same length. -/
theorem fix_restores_heapInv (lt : α → α → Bool) (hst : StrictTotalPreorder lt)
    (n : Int) (bh : BHeap) (hnew : New n = some bh) (h4 : 4 ≤ bh.pageSize) (h : List α)
    (i : Nat) (x : α) (hi : i < h.length) (hlen : h.length < 2 ^ 63)
    (hfits : bh.Fits h.length) (hinv : HeapInv lt bh h) :
    ∃ h1, bh.Fix lt (h.set i x) i = Res.ok h1 ∧ HeapInv lt bh h1 ∧
      h1.Perm (h.set i x) ∧ h1.length = h.length := by
  obtain ⟨h1, hrun, hinv1, hperm⟩ :=
    Fix_spec lt hst bh (New_wf n bh hnew) h4 h i x hi hlen hfits hinv
  exact ⟨h1, hrun, hinv1, hperm, by rw [hperm.length_eq, List.length_set]⟩

end Claims

/-! ## Sorted extraction -/

theorem pushAll_heap (bh : BHeap) (hwf : bh.WF) :
    ∀ (xs h : List Int), h.length + xs.length < 2 ^ 63 → HeapInv ltInt bh h →
      ∃ h1, bh.pushAll ltInt h xs = Res.ok h1 ∧ HeapInv ltInt bh h1 ∧ h1.Perm (h ++ xs) := by
  intro xs
  induction xs with
  | nil =>
    intro h _ hinv
    exact ⟨h, rfl, hinv, by simp⟩
  | cons x xs ih =>
    intro h hlen hinv
    simp only [List.length_cons] at hlen
    obtain ⟨h1, u, hrun, hinv1, hperm, _⟩ :=
      Push_spec ltInt ltInt_stp bh hwf h x (by omega) hinv
    have hl1 : h1.length = h.length + 1 := by rw [hperm.length_eq]; simp
    obtain ⟨h2, hrun2, hinv2, hperm2⟩ := ih h1 (by omega) hinv1
    refine ⟨h2, ?_, hinv2, ?_⟩
    · unfold BHeap.pushAll
      simp only [hrun]
      exact hrun2
    · refine hperm2.trans ?_
      have := List.Perm.append_right xs hperm
      simpa using this

theorem popN_sorted (bh : BHeap) (hwf : bh.WF) (h4 : 4 ≤ bh.pageSize) :
    ∀ (m : Nat) (h : List Int), h.length = m → h.length < 2 ^ 63 → bh.Fits h.length →
      HeapInv ltInt bh h →
      ∃ vs, bh.popN ltInt m h = Res.ok (vs, []) ∧ vs.Perm h ∧ vs.Sorted (· ≤ ·) := by
  intro m
  induction m with
  | zero =>
    intro h hm _ _ _
    have : h = [] := List.length_eq_zero.mp hm
    subst this
    exact ⟨[], rfl, List.Perm.refl _, List.sorted_nil⟩
  | succ m ih =>
    intro h hm hlen hfits hinv
    obtain ⟨h1, a, hrun, ha, hperm, hinv1⟩ :=
      Pop_spec ltInt ltInt_stp bh hwf h4 h (by omega) hlen hfits hinv
    have hl1 : h1.length = m := by
      have := hperm.length_eq
      simp only [List.length_cons] at this
      omega
    obtain ⟨vs, hrun1, hperm1, hsorted⟩ :=
      ih h1 hl1 (by omega) (fits_mono bh _ _ (by omega) hfits) hinv1
    refine ⟨a :: vs, ?_, (List.Perm.cons a hperm1).trans hperm.symm, ?_⟩
    · unfold BHeap.popN
      simp only [hrun, hrun1]
    · refine List.sorted_cons.mpr ⟨?_, hsorted⟩
      intro b hb
      have hbh : b ∈ h := hperm.symm.subset (List.mem_cons_of_mem a (hperm1.subset hb))
      obtain ⟨w, hw1, hw, hwb⟩ := mem_pget h b hbh
      have hmin := heap_root_min ltInt ltInt_stp bh hwf h hlen
        ((heapInv_iff ltInt bh hwf h hlen).mp hinv) w hw1 hw b a hwb ha
      unfold ltInt at hmin
      simp only [decide_eq_false_iff_not] at hmin
      omega

/-- C2. For every configuration whose page size is a power of two ≥ 4 and every list of
integers (short enough that no child position up to its length overflows 64 bits): pushing
the elements one by one into the empty container and then calling `Pop` until the container
is empty returns exactly the sorted list. -/
theorem push_all_pop_all_sorted (n : Int) (bh : BHeap) (hnew : New n = some bh)
    (h4 : 4 ≤ bh.pageSize) (xs : List Int) (hlen : xs.length < 2 ^ 63)
    (hfits : bh.Fits xs.length) :
    ∃ h, bh.pushAll ltInt [] xs = Res.ok h ∧
      bh.popN ltInt h.length h = Res.ok (xs.insertionSort (· ≤ ·), []) := by
  have hwf := New_wf n bh hnew
  obtain ⟨h, hrun, hinv, hperm⟩ :=
    pushAll_heap bh hwf xs [] (by simpa using hlen) (heapInv_nil ltInt bh)
  have hl : h.length = xs.length := by rw [hperm.length_eq]; simp
  obtain ⟨vs, hrun2, hperm2, hsorted⟩ :=
    popN_sorted bh hwf h4 h.length h rfl (by omega) (by rw [hl]; exact hfits) hinv
  refine ⟨h, hrun, ?_⟩
  rw [hrun2]
  have hp : vs.Perm (xs.insertionSort (· ≤ ·)) := by
    refine (hperm2.trans hperm).trans ?_
    simpa using (List.perm_insertionSort (· ≤ ·) xs).symm
  rw [List.eq_of_perm_of_sorted hp hsorted (List.sorted_insertionSort (· ≤ ·) xs)]

end BHeapModel

namespace BHeapModel

/-! ## The operations on concrete containers -/

theorem push_preserves_heapInv_witness :
    New 2 = some ⟨2, 1, 1⟩ ∧ HeapInv ltInt ⟨2, 1, 1⟩ [1, 3] ∧
      ∃ h1 u, (⟨2, 1, 1⟩ : BHeap).Push ltInt [1, 3] 0 = Res.ok (h1, u) ∧
        h1.length = [1, 3].length + 1 ∧ HeapInv ltInt ⟨2, 1, 1⟩ h1 :=
  ⟨by decide, by decide,
    push_preserves_heapInv ltInt ltInt_stp 2 ⟨2, 1, 1⟩ (by decide) [1, 3] 0 (by decide)
      (by decide)⟩

theorem pop_preserves_heapInv_witness :
    New 4 = some ⟨4, 3, 2⟩ ∧ (⟨4, 3, 2⟩ : BHeap).Fits 3 ∧ HeapInv ltInt ⟨4, 3, 2⟩ [1, 3, 2] ∧
      ∃ h1 v, (⟨4, 3, 2⟩ : BHeap).Pop ltInt [1, 3, 2] = Res.ok (h1, v) ∧
        h1.length = [1, 3, 2].length - 1 ∧ HeapInv ltInt ⟨4, 3, 2⟩ h1 :=
  ⟨by decide, by decide, by decide,
    pop_preserves_heapInv ltInt ltInt_stp 4 ⟨4, 3, 2⟩ (by decide) (by decide) [1, 3, 2]
      (by decide) (by decide) (by decide) (by decide)⟩

theorem remove_preserves_heapInv_witness :
    New 4 = some ⟨4, 3, 2⟩ ∧ (⟨4, 3, 2⟩ : BHeap).Fits 4 ∧
      HeapInv ltInt ⟨4, 3, 2⟩ [1, 3, 2, 5] ∧
      ∃ h1 v, (⟨4, 3, 2⟩ : BHeap).Remove ltInt [1, 3, 2, 5] 1 = Res.ok (h1, v) ∧
        h1.length = [1, 3, 2, 5].length - 1 ∧ HeapInv ltInt ⟨4, 3, 2⟩ h1 :=
  ⟨by decide, by decide, by decide,
    remove_preserves_heapInv ltInt ltInt_stp 4 ⟨4, 3, 2⟩ (by decide) (by decide)
      [1, 3, 2, 5] 1 (by decide) (by decide) (by decide) (by decide)⟩

theorem push_all_pop_all_sorted_witness :
    New 4 = some ⟨4, 3, 2⟩ ∧ (⟨4, 3, 2⟩ : BHeap).Fits 3 ∧
      ∃ h, (⟨4, 3, 2⟩ : BHeap).pushAll ltInt [] [3, 1, 2] = Res.ok h ∧
        (⟨4, 3, 2⟩ : BHeap).popN ltInt h.length h
          = Res.ok (([3, 1, 2] : List Int).insertionSort (· ≤ ·), []) :=
  ⟨by decide, by decide,
    push_all_pop_all_sorted 4 ⟨4, 3, 2⟩ (by decide) (by decide) [3, 1, 2] (by decide)
      (by decide)⟩

theorem fix_restores_heapInv_witness :
    New 4 = some ⟨4, 3, 2⟩ ∧ (⟨4, 3, 2⟩ : BHeap).Fits 4 ∧
      HeapInv ltInt ⟨4, 3, 2⟩ [1, 3, 2, 5] ∧
      ∃ h1, (⟨4, 3, 2⟩ : BHeap).Fix ltInt (([1, 3, 2, 5] : List Int).set 0 7) 0 = Res.ok h1 ∧
        HeapInv ltInt ⟨4, 3, 2⟩ h1 ∧ h1.Perm (([1, 3, 2, 5] : List Int).set 0 7) ∧
        h1.length = ([1, 3, 2, 5] : List Int).length :=
  ⟨by decide, by decide, by decide,
    fix_restores_heapInv ltInt ltInt_stp 4 ⟨4, 3, 2⟩ (by decide) (by decide)
      [1, 3, 2, 5] 0 7 (by decide) (by decide) (by decide) (by decide)⟩

/-- C1, at page size 2. `New(2)` returns a configuration of page size 2; pushing 2, 1, 0, 3,
4 into the empty container of integers gives a heap, and the `Pop` that follows leaves
`[1, 2, 4, 3]`, where the element 3 at position 4 is less than the element 4 at position
`parent 4 = 3`: the heap invariant is broken. -/
theorem heapInv_broken_at_page_size_two :
    New 2 = some ⟨2, 1, 1⟩ ∧
      (⟨2, 1, 1⟩ : BHeap).pushAll ltInt [] [2, 1, 0, 3, 4] = Res.ok [0, 2, 1, 3, 4] ∧
      HeapInv ltInt ⟨2, 1, 1⟩ [0, 2, 1, 3, 4] ∧
      (⟨2, 1, 1⟩ : BHeap).Pop ltInt [0, 2, 1, 3, 4] = Res.ok ([1, 2, 4, 3], 0) ∧
      (⟨2, 1, 1⟩ : BHeap).parent 4 = 3 ∧
      ¬ HeapInv ltInt ⟨2, 1, 1⟩ [1, 2, 4, 3] := by
  decide

/-- C9, at page size 2. `New(2)` returns a configuration of page size 2, where the child
computation at position 2 does not overflow and gives `(4, 4)`, while the parent of
position 4 is 3, not 2. -/
theorem child_not_inverse_at_page_size_two :
    New 2 = some ⟨2, 1, 1⟩ ∧ (⟨2, 1, 1⟩ : BHeap).NoOverflow 2 ∧
      (⟨2, 1, 1⟩ : BHeap).child 2 = (4, 4) ∧ (⟨2, 1, 1⟩ : BHeap).parent 4 = 3 := by
  decide

/-- C10, at page size `2 ^ 33` and position `2 ^ 33 + 2 ^ 32`. The position is in the bottom
half of its page and is not one of the first two slots; the destination page index
`2 ^ 32 + 1` shifted left by `pageShift` is `2 ^ 65 + 2 ^ 33`, which does not fit in 64
bits; `child` returns the wrapped values `(2 ^ 33, 2 ^ 33 + 1)` and not
`(2 ^ 64 - 1, 2 ^ 64 - 1)`. -/
theorem child_wraps_on_overflow :
    New (2 ^ 33) = some (BHeap.ofShift 33) ∧
      (2 ^ 33 + 2 ^ 32) &&& ((BHeap.ofShift 33).pageSize / 2) ≠ 0 ∧
      ¬ ((2 ^ 33 + 2 ^ 32) > (BHeap.ofShift 33).pageMask ∧
        ((2 ^ 33 + 2 ^ 32) &&& sub64 (BHeap.ofShift 33).pageMask 1) = 0) ∧
      ((BHeap.ofShift 33).childWide (2 ^ 33 + 2 ^ 32)).1 = 2 ^ 65 + 2 ^ 33 ∧
      ¬ (BHeap.ofShift 33).NoOverflow (2 ^ 33 + 2 ^ 32) ∧
      (BHeap.ofShift 33).child (2 ^ 33 + 2 ^ 32) = (2 ^ 33, 2 ^ 33 + 1) ∧
      (BHeap.ofShift 33).child (2 ^ 33 + 2 ^ 32) ≠ (maxUint64, maxUint64) := by
  decide

end BHeapModel

namespace BHeapModel

/-! ## A container on which `down` never returns

At page size `2 ^ 33` the child computation at position `2 ^ 33 + 2 ^ 32` overflows: the
destination page index `2 ^ 32 + 1` shifted left by 33 is `2 ^ 65 + 2 ^ 33`, and `child`
returns the wrapped positions `(2 ^ 33, 2 ^ 33 + 1)`. On a container of `2 ^ 33 + 2 ^ 32`
equal elements `down` follows the first children from the root, reaches that position and
is sent back to position `2 ^ 33`, for ever. -/

theorem set_eq_self (g : List Int) (i : Nat) (a : Int) (h : g[i]? = some a) :
    g.set i a = g := by
  apply List.ext_getElem?
  intro j
  rw [List.getElem?_set]
  by_cases hij : i = j
  · subst hij
    rw [if_pos rfl, h]
    have := (List.getElem?_eq_some_iff.mp h).1
    rw [if_pos this]
  · rw [if_neg hij]

theorem path_step :
    ∀ j, j < 66 →
      ((BHeap.ofShift 33).child (cyclePath j)).1 = cyclePath (cycleNext j) ∧
      (((BHeap.ofShift 33).child (cyclePath j)).2 = ((BHeap.ofShift 33).child (cyclePath j)).1 ∨
        ((BHeap.ofShift 33).child (cyclePath j)).2
          = ((BHeap.ofShift 33).child (cyclePath j)).1 + 1) ∧
      1 ≤ cyclePath j ∧ cyclePath j ≤ 2 ^ 33 + 2 ^ 32 ∧ cycleNext j < 66 := by
  decide

/-- On a container of `2 ^ 33 + 2 ^ 32` zeros, the loop of `down` started on the cycle uses
up any amount of fuel. -/
theorem downLoop_never_returns (g : List Int) (hlen : g.length = 2 ^ 33 + 2 ^ 32)
    (hall : ∀ w, 1 ≤ w → w ≤ 2 ^ 33 + 2 ^ 32 → pget g w = some 0) :
    ∀ fuel j, j < 66 →
      (BHeap.ofShift 33).downLoop ltInt fuel g (cyclePath j) = Res.timeout := by
  intro fuel
  induction fuel with
  | zero => intro j _; rfl
  | succ fuel ih =>
    intro j hj
    obtain ⟨hl, hr, hu1, hu, hnext⟩ := path_step j hj
    obtain ⟨_, _, hl1, hlN, _⟩ := path_step (cycleNext j) hnext
    have hlen63 : g.length < 2 ^ 63 := by omega
    rw [← hl] at hl1 hlN
    generalize hch : (BHeap.ofShift 33).child (cyclePath j) = ch at hl hr hl1 hlN
    obtain ⟨l, r⟩ := ch
    simp only at hl hr hl1 hlN
    have hcand : BHeap.candidate ltInt g l r = Res.ok l := by
      unfold BHeap.candidate
      rw [len_succ64 g hlen63]
      by_cases hc : l ≠ r ∧ r < g.length + 1
      · rw [if_pos hc]
        simp only [Less_some ltInt g r l 0 0 hlen63 (hall r (by omega) (by omega))
          (hall l hl1 hlN)]
        rfl
      · rw [if_neg hc]
    have hswap : myHeap.Swap g (slot (cyclePath j)) (slot l) = Res.ok g := by
      rw [Swap_some g _ l 0 0 hlen63 (hall _ hu1 hu) (hall l hl1 hlN)]
      have e1 : g.set (cyclePath j - 1) 0 = g :=
        set_eq_self g _ 0 (by rw [← pget_eq_getElem? g _ hu1]; exact hall _ hu1 hu)
      rw [e1, set_eq_self g _ 0 (by rw [← pget_eq_getElem? g _ hl1]; exact hall l hl1 hlN)]
    unfold BHeap.downLoop
    simp only [hch, len_succ64 g hlen63]
    rw [if_neg (by omega)]
    simp only [hcand, Less_some ltInt g _ l 0 0 hlen63 (hall _ hu1 hu) (hall l hl1 hlN),
      hswap]
    have : ltInt 0 0 = false := rfl
    simp only [this]
    rw [hl]
    exact ih (cycleNext j) hnext

theorem pget_replicate (n w : Nat) (a : Int) (hw1 : 1 ≤ w) (hw : w ≤ n) :
    pget (List.replicate n a) w = some a := by
  rw [pget_eq_getElem? _ _ hw1, List.getElem?_replicate, if_pos (by omega)]

/-- A container of equal integers satisfies the heap invariant. -/
theorem heapInv_replicate (bh : BHeap) (hwf : bh.WF) (n : Nat) (hn : n < 2 ^ 63) (a : Int) :
    HeapInv ltInt bh (List.replicate n a) := by
  rw [heapInv_iff ltInt bh hwf _ (by simpa using hn)]
  intro v _ _ x y hx hy
  have hxa : x = a := List.eq_of_mem_replicate (pget_mem _ _ _ hx)
  have hya : y = a := List.eq_of_mem_replicate (pget_mem _ _ _ hy)
  rw [hxa, hya]
  exact lt_irrefl_of ltInt ltInt_stp a

theorem wf_ofShift_33 : (BHeap.ofShift 33).WF := ⟨33, by decide, by decide, rfl⟩

theorem cyclePath_zero : cyclePath 0 = rootIndex := by decide

/-- Exchanging a slot of a container of `2 ^ 33 + 2 ^ 32 + 1` zeros with the last slot and
popping the container leaves a container on which `down` from the root never returns. -/
theorem swap_pop_never_returns (h : List Int) (u : Nat) (hu1 : 1 ≤ u)
    (hu : u ≤ 2 ^ 33 + 2 ^ 32 + 1) (hlen : h.length = 2 ^ 33 + 2 ^ 32 + 1)
    (hall : ∀ w, 1 ≤ w → w ≤ 2 ^ 33 + 2 ^ 32 + 1 → pget h w = some 0) :
    ∃ h1 h2 v, myHeap.Swap h (slot u) (slot h.length) = Res.ok h1 ∧
      myHeap.Pop h1 = Res.ok (h2, v) ∧
      (∀ fuel, (BHeap.ofShift 33).downLoop ltInt fuel h2 rootIndex = Res.timeout) ∧
      (BHeap.ofShift 33).down ltInt h2 rootIndex = Res.timeout := by
  obtain ⟨a, b, h1, h2, _, hb, hsw, hpop, _, hl2, hg⟩ :=
    swap_pop h u (by omega) hu1 (by omega)
  have hb0 : b = 0 := by
    rw [hall _ (by omega) (by omega)] at hb
    exact (Option.some.inj hb).symm
  subst hb0
  have hall2 : ∀ w, 1 ≤ w → w ≤ 2 ^ 33 + 2 ^ 32 → pget h2 w = some 0 := by
    intro w hw1 hw
    rw [hg, if_pos (by omega)]
    split
    · rfl
    · exact hall w hw1 (by omega)
  have hnever := fun fuel =>
    downLoop_never_returns h2 (by omega) hall2 fuel 0 (by decide)
  rw [cyclePath_zero] at hnever
  refine ⟨h1, h2, a, hsw, hpop, hnever, ?_⟩
  unfold BHeap.down
  exact hnever _

theorem pop_of_zeros (h : List Int) (hlen : h.length = 2 ^ 33 + 2 ^ 32 + 1)
    (hall : ∀ w, 1 ≤ w → w ≤ 2 ^ 33 + 2 ^ 32 + 1 → pget h w = some 0) :
    (∃ h1 h2 v,
      myHeap.Swap h 0 (wrapInt (myHeap.Len h - 1)) = Res.ok h1 ∧
      myHeap.Pop h1 = Res.ok (h2, v) ∧
      ∀ fuel, (BHeap.ofShift 33).downLoop ltInt fuel h2 rootIndex = Res.timeout) ∧
    (BHeap.ofShift 33).Pop ltInt h = Res.timeout := by
  obtain ⟨h1, h2, v, hsw, hpop, hnever, hdown⟩ :=
    swap_pop_never_returns h 1 (le_refl _) (by omega) hlen hall
  rw [slot_one, ← Len_pred_eq_slot h] at hsw
  refine ⟨⟨h1, h2, v, hsw, hpop, hnever⟩, ?_⟩
  rw [BHeap.Pop, hsw]
  simp only [hpop, hdown]

theorem remove_of_zeros (h : List Int) (hlen : h.length = 2 ^ 33 + 2 ^ 32 + 1)
    (hall : ∀ w, 1 ≤ w → w ≤ 2 ^ 33 + 2 ^ 32 + 1 → pget h w = some 0) :
    (∃ h1 h2 v,
      myHeap.Swap h (toInt 0) (toInt (sub64 (h.length % 2 ^ 64) 1)) = Res.ok h1 ∧
      myHeap.Pop h1 = Res.ok (h2, v) ∧
      ∀ fuel, (BHeap.ofShift 33).downLoop ltInt fuel h2 (add64 0 rootIndex) = Res.timeout) ∧
    (BHeap.ofShift 33).Remove ltInt h 0 = Res.timeout := by
  obtain ⟨h1, h2, v, hsw, hpop, hnever, hdown⟩ :=
    swap_pop_never_returns h 1 (le_refl _) (by omega) hlen hall
  have hn : sub64 (h.length % 2 ^ 64) 1 = h.length - 1 := by
    unfold sub64
    omega
  have hs2 : toInt (h.length - 1) = slot h.length := by
    rw [toInt_eq_slot]
    congr 1
    omega
  have h01 : add64 0 rootIndex = rootIndex := by decide
  rw [← toInt_eq_slot 0, ← hs2] at hsw
  refine ⟨⟨h1, h2, v, by rw [hn]; exact hsw, hpop, by rw [h01]; exact hnever⟩, ?_⟩
  rw [BHeap.Remove]
  simp only [hn, h01]
  rw [if_pos (by omega), hsw]
  simp only [hpop, hdown]

theorem fix_of_zeros (g : List Int) (hlen : g.length = 2 ^ 33 + 2 ^ 32)
    (hall : ∀ w, 1 ≤ w → w ≤ 2 ^ 33 + 2 ^ 32 → pget g w = some 0) :
    (BHeap.ofShift 33).up ltInt g (add64 0 rootIndex) = Res.ok (g, rootIndex) ∧
    (∀ fuel, (BHeap.ofShift 33).downLoop ltInt fuel g rootIndex = Res.timeout) ∧
    (BHeap.ofShift 33).Fix ltInt g 0 = Res.timeout := by
  have hnever := fun fuel => downLoop_never_returns g hlen hall fuel 0 (by decide)
  rw [cyclePath_zero] at hnever
  have h01 : add64 0 rootIndex = rootIndex := by decide
  have hup : (BHeap.ofShift 33).up ltInt g rootIndex = Res.ok (g, rootIndex) := by
    rw [BHeap.up, BHeap.upLoop, if_neg (by decide)]
  have hdown : (BHeap.ofShift 33).down ltInt g rootIndex = Res.timeout := by
    rw [BHeap.down]
    exact hnever _
  refine ⟨by rw [h01]; exact hup, hnever, ?_⟩
  rw [BHeap.Fix]
  simp only [h01, hup, hdown]

theorem pget_zeros (n w : Nat) (hw1 : 1 ≤ w) (hw : w ≤ n) :
    pget (List.replicate n (0 : Int)) w = some 0 :=
  pget_replicate n w 0 hw1 hw

theorem pget_zeros_set (n w : Nat) (hn : 0 < n) (hw1 : 1 ≤ w) (hw : w ≤ n) :
    pget ((List.replicate n (0 : Int)).set 0 0) w = some 0 := by
  rw [pget_set _ 0 0 (by simpa using hn)]
  split
  · rfl
  · exact pget_replicate _ w 0 hw1 hw

/-- C3, on a container too long for the child computation. `New(1 << 33)` returns the
configuration of page size `2 ^ 33`. The container of `2 ^ 33 + 2 ^ 32 + 1` zeros is
non-empty and satisfies the heap invariant. In `Pop` the exchange of slot 0 with the last
slot and the container's `Pop` succeed, and the `down` that follows never returns, whatever
the fuel: `Pop` returns nothing. -/
theorem pop_never_returns_on_overflow :
    New (2 ^ 33) = some (BHeap.ofShift 33) ∧
      HeapInv ltInt (BHeap.ofShift 33) (List.replicate (2 ^ 33 + 2 ^ 32 + 1) 0) ∧
      (∃ h1 h2 v,
        myHeap.Swap (List.replicate (2 ^ 33 + 2 ^ 32 + 1) (0 : Int)) 0
          (wrapInt (myHeap.Len (List.replicate (2 ^ 33 + 2 ^ 32 + 1) (0 : Int)) - 1))
            = Res.ok h1 ∧
        myHeap.Pop h1 = Res.ok (h2, v) ∧
        ∀ fuel, (BHeap.ofShift 33).downLoop ltInt fuel h2 rootIndex = Res.timeout) ∧
      (BHeap.ofShift 33).Pop ltInt (List.replicate (2 ^ 33 + 2 ^ 32 + 1) 0) = Res.timeout :=
  ⟨by decide, heapInv_replicate _ wf_ofShift_33 _ (by norm_num) 0,
    pop_of_zeros _ (List.length_replicate _ _) (pget_zeros _)⟩

/-- C8, on a container too long for the child computation. `New(1 << 33)` returns the
configuration of page size `2 ^ 33`. On the container of `2 ^ 33 + 2 ^ 32 + 1` zeros,
`Remove` at index 0 exchanges slot 0 with the last slot and pops the container, and the
`down` that follows never returns, whatever the fuel: `Remove` returns nothing. -/
theorem remove_never_returns_on_overflow :
    New (2 ^ 33) = some (BHeap.ofShift 33) ∧
      (∃ h1 h2 v,
        myHeap.Swap (List.replicate (2 ^ 33 + 2 ^ 32 + 1) (0 : Int)) (toInt 0)
          (toInt (sub64 ((List.replicate (2 ^ 33 + 2 ^ 32 + 1) (0 : Int)).length % 2 ^ 64) 1))
            = Res.ok h1 ∧
        myHeap.Pop h1 = Res.ok (h2, v) ∧
        ∀ fuel, (BHeap.ofShift 33).downLoop ltInt fuel h2 (add64 0 rootIndex) = Res.timeout) ∧
      (BHeap.ofShift 33).Remove ltInt (List.replicate (2 ^ 33 + 2 ^ 32 + 1) 0) 0
        = Res.timeout :=
  ⟨by decide, remove_of_zeros _ (List.length_replicate _ _) (pget_zeros _)⟩

/-! ### A larger element at the root

With one element 1 among zeros, `down` carries the 1 along the same positions: at every
round both children hold 0, the element 1 is not less than 0, and the two are exchanged. -/

theorem path_fresh :
    ∀ j, j < 66 →
      cyclePath (cycleNext j) ≠ cyclePath j ∧ cyclePath (cycleNext j) + 1 ≠ cyclePath j := by
  decide

/-- On a container of `2 ^ 33 + 2 ^ 32` integers that holds 1 at the position
`cyclePath j` and 0 elsewhere, the loop of `down` started at that position uses up any
amount of fuel. -/
theorem downLoop_never_returns_carrying :
    ∀ fuel (g : List Int) j, j < 66 → g.length = 2 ^ 33 + 2 ^ 32 →
      (∀ w, 1 ≤ w → w ≤ 2 ^ 33 + 2 ^ 32 →
        pget g w = some (if w = cyclePath j then 1 else 0)) →
      (BHeap.ofShift 33).downLoop ltInt fuel g (cyclePath j) = Res.timeout := by
  intro fuel
  induction fuel with
  | zero => intro g j _ _ _; rfl
  | succ fuel ih =>
    intro g j hj hlen hall
    obtain ⟨hl, hr, hu1, hu, hnext⟩ := path_step j hj
    obtain ⟨_, _, hl1, hlN, _⟩ := path_step (cycleNext j) hnext
    obtain ⟨hne1, hne2⟩ := path_fresh j hj
    have hlen63 : g.length < 2 ^ 63 := by omega
    rw [← hl] at hl1 hlN hne1 hne2
    generalize hch : (BHeap.ofShift 33).child (cyclePath j) = ch at hl hr hl1 hlN hne1 hne2
    obtain ⟨l, r⟩ := ch
    simp only at hl hr hl1 hlN hne1 hne2
    have hgu : pget g (cyclePath j) = some 1 := by
      rw [hall _ hu1 hu, if_pos rfl]
    have hgl : pget g l = some 0 := by
      rw [hall l hl1 hlN, if_neg hne1]
    have hcand : BHeap.candidate ltInt g l r = Res.ok l := by
      unfold BHeap.candidate
      rw [len_succ64 g hlen63]
      by_cases hc : l ≠ r ∧ r < g.length + 1
      · rw [if_pos hc]
        have hrl : r = l + 1 := by
          rcases hr with hr | hr
          · exact absurd hr.symm hc.1
          · exact hr
        have hgr : pget g r = some 0 := by
          rw [hall r (by omega) (by omega), if_neg (by rw [hrl]; exact hne2)]
        simp only [Less_some ltInt g r l 0 0 hlen63 hgr hgl]
        rfl
      · rw [if_neg hc]
    have hg := fun w => pget_swap g (cyclePath j) l w 1 0 hgu hgl
    have hperm := swap_perm g (cyclePath j) l 1 0 hgu hgl
    unfold BHeap.downLoop
    simp only [hch, len_succ64 g hlen63]
    rw [if_neg (by omega)]
    simp only [hcand, Less_some ltInt g _ l 1 0 hlen63 hgu hgl,
      Swap_some g _ l 1 0 hlen63 hgu hgl]
    have : ltInt 1 0 = false := rfl
    simp only [this]
    generalize (g.set (cyclePath j - 1) 0).set (l - 1) 1 = g2 at hg hperm ⊢
    rw [hl]
    apply ih g2 (cycleNext j) hnext (by rw [hperm.length_eq]; exact hlen)
    intro w hw1 hw
    rw [hg w, ← hl]
    by_cases hwl : w = l
    · rw [if_pos hwl, if_pos hwl]
    · rw [if_neg hwl, if_neg hwl]
      by_cases hwu : w = cyclePath j
      · rw [if_pos hwu]
      · rw [if_neg hwu, hall w hw1 hw, if_neg hwu]

theorem pget_zeros_set_one (n w : Nat) (hn : 0 < n) (hw1 : 1 ≤ w) (hw : w ≤ n) :
    pget ((List.replicate n (0 : Int)).set 0 1) w = some (if w = 1 then 1 else 0) := by
  rw [pget_set _ 0 1 (by simpa using hn)]
  by_cases h1 : w = 1
  · rw [if_pos (by omega), if_pos h1]
  · rw [if_neg (by omega), if_neg h1]
    exact pget_replicate _ w 0 hw1 hw

/-- On a container of `2 ^ 33 + 2 ^ 32` integers that holds 1 in slot 0 and 0 elsewhere,
at page size `2 ^ 33`, `Fix` at index 0 runs `up`, which returns position 1 at once, and
then `down`, which never returns. -/
theorem fix_of_one_over_zeros (g : List Int) (hlen : g.length = 2 ^ 33 + 2 ^ 32)
    (hall : ∀ w, 1 ≤ w → w ≤ 2 ^ 33 + 2 ^ 32 → pget g w = some (if w = 1 then 1 else 0)) :
    (BHeap.ofShift 33).up ltInt g (add64 0 rootIndex) = Res.ok (g, rootIndex) ∧
    (∀ fuel, (BHeap.ofShift 33).downLoop ltInt fuel g rootIndex = Res.timeout) ∧
    (BHeap.ofShift 33).Fix ltInt g 0 = Res.timeout := by
  have hnever := fun fuel =>
    downLoop_never_returns_carrying fuel g 0 (by decide) hlen
      (by rw [cyclePath_zero]; exact hall)
  rw [cyclePath_zero] at hnever
  have h01 : add64 0 rootIndex = rootIndex := by decide
  have hup : (BHeap.ofShift 33).up ltInt g rootIndex = Res.ok (g, rootIndex) := by
    rw [BHeap.up, BHeap.upLoop, if_neg (by decide)]
  have hdown : (BHeap.ofShift 33).down ltInt g rootIndex = Res.timeout := by
    rw [BHeap.down]
    exact hnever _
  refine ⟨by rw [h01]; exact hup, hnever, ?_⟩
  rw [BHeap.Fix]
  simp only [h01, hup, hdown]

/-- C7, on a container too long for the child computation. `New(1 << 33)` returns the
configuration of page size `2 ^ 33 ≥ 4`. The container of `2 ^ 33 + 2 ^ 32` zeros
satisfies the heap invariant and index 0 is inside it. After slot 0 is overwritten with
the larger value 1, `Fix` at index 0 runs `up`, which returns position 1 at once, and then
`down`, which never returns, whatever the fuel: `Fix` returns nothing, so it restores no
invariant. The same happens when slot 0 is overwritten with the value 0 it already
holds. -/
theorem fix_never_returns_on_overflow :
    New (2 ^ 33) = some (BHeap.ofShift 33) ∧ 4 ≤ (BHeap.ofShift 33).pageSize ∧
      HeapInv ltInt (BHeap.ofShift 33) (List.replicate (2 ^ 33 + 2 ^ 32) 0) ∧
      0 < (List.replicate (2 ^ 33 + 2 ^ 32) (0 : Int)).length ∧
      ((BHeap.ofShift 33).up ltInt ((List.replicate (2 ^ 33 + 2 ^ 32) (0 : Int)).set 0 1)
          (add64 0 rootIndex)
        = Res.ok ((List.replicate (2 ^ 33 + 2 ^ 32) (0 : Int)).set 0 1, rootIndex) ∧
      (∀ fuel, (BHeap.ofShift 33).downLoop ltInt fuel
          ((List.replicate (2 ^ 33 + 2 ^ 32) (0 : Int)).set 0 1) rootIndex = Res.timeout) ∧
      (BHeap.ofShift 33).Fix ltInt ((List.replicate (2 ^ 33 + 2 ^ 32) (0 : Int)).set 0 1) 0
        = Res.timeout) ∧
      ((BHeap.ofShift 33).up ltInt ((List.replicate (2 ^ 33 + 2 ^ 32) (0 : Int)).set 0 0)
          (add64 0 rootIndex)
        = Res.ok ((List.replicate (2 ^ 33 + 2 ^ 32) (0 : Int)).set 0 0, rootIndex) ∧
      (∀ fuel, (BHeap.ofShift 33).downLoop ltInt fuel
          ((List.replicate (2 ^ 33 + 2 ^ 32) (0 : Int)).set 0 0) rootIndex = Res.timeout) ∧
      (BHeap.ofShift 33).Fix ltInt ((List.replicate (2 ^ 33 + 2 ^ 32) (0 : Int)).set 0 0) 0
        = Res.timeout) :=
  ⟨by decide, by decide, heapInv_replicate _ wf_ofShift_33 _ (by norm_num) 0,
    by rw [List.length_replicate]; norm_num,
    fix_of_one_over_zeros _ ((List.length_set _ _ _).trans (List.length_replicate _ _))
      (pget_zeros_set_one _ · (by norm_num)),
    fix_of_zeros _ ((List.length_set _ _ _).trans (List.length_replicate _ _))
      (pget_zeros_set _ · (by norm_num))⟩

end BHeapModel

namespace BHeapModel

/-! ## The operations on arbitrary containers -/

section Safety

variable {α : Type}

/-- The method `Push` returns on every container, for every comparison and at every page
size: the returned position holds the pushed value. -/
theorem Push_total (lt : α → α → Bool) (bh : BHeap) (hwf : bh.WF) (h : List α) (v : α)
    (hlen : h.length + 1 < 2 ^ 63) :
    ∃ h1 u, bh.Push lt h v = Res.ok (h1, u) ∧ h1.Perm (h ++ [v]) ∧ 1 ≤ u ∧
      u ≤ h.length + 1 ∧ pget h1 u = some v := by
  have hl1 : (h ++ [v]).length = h.length + 1 := by simp
  have hpos : add64 (sub64 ((h ++ [v]).length % 2 ^ 64) 1) rootIndex = h.length + 1 := by
    rw [hl1]
    unfold add64 sub64 rootIndex
    omega
  unfold BHeap.Push myHeap.Push BHeap.up
  simp only [hpos]
  obtain ⟨h1, u1, hrun, hperm, hle, hpos1, hval⟩ :=
    upLoop_total lt bh hwf (h.length + 1 + 1) (h ++ [v]) (h.length + 1)
      (by omega) (by omega) (by omega)
  refine ⟨h1, u1, hrun, hperm, hpos1 (by omega), hle, ?_⟩
  rw [hval, pget_append, if_pos rfl]

/-- The method `Fix` returns on every container whose child positions do not overflow, for
every comparison and at every page size, and permutes the container. -/
theorem Fix_total (lt : α → α → Bool) (bh : BHeap) (hwf : bh.WF) (h : List α) (i : Nat)
    (hi : i < h.length) (hlen : h.length < 2 ^ 63) (hfits : bh.Fits h.length) :
    ∃ h2, bh.Fix lt h i = Res.ok h2 ∧ h2.Perm h := by
  obtain ⟨h1, u1, hrun1, hperm1, hle, hpos, _⟩ :=
    upLoop_total lt bh hwf (i + 1 + 1) h (i + 1) hlen (by omega) (by omega)
  have hl1 : h1.length = h.length := hperm1.length_eq
  obtain ⟨h2, u2, hrun2, hperm2⟩ :=
    downLoop_total lt bh hwf (h1.length + 2) h1 u1 (by omega)
      (by rw [hl1]; exact hfits) (hpos (by omega)) (by omega) (by omega)
  have hi1 : add64 i rootIndex = i + 1 := by
    unfold add64 rootIndex
    omega
  have hu : bh.up lt h (i + 1) = Res.ok (h1, u1) := by
    unfold BHeap.up
    exact hrun1
  have hd : bh.down lt h1 u1 = Res.ok (h2, u2) := by
    unfold BHeap.down
    exact hrun2
  refine ⟨h2, ?_, hperm2.trans hperm1⟩
  unfold BHeap.Fix
  simp only [hi1, hu, hd]

theorem at?_none_iff (h : List α) (i : Int) :
    myHeap.at? h i = none ↔ ¬ (0 ≤ i ∧ i < h.length) := by
  unfold myHeap.at?
  constructor
  · intro hn hr
    rw [if_pos hr.1] at hn
    have := List.getElem?_eq_none_iff.mp hn
    omega
  · intro hr
    split
    · exact List.getElem?_eq_none (by omega)
    · rfl

/-- The container's `Less` panics exactly when one of its two indices is outside
`[0, Len)`. -/
theorem Less_panic_iff (lt : α → α → Bool) (h : List α) (i j : Int) :
    myHeap.Less lt h i j = Res.panic ↔
      ¬ ((0 ≤ i ∧ i < h.length) ∧ (0 ≤ j ∧ j < h.length)) := by
  rw [not_and_or, ← at?_none_iff, ← at?_none_iff]
  unfold myHeap.Less
  cases myHeap.at? h i <;> cases myHeap.at? h j <;> simp

/-- The container's `Swap` panics exactly when one of its two indices is outside
`[0, Len)`. -/
theorem Swap_panic_iff (h : List α) (i j : Int) :
    myHeap.Swap h i j = Res.panic ↔
      ¬ ((0 ≤ i ∧ i < h.length) ∧ (0 ≤ j ∧ j < h.length)) := by
  rw [not_and_or, ← at?_none_iff, ← at?_none_iff]
  unfold myHeap.Swap
  cases myHeap.at? h i <;> cases myHeap.at? h j <;> simp

theorem Less_ne_timeout (lt : α → α → Bool) (h : List α) (i j : Int) :
    myHeap.Less lt h i j ≠ Res.timeout := by
  unfold myHeap.Less
  cases myHeap.at? h i <;> cases myHeap.at? h j <;> simp

theorem Swap_ne_timeout (h : List α) (i j : Int) : myHeap.Swap h i j ≠ Res.timeout := by
  unfold myHeap.Swap
  cases myHeap.at? h i <;> cases myHeap.at? h j <;> simp

/-- The loop of `up` ends from every start position, inside the container or not: with more
fuel than the start position it never runs out of fuel. -/
theorem upLoop_ends (lt : α → α → Bool) (bh : BHeap) (hwf : bh.WF) :
    ∀ (fuel : Nat) (h : List α) (u : Nat), u < 2 ^ 64 → u < fuel →
      bh.upLoop lt fuel h u ≠ Res.timeout := by
  intro fuel
  induction fuel with
  | zero => intro h u _ hf; omega
  | succ fuel ih =>
    intro h u hu hf
    unfold BHeap.upLoop
    by_cases h1 : u > rootIndex
    · rw [if_pos h1]
      have hu2 : 2 ≤ u := h1
      obtain ⟨hp1, hpu⟩ := parent_bounds bh hwf u hu2 hu
      have hL := Less_ne_timeout lt h (slot u) (slot (bh.parent u))
      have hS := Swap_ne_timeout h (slot u) (slot (bh.parent u))
      cases hl : myHeap.Less lt h (slot u) (slot (bh.parent u)) with
      | ok b =>
        cases b with
        | false => simp only [hl]; simp
        | true =>
          cases hs : myHeap.Swap h (slot u) (slot (bh.parent u)) with
          | ok h1 =>
            simp only [hl, hs]
            exact ih h1 (bh.parent u) (by omega) (by omega)
          | panic => simp only [hl, hs]; simp
          | timeout => exact absurd hs hS
      | panic => simp only [hl]; simp
      | timeout => exact absurd hl hL
    · rw [if_neg h1]
      simp

end Safety

/-! ## Claims C11, C15, C16 and C18 -/

section ClaimsC

variable {α : Type}

/-- C11. For every `BHeap` returned by `New`, every comparison and every container whose
child positions fit in 64 bits, `Push`, `Pop` on a non-empty container, and `Remove` and
`Fix` at an index `i < Len` all return: none of them ends in the panic that `Less` and `Swap`
raise exactly when they are passed an index outside `[0, Len)`, so every index they pass
is in range. -/
theorem operations_stay_in_range (lt : α → α → Bool) (n : Int) (bh : BHeap)
    (hnew : New n = some bh) (h : List α) (hlen : h.length + 1 < 2 ^ 63)
    (hfits : bh.Fits h.length) :
    (∀ v, ∃ r, bh.Push lt h v = Res.ok r) ∧
      (1 ≤ h.length → ∃ r, bh.Pop lt h = Res.ok r) ∧
      (∀ i, i < h.length → ∃ r, bh.Remove lt h i = Res.ok r) ∧
      (∀ i, i < h.length → ∃ r, bh.Fix lt h i = Res.ok r) := by
  have hwf := New_wf n bh hnew
  refine ⟨?_, ?_, ?_, ?_⟩
  · intro v
    obtain ⟨h1, u, hrun, _⟩ := Push_total lt bh hwf h v hlen
    exact ⟨_, hrun⟩
  · intro hne
    obtain ⟨h3, a, hrun, _⟩ := Pop_total lt bh hwf h hne (by omega) hfits
    exact ⟨_, hrun⟩
  · intro i hi
    obtain ⟨h4, a, hrun, _⟩ := Remove_total lt bh hwf h i hi (by omega) hfits
    exact ⟨_, hrun⟩
  · intro i hi
    obtain ⟨h2, hrun, _⟩ := Fix_total lt bh hwf h i hi (by omega) hfits
    exact ⟨_, hrun⟩

theorem operations_stay_in_range_witness :
    New 4 = some ⟨4, 3, 2⟩ ∧ (⟨4, 3, 2⟩ : BHeap).Fits ([3, 1, 2] : List Int).length ∧
      ((∀ v, ∃ r, (⟨4, 3, 2⟩ : BHeap).Push ltInt [3, 1, 2] v = Res.ok r) ∧
      (1 ≤ ([3, 1, 2] : List Int).length →
        ∃ r, (⟨4, 3, 2⟩ : BHeap).Pop ltInt [3, 1, 2] = Res.ok r) ∧
      (∀ i, i < ([3, 1, 2] : List Int).length →
        ∃ r, (⟨4, 3, 2⟩ : BHeap).Remove ltInt [3, 1, 2] i = Res.ok r) ∧
      (∀ i, i < ([3, 1, 2] : List Int).length →
        ∃ r, (⟨4, 3, 2⟩ : BHeap).Fix ltInt [3, 1, 2] i = Res.ok r)) :=
  ⟨by decide, by decide,
    operations_stay_in_range ltInt 4 ⟨4, 3, 2⟩ (by decide) [3, 1, 2] (by decide) (by decide)⟩

/-- C15. For every `BHeap` returned by `New`, every comparison, every container and every
value `v`, `Push(h, v)` returns a position `u` with `1 ≤ u ≤ Len`, where `Len` is the
length after the call, one more than before, and slot `u - 1` of the container holds `v`
after the call. -/
theorem push_returns_resting_position (lt : α → α → Bool) (n : Int) (bh : BHeap)
    (hnew : New n = some bh) (h : List α) (v : α) (hlen : h.length + 1 < 2 ^ 63) :
    ∃ h1 u, bh.Push lt h v = Res.ok (h1, u) ∧ h1.length = h.length + 1 ∧
      1 ≤ u ∧ u ≤ h1.length ∧ h1[u - 1]? = some v := by
  obtain ⟨h1, u, hrun, hperm, hu1, hu, hval⟩ :=
    Push_total lt bh (New_wf n bh hnew) h v hlen
  have hl : h1.length = h.length + 1 := by
    rw [hperm.length_eq]
    simp
  refine ⟨h1, u, hrun, hl, hu1, by omega, ?_⟩
  rw [← pget_eq_getElem? h1 u hu1]
  exact hval

theorem push_returns_resting_position_witness :
    New 4 = some ⟨4, 3, 2⟩ ∧
      ∃ h1 u, (⟨4, 3, 2⟩ : BHeap).Push ltInt [1, 3, 2] 0 = Res.ok (h1, u) ∧
        h1.length = ([1, 3, 2] : List Int).length + 1 ∧
        1 ≤ u ∧ u ≤ h1.length ∧ h1[u - 1]? = some 0 :=
  ⟨by decide,
    push_returns_resting_position ltInt 4 ⟨4, 3, 2⟩ (by decide) [1, 3, 2] 0 (by decide)⟩

/-- C16. For every `BHeap` that `New` can return with a page size of at least 4, every
position `p ≥ 1` whose child computation does not overflow 64 bits and every position
`u ≥ 2`: `parent(u) = p` if and only if `u` is the left or the right position returned by
`child(p)`. -/
theorem parent_iff_child (bh : BHeap) (hwf : bh.WF) (h4 : 4 ≤ bh.pageSize) (p u : Nat)
    (_hp1 : 1 ≤ p) (hp : p < 2 ^ 64) (hfit : bh.NoOverflow p) (hu2 : 2 ≤ u)
    (hu : u < 2 ^ 64) :
    bh.parent u = p ↔ (u = (bh.child p).1 ∨ u = (bh.child p).2) := by
  constructor
  · intro hpar
    have := parent_child bh hwf h4 u hu2 hu
    rw [hpar] at this
    exact this
  · intro hc
    obtain ⟨hl, hr⟩ := child_parent bh hwf h4 p hp hfit
    rcases hc with hc | hc
    · rw [hc]
      exact hl
    · rw [hc]
      exact hr

theorem parent_iff_child_witness :
    New 4 = some ⟨4, 3, 2⟩ ∧ (⟨4, 3, 2⟩ : BHeap).NoOverflow 3 ∧
      ((⟨4, 3, 2⟩ : BHeap).parent 5 = 3 ↔
        (5 = ((⟨4, 3, 2⟩ : BHeap).child 3).1 ∨ 5 = ((⟨4, 3, 2⟩ : BHeap).child 3).2)) :=
  ⟨by decide, by decide,
    parent_iff_child ⟨4, 3, 2⟩ ⟨2, by decide, by decide, rfl⟩ (by decide) 3 5 (by decide)
      (by decide) (by decide) (by decide) (by decide)⟩

/-- C18. For every `BHeap` returned by `New`, at any page size, and every position
`u ≥ 2`, `1 ≤ parent(u) < u`. Consequently `up(h, u)` ends for every container and every
start position, and from a position `u ≥ 1` of the container it returns a position in
`1..u` without a panic, so it never addresses position 0, the storage slot `-1`. -/
theorem up_terminates (lt : α → α → Bool) (n : Int) (bh : BHeap) (hnew : New n = some bh) :
    (∀ u, 2 ≤ u → u < 2 ^ 64 → 1 ≤ bh.parent u ∧ bh.parent u < u) ∧
      (∀ (h : List α) (u : Nat), u < 2 ^ 64 → bh.up lt h u ≠ Res.timeout) ∧
      (∀ (h : List α) (u : Nat), h.length < 2 ^ 63 → 1 ≤ u → u ≤ h.length →
        ∃ h1 u1, bh.up lt h u = Res.ok (h1, u1) ∧ 1 ≤ u1 ∧ u1 ≤ u) := by
  have hwf := New_wf n bh hnew
  refine ⟨fun u hu2 hu => parent_bounds bh hwf u hu2 hu, ?_, ?_⟩
  · intro h u hu
    unfold BHeap.up
    exact upLoop_ends lt bh hwf (u + 1) h u hu (by omega)
  · intro h u hlen hu1 hu
    obtain ⟨h1, u1, hrun, _, hle, hpos, _⟩ :=
      upLoop_total lt bh hwf (u + 1) h u hlen hu (by omega)
    refine ⟨h1, u1, ?_, hpos hu1, hle⟩
    unfold BHeap.up
    exact hrun

theorem up_terminates_witness :
    New 4 = some ⟨4, 3, 2⟩ ∧
      ((∀ u, 2 ≤ u → u < 2 ^ 64 →
        1 ≤ (⟨4, 3, 2⟩ : BHeap).parent u ∧ (⟨4, 3, 2⟩ : BHeap).parent u < u) ∧
      (∀ (h : List Int) (u : Nat), u < 2 ^ 64 →
        (⟨4, 3, 2⟩ : BHeap).up ltInt h u ≠ Res.timeout) ∧
      (∀ (h : List Int) (u : Nat), h.length < 2 ^ 63 → 1 ≤ u → u ≤ h.length →
        ∃ h1 u1, (⟨4, 3, 2⟩ : BHeap).up ltInt h u = Res.ok (h1, u1) ∧ 1 ≤ u1 ∧ u1 ≤ u)) :=
  ⟨by decide, up_terminates ltInt 4 ⟨4, 3, 2⟩ (by decide)⟩

end ClaimsC

end BHeapModel

namespace BHeapModel

/-! ## The loop of `New`: claims C12, C13 and C20 -/

/-- For a hint of at most `2 ^ 62` the loop of `New` exits, at the first `r ≥ s` with
`n ≤ 2 ^ r`. -/
theorem newLoop_exits (n : Int) (hn : n ≤ 2 ^ 62) :
    ∀ fuel s, 1 ≤ s → s ≤ 62 → 62 - s < fuel →
      ∃ r, newLoop n fuel s = some r ∧ s ≤ r ∧ r ≤ 62 ∧ n ≤ 2 ^ r ∧
        (r = s ∨ (2 : Int) ^ (r - 1) < n) := by
  intro fuel
  induction fuel with
  | zero => intro s _ _ hf; omega
  | succ fuel ih =>
    intro s hs1 hs hf
    unfold newLoop
    rw [shlInt_small s hs]
    by_cases hlt : (2 : Int) ^ s < n
    · rw [if_pos hlt]
      have hs61 : s ≤ 61 := by
        by_contra hc
        have e : s = 62 := by omega
        rw [e] at hlt
        omega
      have hs1 : add64 s 1 = s + 1 := by unfold add64; omega
      rw [hs1]
      obtain ⟨r, hrun, hsr, hr, hnr, hmin⟩ := ih (s + 1) (by omega) (by omega) (by omega)
      refine ⟨r, hrun, by omega, hr, hnr, Or.inr ?_⟩
      rcases hmin with hmin | hmin
      · rw [hmin, Nat.add_sub_cancel]
        exact hlt
      · exact hmin
    · rw [if_neg hlt]
      exact ⟨s, rfl, le_refl _, hs, by omega, Or.inl rfl⟩

/-- For a hint of at most `2 ^ 62`, `New` returns the configuration of the first shift
`s ≥ 1` with `n ≤ 2 ^ s`, where a hint `n ≤ 0` is replaced by 512. -/
theorem New_returns (n : Int) (hn : n ≤ 2 ^ 62) :
    ∃ s, New n = some (BHeap.ofShift s) ∧ 1 ≤ s ∧ s ≤ 62 ∧
      (if n ≤ 0 then DefaultPageSize else n) ≤ 2 ^ s ∧
      (s = 1 ∨ (2 : Int) ^ (s - 1) < (if n ≤ 0 then DefaultPageSize else n)) := by
  have hn1 : (if n ≤ 0 then DefaultPageSize else n) ≤ 2 ^ 62 := by
    split
    · decide
    · exact hn
  obtain ⟨s, hrun, hs1, hs, hle, hmin⟩ :=
    newLoop_exits _ hn1 64 1 (le_refl _) (by omega) (by omega)
  refine ⟨s, ?_, hs1, hs, hle, hmin⟩
  have hp : (1 : Nat) ≤ 2 ^ s := Nat.one_le_two_pow
  have h1 : (2 : Nat) ^ s ≤ 2 ^ 62 := Nat.pow_le_pow_right (by norm_num) hs
  have hsub : sub64 (2 ^ s) 1 = 2 ^ s - 1 := by
    unfold sub64
    generalize (2 : Nat) ^ s = x at h1 hp ⊢
    omega
  unfold New NewFuel
  simp only [hrun]
  rw [shl64_one s hs, hsub]
  rfl

/-- For a hint above `2 ^ 62` every test of the loop of `New` succeeds: `1 << s` is at
most `2 ^ 62` for `s ≤ 62`, negative for `s = 63` and zero from `s = 64` on. -/
theorem shlInt_lt_of_large (n : Int) (hn : 2 ^ 62 < n) : ∀ s, shlInt s < n := by
  intro s
  by_cases hs : s ≤ 62
  · rw [shlInt_small s hs]
    have h1 : (2 : Int) ^ s ≤ 2 ^ 62 := pow_le_pow_right₀ (by norm_num) hs
    omega
  · by_cases h63 : s = 63
    · rw [h63, shlInt_63]
      omega
    · have e : shlInt s = 0 := by unfold shlInt; rw [if_pos (by omega)]
      rw [e]
      omega

/-- For a hint above `2 ^ 62` the function `New` returns with no amount of fuel. -/
theorem New_diverges_of_large (n : Int) (hn : 2 ^ 62 < n) : ∀ fuel, NewFuel fuel n = none := by
  intro fuel
  unfold NewFuel
  rw [if_neg (by omega)]
  simp only [newLoop_never n (shlInt_lt_of_large n hn) fuel 1]

/-- C12. For every page-size hint `n ≤ 2 ^ 62`, `New(n)` returns a configuration whose page
size is a power of two not below `n`, with `pageMask = pageSize - 1` and
`pageSize = 2 ^ pageShift`; for `n ≤ 0` it is page size 512, mask `0x1FF`, shift 9, and the
hints 505 and 512 give that same configuration. -/
theorem New_configuration (n : Int) (hn : n ≤ 2 ^ 62) :
    (∃ bh, New n = some bh ∧ (∃ k, bh.pageSize = 2 ^ k) ∧ n ≤ bh.pageSize ∧
        bh.pageMask = bh.pageSize - 1 ∧ bh.pageSize = 2 ^ bh.pageShift) ∧
      (n ≤ 0 → New n = some ⟨512, 0x1FF, 9⟩) ∧
      New 505 = some ⟨512, 0x1FF, 9⟩ ∧ New 512 = some ⟨512, 0x1FF, 9⟩ := by
  refine ⟨?_, ?_, by decide, by decide⟩
  · obtain ⟨s, hrun, _, _, hle, _⟩ := New_returns n hn
    refine ⟨BHeap.ofShift s, hrun, ⟨s, rfl⟩, ?_, rfl, rfl⟩
    have hn' : n ≤ (if n ≤ 0 then DefaultPageSize else n) := by
      split
      · unfold DefaultPageSize
        omega
      · exact le_refl _
    have hc : (((BHeap.ofShift s).pageSize : Nat) : Int) = 2 ^ s := by
      unfold BHeap.ofShift
      push_cast
      rfl
    rw [hc]
    exact le_trans hn' hle
  · intro h0
    unfold New NewFuel
    simp only [if_pos h0]
    decide

theorem New_configuration_witness :
    (505 : Int) ≤ 2 ^ 62 ∧
      ((∃ bh, New 505 = some bh ∧ (∃ k, bh.pageSize = 2 ^ k) ∧ (505 : Int) ≤ bh.pageSize ∧
        bh.pageMask = bh.pageSize - 1 ∧ bh.pageSize = 2 ^ bh.pageShift) ∧
      ((505 : Int) ≤ 0 → New 505 = some ⟨512, 0x1FF, 9⟩) ∧
      New 505 = some ⟨512, 0x1FF, 9⟩ ∧ New 512 = some ⟨512, 0x1FF, 9⟩) :=
  ⟨by decide, New_configuration 505 (by decide)⟩

/-- C13 as stated fails at the hint 1: `New(1)` returns page size 2, although `2 ^ 0 = 1`
is a power of two that is not below 1 and is smaller than 2. -/
theorem New_one_gives_page_size_two :
    New 1 = some ⟨2, 1, 1⟩ ∧ (1 : Int) ≤ 2 ^ 0 ∧
      (2 : Nat) ^ 0 < (⟨2, 1, 1⟩ : BHeap).pageSize := by
  decide

/-- C13, amended. For every positive page-size hint `n ≤ 2 ^ 62`, `New(n).pageSize` is the
smallest power of two `2 ^ s` with `s ≥ 1` that is not below `n`: the loop starts at
`s = 1`, so the smallest page size is 2. -/
theorem New_pageSize_least (n : Int) (h0 : 0 < n) (hn : n ≤ 2 ^ 62) :
    ∃ bh, New n = some bh ∧ (∃ s, 1 ≤ s ∧ bh.pageSize = 2 ^ s) ∧ n ≤ bh.pageSize ∧
      ∀ k : Nat, 1 ≤ k → n ≤ 2 ^ k → bh.pageSize ≤ 2 ^ k := by
  obtain ⟨s, hrun, hs1, _, hle, hmin⟩ := New_returns n hn
  rw [if_neg (by omega)] at hle hmin
  have hc : (((BHeap.ofShift s).pageSize : Nat) : Int) = 2 ^ s := by
    unfold BHeap.ofShift
    push_cast
    rfl
  refine ⟨BHeap.ofShift s, hrun, ⟨s, hs1, rfl⟩, by rw [hc]; exact hle, ?_⟩
  intro k hk hnk
  have hpage : (BHeap.ofShift s).pageSize = 2 ^ s := rfl
  rw [hpage]
  apply Nat.pow_le_pow_right (by norm_num)
  rcases hmin with hmin | hmin
  · omega
  · have hlt : (2 : Int) ^ (s - 1) < 2 ^ k := lt_of_lt_of_le hmin hnk
    have hlt' : (2 : Nat) ^ (s - 1) < 2 ^ k := by exact_mod_cast hlt
    have := (Nat.pow_lt_pow_iff_right (by norm_num : 1 < 2)).mp hlt'
    omega

theorem New_pageSize_least_witness :
    (0 : Int) < 5 ∧ (5 : Int) ≤ 2 ^ 62 ∧
      ∃ bh, New 5 = some bh ∧ (∃ s, 1 ≤ s ∧ bh.pageSize = 2 ^ s) ∧ (5 : Int) ≤ bh.pageSize ∧
        ∀ k : Nat, 1 ≤ k → (5 : Int) ≤ 2 ^ k → bh.pageSize ≤ 2 ^ k :=
  ⟨by decide, by decide, New_pageSize_least 5 (by decide) (by decide)⟩

/-- C20 fails at the hint `2 ^ 62 + 1`: every test `(1 << s) < pageSize` of the loop of
`New` succeeds, for `1 << s` is at most `2 ^ 62` up to `s = 62`, is `-2 ^ 63` at `s = 63`
and is 0 from `s = 64` on, so the loop exits with no number of iterations and `New`
returns nothing. -/
theorem New_loops_on_large_hint :
    (∀ s, shlInt s < 2 ^ 62 + 1) ∧ (∀ fuel s, newLoop (2 ^ 62 + 1) fuel s = none) ∧
      (∀ fuel, NewFuel fuel (2 ^ 62 + 1) = none) ∧ New (2 ^ 62 + 1) = none :=
  ⟨shlInt_lt_of_large _ (by norm_num),
    newLoop_never _ (shlInt_lt_of_large _ (by norm_num)),
    New_diverges_of_large _ (by norm_num),
    New_diverges_of_large _ (by norm_num) 64⟩

end BHeapModel

namespace BHeapModel

/-! ## The rounds of `down`: claims C17, C19 and C14 -/

section Rounds

variable {α : Type}

/-- C17 as stated fails. At page size 4 on `[5, 1, 2]` the candidate child of position 1 is
position 2, inside the container, and the element 5 at position 1 is not less than the
element 1 at position 2: `down` does not stop there, it exchanges the two and returns
position 2. On `[1, 5, 6]` the element 1 at position 1 is less than the element 5 at the
candidate position 2: `down` does not exchange them, it returns position 1 at once. -/
theorem down_stops_when_less_not_otherwise :
    New 4 = some ⟨4, 3, 2⟩ ∧
      BHeap.candidate ltInt [5, 1, 2] ((⟨4, 3, 2⟩ : BHeap).child 1).1
        ((⟨4, 3, 2⟩ : BHeap).child 1).2 = Res.ok 2 ∧
      ltInt 5 1 = false ∧
      (⟨4, 3, 2⟩ : BHeap).down ltInt [5, 1, 2] 1 = Res.ok ([1, 5, 2], 2) ∧
      (⟨4, 3, 2⟩ : BHeap).down ltInt [5, 1, 2] 1 ≠ Res.ok ([5, 1, 2], 1) ∧
      BHeap.candidate ltInt [1, 5, 6] ((⟨4, 3, 2⟩ : BHeap).child 1).1
        ((⟨4, 3, 2⟩ : BHeap).child 1).2 = Res.ok 2 ∧
      ltInt 1 5 = true ∧
      (⟨4, 3, 2⟩ : BHeap).down ltInt [1, 5, 6] 1 = Res.ok ([1, 5, 6], 1) := by
  decide

/-- C17, amended. In a round of `down` at a position `u` whose left child is inside the
container, with `c` the chosen candidate child, `a` the element at `u` and `b` the element
at `c`: if `a` is less than `b`, `down` stops and returns `u` without an exchange;
otherwise, ties included, it exchanges the elements at `u` and `c` and continues from
`c`. -/
theorem down_round (lt : α → α → Bool) (bh : BHeap) (fuel : Nat) (h : List α) (u c : Nat)
    (a b : α) (hlen : h.length < 2 ^ 63)
    (hin : (bh.child u).1 < h.length + 1)
    (hc : BHeap.candidate lt h (bh.child u).1 (bh.child u).2 = Res.ok c)
    (ha : pget h u = some a) (hb : pget h c = some b) :
    (lt a b = true → bh.downLoop lt (fuel + 1) h u = Res.ok (h, u)) ∧
      (lt a b = false →
        bh.downLoop lt (fuel + 1) h u
          = bh.downLoop lt fuel ((h.set (u - 1) b).set (c - 1) a) c) := by
  have hrun : bh.downLoop lt (fuel + 1) h u
      = match lt a b with
        | true => Res.ok (h, u)
        | false => bh.downLoop lt fuel ((h.set (u - 1) b).set (c - 1) a) c := by
    rw [BHeap.downLoop]
    simp only [len_succ64 h hlen]
    rw [if_neg (by omega)]
    simp only [hc, Less_some lt h u c a b hlen ha hb, Swap_some h u c a b hlen ha hb]
    cases lt a b <;> rfl
  constructor
  · intro hlt
    rw [hrun, hlt]
  · intro hlt
    rw [hrun, hlt]

theorem down_round_witness :
    ([5, 1, 2] : List Int).length < 2 ^ 63 ∧
      ((⟨4, 3, 2⟩ : BHeap).child 1).1 < ([5, 1, 2] : List Int).length + 1 ∧
      BHeap.candidate ltInt [5, 1, 2] ((⟨4, 3, 2⟩ : BHeap).child 1).1
        ((⟨4, 3, 2⟩ : BHeap).child 1).2 = Res.ok 2 ∧
      pget ([5, 1, 2] : List Int) 1 = some 5 ∧ pget ([5, 1, 2] : List Int) 2 = some 1 ∧
      ((ltInt 5 1 = true →
        (⟨4, 3, 2⟩ : BHeap).downLoop ltInt (4 + 1) [5, 1, 2] 1 = Res.ok ([5, 1, 2], 1)) ∧
      (ltInt 5 1 = false →
        (⟨4, 3, 2⟩ : BHeap).downLoop ltInt (4 + 1) [5, 1, 2] 1
          = (⟨4, 3, 2⟩ : BHeap).downLoop ltInt 4
              ((([5, 1, 2] : List Int).set (1 - 1) 1).set (2 - 1) 5) 2)) :=
  ⟨by decide, by decide, by decide, by decide, by decide,
    down_round ltInt ⟨4, 3, 2⟩ 4 [5, 1, 2] 1 2 5 1 (by decide) (by decide) (by decide)
      (by decide) (by decide)⟩

end Rounds

/-- On a container of `2 ^ 33 + 2 ^ 32` zeros, at page size `2 ^ 33`, `down` from the root
never returns. -/
theorem down_of_zeros (g : List Int) (hlen : g.length = 2 ^ 33 + 2 ^ 32)
    (hall : ∀ w, 1 ≤ w → w ≤ 2 ^ 33 + 2 ^ 32 → pget g w = some 0) :
    (∀ fuel, (BHeap.ofShift 33).downLoop ltInt fuel g rootIndex = Res.timeout) ∧
      (BHeap.ofShift 33).down ltInt g rootIndex = Res.timeout := by
  obtain ⟨_, hnever, _⟩ := fix_of_zeros g hlen hall
  refine ⟨hnever, ?_⟩
  rw [BHeap.down]
  exact hnever _

/-- C19, on a container too long for the child computation. `New(1 << 33)` returns the
configuration of page size `2 ^ 33`. The position `2 ^ 33 + 2 ^ 32` is inside the
container of `2 ^ 33 + 2 ^ 32` zeros, and `child` returns for it the wrapped positions
`(2 ^ 33, 2 ^ 33 + 1)`, which are not above it. From the start position 1, `down` on that
container does not visit strictly increasing positions and never returns, whatever the
fuel. -/
theorem down_never_returns_on_overflow :
    New (2 ^ 33) = some (BHeap.ofShift 33) ∧
      (BHeap.ofShift 33).child (2 ^ 33 + 2 ^ 32) = (2 ^ 33, 2 ^ 33 + 1) ∧
      (∀ fuel, (BHeap.ofShift 33).downLoop ltInt fuel
          (List.replicate (2 ^ 33 + 2 ^ 32) 0) rootIndex = Res.timeout) ∧
      (BHeap.ofShift 33).down ltInt (List.replicate (2 ^ 33 + 2 ^ 32) 0) rootIndex
        = Res.timeout :=
  ⟨by decide, by decide, down_of_zeros _ (List.length_replicate _ _) (pget_zeros _)⟩

section Drain

variable {α : Type}

theorem pushAll_total (lt : α → α → Bool) (bh : BHeap) (hwf : bh.WF) :
    ∀ (xs h : List α), h.length + xs.length < 2 ^ 63 →
      ∃ h1, bh.pushAll lt h xs = Res.ok h1 ∧ h1.Perm (h ++ xs) := by
  intro xs
  induction xs with
  | nil =>
    intro h _
    exact ⟨h, rfl, by simp⟩
  | cons x xs ih =>
    intro h hlen
    simp only [List.length_cons] at hlen
    obtain ⟨h1, u, hrun, hperm, _⟩ := Push_total lt bh hwf h x (by omega)
    have hl1 : h1.length = h.length + 1 := by rw [hperm.length_eq]; simp
    obtain ⟨h2, hrun2, hperm2⟩ := ih h1 (by omega)
    refine ⟨h2, ?_, ?_⟩
    · unfold BHeap.pushAll
      simp only [hrun]
      exact hrun2
    · refine hperm2.trans ?_
      have := List.Perm.append_right xs hperm
      simpa using this

theorem popN_total (lt : α → α → Bool) (bh : BHeap) (hwf : bh.WF) :
    ∀ (m : Nat) (h : List α), h.length = m → h.length < 2 ^ 63 → bh.Fits h.length →
      ∃ vs, bh.popN lt m h = Res.ok (vs, []) ∧ vs.Perm h := by
  intro m
  induction m with
  | zero =>
    intro h hm _ _
    have : h = [] := List.length_eq_zero.mp hm
    subst this
    exact ⟨[], rfl, List.Perm.refl _⟩
  | succ m ih =>
    intro h hm hlen hfits
    obtain ⟨h1, a, hrun, _, hperm⟩ := Pop_total lt bh hwf h (by omega) hlen hfits
    have hl1 : h1.length = m := by
      have := hperm.length_eq
      simp only [List.length_cons] at this
      omega
    obtain ⟨vs, hrun1, hperm1⟩ :=
      ih h1 hl1 (by omega) (fits_mono bh _ _ (by omega) hfits)
    refine ⟨a :: vs, ?_, (List.Perm.cons a hperm1).trans hperm.symm⟩
    unfold BHeap.popN
    simp only [hrun, hrun1]

/-- On a list short enough that no child position up to its length overflows 64 bits,
pushing the elements into the empty container and calling `Pop` as many times returns a
permutation of the list and leaves the container empty, at every page size and for every
comparison. -/
theorem push_all_pop_all_perm (lt : α → α → Bool) (bh : BHeap) (hwf : bh.WF) (xs : List α)
    (hlen : xs.length < 2 ^ 63) (hfits : bh.Fits xs.length) :
    ∃ h vs, bh.pushAll lt [] xs = Res.ok h ∧ bh.popN lt xs.length h = Res.ok (vs, []) ∧
      vs.Perm xs := by
  obtain ⟨h, hrun, hperm⟩ := pushAll_total lt bh hwf xs [] (by simpa using hlen)
  rw [List.nil_append] at hperm
  have hl : h.length = xs.length := hperm.length_eq
  obtain ⟨vs, hrun2, hperm2⟩ :=
    popN_total lt bh hwf xs.length h hl (by omega) (by rw [hl]; exact hfits)
  exact ⟨h, vs, hrun, hrun2, hperm2.trans hperm⟩

end Drain

/-- Pushing `2 ^ 33 + 2 ^ 32 + 1` zeros into an empty container at page size `2 ^ 33`
succeeds, and the first `Pop` that follows never returns. -/
theorem push_pop_of_zeros (xs : List Int) (hlen : xs.length = 2 ^ 33 + 2 ^ 32 + 1)
    (hall : ∀ x, x ∈ xs → x = 0) :
    ∃ h, (BHeap.ofShift 33).pushAll ltInt [] xs = Res.ok h ∧ h.Perm xs ∧
      (∃ h1 h2 v,
        myHeap.Swap h 0 (wrapInt (myHeap.Len h - 1)) = Res.ok h1 ∧
        myHeap.Pop h1 = Res.ok (h2, v) ∧
        ∀ fuel, (BHeap.ofShift 33).downLoop ltInt fuel h2 rootIndex = Res.timeout) ∧
      (BHeap.ofShift 33).Pop ltInt h = Res.timeout ∧
      (BHeap.ofShift 33).popN ltInt (2 ^ 33 + 2 ^ 32 + 1) h = Res.timeout := by
  obtain ⟨h, hrun, _, hperm⟩ :=
    pushAll_heap (BHeap.ofShift 33) wf_ofShift_33 xs [] (by simp only [List.length_nil]; omega)
      (heapInv_nil ltInt _)
  rw [List.nil_append] at hperm
  have hl : h.length = 2 ^ 33 + 2 ^ 32 + 1 := by rw [hperm.length_eq, hlen]
  have hz : ∀ w, 1 ≤ w → w ≤ 2 ^ 33 + 2 ^ 32 + 1 → pget h w = some 0 := by
    intro w hw1 hw
    obtain ⟨x, hx⟩ := (pget_some_iff h w).mpr ⟨hw1, by omega⟩
    rw [hx, hall x (hperm.mem_iff.mp (pget_mem h w x hx))]
  obtain ⟨hparts, hpop⟩ := pop_of_zeros h hl hz
  refine ⟨h, hrun, hperm, hparts, hpop, ?_⟩
  rw [BHeap.popN]
  simp only [hpop]

/-- C14, on a list too long for the child computation. `New(1 << 33)` returns the
configuration of page size `2 ^ 33`. Pushing `2 ^ 33 + 2 ^ 32 + 1` copies of the value 0
into an empty container succeeds and leaves a permutation of the pushed list. In the
first `Pop` after that the exchange of slot 0 with the last slot and the container's `Pop`
succeed, and the `down` that follows never returns, whatever the fuel: the `Pop` calls
return nothing, so the copies do not come back. -/
theorem push_all_pop_all_never_returns_on_overflow :
    New (2 ^ 33) = some (BHeap.ofShift 33) ∧
      ∃ h, (BHeap.ofShift 33).pushAll ltInt [] (List.replicate (2 ^ 33 + 2 ^ 32 + 1) 0)
          = Res.ok h ∧
        h.Perm (List.replicate (2 ^ 33 + 2 ^ 32 + 1) 0) ∧
        (∃ h1 h2 v,
          myHeap.Swap h 0 (wrapInt (myHeap.Len h - 1)) = Res.ok h1 ∧
          myHeap.Pop h1 = Res.ok (h2, v) ∧
          ∀ fuel, (BHeap.ofShift 33).downLoop ltInt fuel h2 rootIndex = Res.timeout) ∧
        (BHeap.ofShift 33).Pop ltInt h = Res.timeout ∧
        (BHeap.ofShift 33).popN ltInt (2 ^ 33 + 2 ^ 32 + 1) h = Res.timeout :=
  ⟨by decide,
    push_pop_of_zeros _ (List.length_replicate _ _) (fun _ hx => List.eq_of_mem_replicate hx)⟩

end BHeapModel
